import Mathlib

/-!
# patch-package: hunk matching, edit application and the apply protocol

A shallow embedding of `dist/patch/apply.js` and of the top-level `applyPatch`
of `dist/applyPatches.js`, with the properties of the patch engine proved
about it.

Conventions of the embedding.

* A JavaScript string is a Lean `String`; an array of lines is a `List String`.
* JavaScript integers are `Int`; array lengths and line counts are `Nat`.
* A JavaScript exception is the `Except.error` case, `null` is `none`.
* Reading an array outside its bounds gives `undefined` (`none`, see `jsIndex`);
  `trimRight(undefined)` raises a `TypeError`.
* `console.log` calls are not modelled.
-/

namespace PatchPackage

/-! ## Data model (the parsed patch, as consumed by `apply.js`) -/

/-- The `type` tag of a hunk part. -/
inductive PartType where
  | context
  | insertion
  | deletion
  deriving DecidableEq, Repr

/-- One part of a hunk: `{ type, lines, noNewlineAtEndOfFile }`. -/
structure HunkPart where
  type : PartType
  lines : List String
  noNewlineAtEndOfFile : Bool
  deriving DecidableEq, Repr

/-- A `{ start, length }` range of a hunk header. `start` is a 1-based line
number and `length` a line count. -/
structure HunkRange where
  start : Nat
  length : Nat
  deriving DecidableEq, Repr

/-- The header of a hunk: `{ original, modified }`. -/
structure HunkHeader where
  original : HunkRange
  modified : HunkRange
  deriving DecidableEq, Repr

/-- A hunk: `{ header, parts, source }`. -/
structure Hunk where
  header : HunkHeader
  parts : List HunkPart
  source : String
  deriving DecidableEq, Repr

/-- The `Modification` union of `apply.js`: `splice`, `pop` and `push`. -/
inductive Modification where
  | splice (index : Int) (numToDelete : Nat) (linesToInsert : List String)
  | pop
  | push (line : String)
  deriving DecidableEq, Repr

/-! ## JavaScript primitives used by `apply.js` -/

/-- The characters matched by `\s` in a JavaScript regular expression
(ECMAScript `WhiteSpace` and `LineTerminator`). -/
def isJsWhiteSpace (c : Char) : Bool :=
  let n := c.toNat
  n = 0x09 || n = 0x0A || n = 0x0B || n = 0x0C || n = 0x0D || n = 0x20 ||
  n = 0xA0 || n = 0x1680 || (0x2000 ≤ n && n ≤ 0x200A) || n = 0x2028 ||
  n = 0x2029 || n = 0x202F || n = 0x205F || n = 0x3000 || n = 0xFEFF

/-- The function `trimRight = (s) => s.replace(/\s+$/, "")`: the longest run
of white space that ends the string is removed. -/
def trimRight (s : String) : String :=
  ⟨s.data.rdropWhile isJsWhiteSpace⟩

/-- The function `linesAreEqual(a, b)`: `trimRight(a) === trimRight(b)`. -/
def linesAreEqual (a b : String) : Bool :=
  decide (trimRight a = trimRight b)

/-- The expression `xs[i]` for an integer `i`: `undefined` (here `none`)
outside `0 .. xs.length - 1`. -/
def jsIndex {α : Type} (xs : List α) (i : Int) : Option α :=
  if i < 0 then none else xs[i.toNat]?

/-- The error raised by `trimRight(undefined)`. -/
def undefinedLineError : String :=
  "TypeError: Cannot read properties of undefined (reading 'replace')"

/-! ## `evaluateHunk` -/

deriving instance DecidableEq for Except

/-- The outcome of one call of `evaluateHunk`, with the indices at which
`fileLines` was read recorded in call order (`reads` is not a value of the
program, it records the reads `fileLines[contextIndex]` the call performs). -/
structure Evaluation where
  reads : List Int
  result : Except String (Option (List Modification))

/-- The inner loop `for (const line of part.lines)` of `evaluateHunk`, started
with cursor `contextIndex`. The result is the list of indices read, and either
the error raised, `none` for `return null`, or the cursor after the loop. -/
def matchLines (fileLines : List String) :
    Int → List String → List Int → List Int × Except String (Option Int)
  | contextIndex, [], reads => (reads, .ok (some contextIndex))
  | contextIndex, line :: rest, reads =>
    match jsIndex fileLines contextIndex with
    | none => (reads ++ [contextIndex], .error undefinedLineError)
    | some originalLine =>
      if !linesAreEqual originalLine line then
        (reads ++ [contextIndex], .ok none)
      else
        matchLines fileLines (contextIndex + 1) rest (reads ++ [contextIndex])

/-- The loop `for (const part of hunk.parts)` of `evaluateHunk`, with the
cursor `contextIndex` and the `result` array built so far. -/
def evaluateParts (fileLines : List String) :
    Int → List HunkPart → List Modification → List Int → Evaluation
  | _, [], result, reads => ⟨reads, .ok (some result)⟩
  | contextIndex, part :: parts, result, reads =>
    match part.type with
    | .insertion =>
      let result := result ++ [Modification.splice contextIndex 0 part.lines]
      let result := if part.noNewlineAtEndOfFile then result ++ [Modification.pop] else result
      evaluateParts fileLines contextIndex parts result reads
    | _ =>
      match matchLines fileLines contextIndex part.lines reads with
      | (reads, .error e) => ⟨reads, .error e⟩
      | (reads, .ok none) => ⟨reads, .ok none⟩
      | (reads, .ok (some contextIndex)) =>
        if part.type = PartType.deletion then
          let result := result ++
            [Modification.splice (contextIndex - part.lines.length) part.lines.length []]
          let result :=
            if part.noNewlineAtEndOfFile then result ++ [Modification.push ""] else result
          evaluateParts fileLines contextIndex parts result reads
        else
          evaluateParts fileLines contextIndex parts result reads

/-- The function `evaluateHunk(hunk, fileLines, fuzzingOffset)`. -/
def evaluateHunk (hunk : Hunk) (fileLines : List String) (fuzzingOffset : Int) : Evaluation :=
  let contextIndex : Int := (hunk.header.original.start : Int) - 1 + fuzzingOffset
  if contextIndex < 0 then
    ⟨[], .ok none⟩
  else if (fileLines.length : Int) - contextIndex < (hunk.header.original.length : Int) then
    ⟨[], .ok none⟩
  else
    evaluateParts fileLines contextIndex hunk.parts [] []

/-! ## The fuzz search of `applyPatch` (`apply.js`) -/

/-- How the `while (true)` loop of `applyPatch` ends for one hunk: with the
modifications of the first matching offset, with the hunk declared
unresolvable (`Math.abs(fuzzingOffset) > 20`), or with an error raised by
`evaluateHunk`. -/
inductive SearchOutcome where
  | matched (modifications : List Modification)
  | unresolvable
  | threw (e : String)
  deriving DecidableEq, Repr

/-- The fuzz search for one hunk: the offsets passed to `evaluateHunk`, in call
order (`probes` records the calls, it is not a value of the program), and the
way the loop ended. -/
structure FuzzSearch where
  probes : List Int
  outcome : SearchOutcome
  deriving DecidableEq, Repr

/-- The update `fuzzingOffset < 0 ? fuzzingOffset * -1 : fuzzingOffset * -1 - 1`. -/
def nextFuzzingOffset (fuzzingOffset : Int) : Int :=
  if fuzzingOffset < 0 then fuzzingOffset * -1 else fuzzingOffset * -1 - 1

/-- The `while (true)` loop of `applyPatch` for one hunk, entered with the
current `fuzzingOffset`. -/
def fuzzLoop (hunk : Hunk) (fileLines : List String) (fuzzingOffset : Int)
    (probes : List Int) : FuzzSearch :=
  match (evaluateHunk hunk fileLines fuzzingOffset).result with
  | .error e => ⟨probes ++ [fuzzingOffset], .threw e⟩
  | .ok (some modifications) => ⟨probes ++ [fuzzingOffset], .matched modifications⟩
  | .ok none =>
    if (nextFuzzingOffset fuzzingOffset).natAbs > 20 then
      ⟨probes ++ [fuzzingOffset], .unresolvable⟩
    else
      fuzzLoop hunk fileLines (nextFuzzingOffset fuzzingOffset) (probes ++ [fuzzingOffset])
termination_by 2 * (21 - fuzzingOffset.natAbs) + (if fuzzingOffset < 0 then 1 else 0)
decreasing_by
  simp only [nextFuzzingOffset] at *
  split_ifs at * <;> omega

/-- The body of `for (const hunk of hunks)` up to the `break`: the search
starts with `let fuzzingOffset = 0`. -/
def fuzzSearch (hunk : Hunk) (fileLines : List String) : FuzzSearch :=
  fuzzLoop hunk fileLines 0 []

/-! ## Applying the modifications (`applyPatch`, `apply.js`, second half) -/

/-- The call `xs.splice(start, deleteCount, ...items)` of `Array.prototype`,
as the array left in `xs`: a negative `start` counts from the end, and both
`start` and `deleteCount` are clamped to the array. -/
def jsSplice {α : Type} (xs : List α) (start : Int) (deleteCount : Nat) (items : List α) :
    List α :=
  let actualStart : Nat :=
    if start < 0 then ((xs.length : Int) + start).toNat else min start.toNat xs.length
  let actualDeleteCount : Nat := min deleteCount (xs.length - actualStart)
  xs.take actualStart ++ items ++ xs.drop (actualStart + actualDeleteCount)

/-- The state of the loops over `result`: the array `fileLines` and the
counter `diffOffset`. -/
structure ApplyState where
  fileLines : List String
  diffOffset : Int
  deriving DecidableEq, Repr

/-- The `switch (modification.type)` of `applyPatch` for one modification. -/
def applyModification (st : ApplyState) : Modification → ApplyState
  | .splice index numToDelete linesToInsert =>
    { fileLines := jsSplice st.fileLines (index + st.diffOffset) numToDelete linesToInsert
      diffOffset := st.diffOffset + ((linesToInsert.length : Int) - (numToDelete : Int)) }
  | .pop => { st with fileLines := st.fileLines.dropLast }
  | .push line => { st with fileLines := st.fileLines ++ [line] }

/-- The loops `for (const modifications of result) for (const modification of
modifications)` of `applyPatch`, started with `diffOffset = 0`; the value is
the final `fileLines`. -/
def applyModifications (fileLines : List String) (result : List (List Modification)) :
    List String :=
  (result.foldl
    (fun (st : ApplyState) (modifications : List Modification) =>
      modifications.foldl applyModification st)
    (ApplyState.mk fileLines 0)).fileLines

/-- The message `Cannot apply hunk ${hunks.indexOf(hunk)} for file ${path}...`.
The hunks of a parsed patch are distinct objects, so `hunks.indexOf(hunk)` is
the position of the hunk in the loop. -/
def cannotApplyHunkMessage (index : Nat) (path : String) (hunk : Hunk) : String :=
  "Cannot apply hunk " ++ toString index ++ " for file " ++ path ++
    "\n```diff\n" ++ hunk.source ++ "\n```\n"

/-- The call `errors?.push(message)`: nothing happens when `errors` is
`undefined` (`none`). -/
def pushError (errors : Option (List String)) (message : String) : Option (List String) :=
  errors.map (fun es => es ++ [message])

/-- The loop `for (const hunk of hunks)` of `applyPatch`: the `result` array
(one list of modifications per matched hunk) and the `errors` array, or the
error raised. `index` is the position of the first hunk of the list in
`hunks`. -/
def searchHunks (fileLines : List String) (bestEffort : Bool) (path : String) :
    List Hunk → Nat → List (List Modification) → Option (List String) →
    Except String (List (List Modification)) × Option (List String)
  | [], _, result, errors => (.ok result, errors)
  | hunk :: hunks, index, result, errors =>
    match (fuzzSearch hunk fileLines).outcome with
    | .matched modifications =>
      searchHunks fileLines bestEffort path hunks (index + 1) (result ++ [modifications]) errors
    | .threw e => (.error e, errors)
    | .unresolvable =>
      if bestEffort then
        searchHunks fileLines bestEffort path hunks (index + 1) result
          (pushError errors (cannotApplyHunkMessage index path hunk))
      else
        (.error (cannotApplyHunkMessage index path hunk), errors)

/-- The line feed character. -/
def lineFeed : Char := Char.ofNat 10

/-- The split of a list of characters at every line feed; the result is
never empty. -/
def splitChars : List Char → List (List Char)
  | [] => [[]]
  | c :: cs =>
    if c = lineFeed then [] :: splitChars cs
    else
      match splitChars cs with
      | [] => [[c]]
      | l :: ls => (c :: l) :: ls

/-- The call `fileContents.split(/\n/)`. -/
def splitLines (fileContents : String) : List String :=
  (splitChars fileContents.data).map String.mk

/-- The call `fileLines.join("\n")`. -/
def joinLines (fileLines : List String) : String :=
  (String.singleton lineFeed).intercalate fileLines

/-! ## The file system (`fs-extra`, `path`)

The functions of `fs-extra` and `path` that `apply.js` calls are library
code. They are modelled on a flat file system: a map from paths to nodes, a
node being a regular file with its content and mode, or a directory with its
mode. Parent directories are not tracked, so `ensureDirSync` changes nothing. -/

/-- A node of the file system. -/
inductive Node where
  | file (content : String) (mode : Nat)
  | dir (mode : Nat)
  deriving DecidableEq, Repr

/-- The file system: the node at each path, `none` where nothing exists. -/
abbrev FileSystem := String → Option Node

/-- The file system `fs` with the node at `path` replaced. -/
def FileSystem.set (fs : FileSystem) (path : String) (node : Option Node) : FileSystem :=
  fun p => if p = path then node else fs p

/-- The call `fs.existsSync(path)`. -/
def existsSync (fs : FileSystem) (path : String) : Bool :=
  (fs path).isSome

/-- The call `fs.readFileSync(path).toString()`. -/
def readFileSync (fs : FileSystem) (path : String) : Except String String :=
  match fs path with
  | some (.file content _) => .ok content
  | some (.dir _) => .error ("EISDIR: illegal operation on a directory, read " ++ path)
  | none => .error ("ENOENT: no such file or directory, open " ++ path)

/-- The value `fs.statSync(path).mode`. -/
def statSyncMode (fs : FileSystem) (path : String) : Except String Nat :=
  match fs path with
  | some (.file _ mode) => .ok mode
  | some (.dir mode) => .ok mode
  | none => .error ("ENOENT: no such file or directory, stat " ++ path)

/-- The call `fs.unlinkSync(path)`. -/
def unlinkSync (fs : FileSystem) (path : String) : Except String FileSystem :=
  match fs path with
  | some (.file _ _) => .ok (fs.set path none)
  | some (.dir _) => .error ("EISDIR: illegal operation on a directory, unlink " ++ path)
  | none => .error ("ENOENT: no such file or directory, unlink " ++ path)

/-- The call `fs.moveSync(src, dest)` of `fs-extra`, which does not overwrite. -/
def moveSync (fs : FileSystem) (src dest : String) : Except String FileSystem :=
  match fs src with
  | none => .error ("ENOENT: no such file or directory, lstat " ++ src)
  | some node =>
    if src = dest then .ok fs
    else if existsSync fs dest then .error "dest already exists."
    else .ok ((fs.set src none).set dest (some node))

/-- The call `fs.writeFileSync(path, data, { mode })`: the mode is used only
when the file is created. -/
def writeFileSync (fs : FileSystem) (path : String) (data : String) (mode : Nat) :
    Except String FileSystem :=
  match fs path with
  | none => .ok (fs.set path (some (.file data mode)))
  | some (.file _ oldMode) => .ok (fs.set path (some (.file data oldMode)))
  | some (.dir _) => .error ("EISDIR: illegal operation on a directory, open " ++ path)

/-- The call `fs.chmodSync(path, mode)`. -/
def chmodSync (fs : FileSystem) (path : String) (mode : Nat) : Except String FileSystem :=
  match fs path with
  | some (.file content _) => .ok (fs.set path (some (.file content mode)))
  | some (.dir _) => .ok (fs.set path (some (.dir mode)))
  | none => .error ("ENOENT: no such file or directory, chmod " ++ path)

/-- The calls `join(cwd, path)` and `resolve(cwd, path)` of `path`, for a
relative `path` without `.` and `..` segments. -/
def pathJoin (cwd path : String) : String :=
  cwd ++ "/" ++ path

/-- The expression `cwd ? join(cwd, path) : path` (`inCwd`), also used for
`cwd ? resolve(cwd, path) : path`; an absent or empty `cwd` is falsy. -/
def inCwd (cwd : Option String) (path : String) : String :=
  match cwd with
  | none => path
  | some c => if c = "" then path else pathJoin c path

/-- The function `humanReadable(path)`: `relative(process.cwd(), inCwd(path))`.
The working directory of the process is not modelled, the path is left as
`inCwd` gives it; the value is used in error messages only. -/
def humanReadable (cwd : Option String) (path : String) : String :=
  inCwd cwd path

/-! ## `executeEffects` and `applyPatch` of `apply.js` -/

/-- A part of a parsed patch file, with the fields `apply.js` reads (`path`,
`fromPath`, `toPath`, `mode`, `hunk`, `hunks`, `newMode`) and the fields of the
data model the reversal needs. -/
inductive Effect where
  | fileDeletion (path : String) (mode : Nat) (hunk : Option Hunk)
  | rename (fromPath toPath : String)
  | fileCreation (path : String) (mode : Nat) (hunk : Option Hunk)
  | patch (path : String) (hunks : List Hunk)
  | modeChange (path : String) (oldMode newMode : Nat)
  deriving DecidableEq, Repr

/-- The options `{ dryRun, bestEffort, cwd }` of `executeEffects`; the fourth
option, the array `errors`, is part of the state. -/
structure Options where
  dryRun : Bool
  bestEffort : Bool
  cwd : Option String

/-- What a call can change: the file system and the array `errors`
(`none` when the caller passed `undefined`). -/
structure World where
  fs : FileSystem
  errors : Option (List String)

/-- The state after a call, and the error it raised, if any. -/
structure Run where
  world : World
  thrown : Option String

/-- The pattern `try { ... } catch (e) { if (bestEffort) errors?.push(message)
else throw e }` around a file system call. -/
def bestEffortCatch (opts : Options) (w : World) (message : String) :
    Except String FileSystem → Run
  | .ok fs => ⟨{ w with fs := fs }, none⟩
  | .error e =>
    if opts.bestEffort then ⟨{ w with errors := pushError w.errors message }, none⟩
    else ⟨w, some e⟩

/-- The function `isExecutable(fileMode)`: `(fileMode & 64) > 0`. -/
def isExecutable (fileMode : Nat) : Bool :=
  decide ((fileMode &&& 64) > 0)

/-- The function `applyPatch({ hunks, path }, { dryRun, cwd, bestEffort,
errors })` of `apply.js`. -/
def Apply.applyPatch (hunks : List Hunk) (path : String) (opts : Options) (w : World) : Run :=
  let path := inCwd opts.cwd path
  match readFileSync w.fs path with
  | .error e => ⟨w, some e⟩
  | .ok fileContents =>
    match statSyncMode w.fs path with
    | .error e => ⟨w, some e⟩
    | .ok mode =>
      let fileLines := splitLines fileContents
      match searchHunks fileLines opts.bestEffort path hunks 0 [] w.errors with
      | (.error e, errors) => ⟨{ w with errors := errors }, some e⟩
      | (.ok result, errors) =>
        let w := { w with errors := errors }
        if opts.dryRun then ⟨w, none⟩
        else
          bestEffortCatch opts w ("Failed to write file " ++ path)
            (writeFileSync w.fs path (joinLines (applyModifications fileLines result)) mode)

/-- The body of `effects.forEach((eff) => { switch (eff.type) ... })`. -/
def executeEffect (opts : Options) (w : World) : Effect → Run
  | .fileDeletion path _ _ =>
    if opts.dryRun then
      if !existsSync w.fs (inCwd opts.cwd path) then
        ⟨w, some ("Trying to delete file that doesn't exist: " ++ humanReadable opts.cwd path)⟩
      else ⟨w, none⟩
    else
      bestEffortCatch opts w ("Failed to delete file " ++ path)
        (unlinkSync w.fs (inCwd opts.cwd path))
  | .rename fromPath toPath =>
    if opts.dryRun then
      if !existsSync w.fs (inCwd opts.cwd fromPath) then
        ⟨w, some ("Trying to move file that doesn't exist: " ++ humanReadable opts.cwd fromPath)⟩
      else ⟨w, none⟩
    else
      bestEffortCatch opts w ("Failed to rename file " ++ fromPath ++ " to " ++ toPath)
        (moveSync w.fs (inCwd opts.cwd fromPath) (inCwd opts.cwd toPath))
  | .fileCreation path mode hunk =>
    if opts.dryRun then
      if existsSync w.fs (inCwd opts.cwd path) then
        ⟨w, some ("Trying to create file that already exists: " ++ humanReadable opts.cwd path)⟩
      else ⟨w, none⟩
    else
      match hunk with
      | none =>
        bestEffortCatch opts w ("Failed to create new file " ++ path)
          (writeFileSync w.fs (inCwd opts.cwd path) "" mode)
      | some hunk =>
        match hunk.parts with
        | [] => ⟨w, some "TypeError: Cannot read properties of undefined (reading 'lines')"⟩
        | part :: _ =>
          bestEffortCatch opts w ("Failed to create new file " ++ path)
            (writeFileSync w.fs (inCwd opts.cwd path)
              (joinLines part.lines ++
                (if part.noNewlineAtEndOfFile then "" else String.singleton lineFeed))
              mode)
  | .patch path hunks => Apply.applyPatch hunks path opts w
  | .modeChange path _ newMode =>
    match statSyncMode w.fs (inCwd opts.cwd path) with
    | .error e => ⟨w, some e⟩
    | .ok _ =>
      match chmodSync w.fs (inCwd opts.cwd path) newMode with
      | .error e => ⟨w, some e⟩
      | .ok fs => ⟨{ w with fs := fs }, none⟩

/-- The function `executeEffects(effects, { dryRun, bestEffort, errors, cwd })`:
the effects are executed in order, and an error raised by one of them ends the
`forEach`. -/
def executeEffects (opts : Options) : List Effect → World → Run
  | [], w => ⟨w, none⟩
  | eff :: effects, w =>
    match executeEffect opts w eff with
    | ⟨w, some e⟩ => ⟨w, some e⟩
    | ⟨w, none⟩ => executeEffects opts effects w

/-! ## The reversal (`reverse.js`) -/

/-- Modelled from the spec: the exchange of `insertion` and `deletion` on one
part by `reverseHunk` of `dist/patch/reverse.js`, a file that is not among the
sources. Section 4.2: within every part, insertion and deletion are exchanged,
context parts are unchanged, and the `noNewlineAtEndOfFile` flag stays
attached to its part. -/
def reversePart (part : HunkPart) : HunkPart :=
  match part.type with
  | .context => part
  | .insertion => { part with type := .deletion }
  | .deletion => { part with type := .insertion }

/-- Modelled from the spec: `reverseHunk` of `dist/patch/reverse.js`, a file
that is not among the sources. Section 4.2: the `original` and `modified`
headers are exchanged and every part is reversed. -/
def reverseHunk (hunk : Hunk) : Hunk :=
  { header := { original := hunk.header.modified, modified := hunk.header.original }
    parts := hunk.parts.map reversePart
    source := hunk.source }

/-- Modelled from the spec: the reversal of one part of a patch file by
`reversePatch` of `dist/patch/reverse.js`, a file that is not among the
sources. Section 4.2: creation and deletion are exchanged, a rename is turned
around, a mode change goes from the new mode to the old one, and hunks are
reversed. -/
def reverseEffect : Effect → Effect
  | .fileDeletion path mode hunk => .fileCreation path mode (hunk.map reverseHunk)
  | .fileCreation path mode hunk => .fileDeletion path mode (hunk.map reverseHunk)
  | .rename fromPath toPath => .rename toPath fromPath
  | .patch path hunks => .patch path (hunks.map reverseHunk)
  | .modeChange path oldMode newMode => .modeChange path newMode oldMode

/-- Modelled from the spec: `reversePatch` of `dist/patch/reverse.js`, a file
that is not among the sources. Section 4.2: a pure and total transformation of
the document, part by part. -/
def reversePatch (patch : List Effect) : List Effect :=
  patch.map reverseEffect

/-! ## The top-level `applyPatch` (`applyPatches.js`) -/

/-- One call of `executeEffects` made by the top-level `applyPatch`: the
document and the options passed. -/
structure ExecuteCall where
  effects : List Effect
  dryRun : Bool
  bestEffort : Bool
  deriving DecidableEq, Repr

/-- How the top-level `applyPatch` ends: it returns a boolean, or the process
is ended by `process.exit(code)`. -/
inductive Completion where
  | returned (value : Bool)
  | exited (code : Nat)
  deriving DecidableEq, Repr

/-- The end of a call of the top-level `applyPatch`: how it completed, the file
system it leaves, and the calls of `executeEffects` it made, in order (`calls`
records the calls, it is not a value of the program). -/
structure ApplyPatchResult where
  completion : Completion
  fs : FileSystem
  calls : List ExecuteCall

/-- How the `try` block of the top-level `applyPatch` ends: all its statements
are executed, an error is raised, or `process.exit(0)` ends the process. -/
inductive TryEnd where
  | completed
  | raised (e : String)
  | exited
  deriving DecidableEq, Repr

/-- The state at the end of the `try` block of the top-level `applyPatch`. -/
structure TryResult where
  ended : TryEnd
  fs : FileSystem
  calls : List ExecuteCall

/-- The path `"patch-package-errors.log"` of the error report. -/
def errorsLogPath : String := "patch-package-errors.log"

/-- The statements of the `try` block that follow the dry run: the real run
`executeEffects(forward, { dryRun: false, cwd, bestEffort, errors })` and, when
`errors` is not empty, the report written to `patch-package-errors.log`
followed by `process.exit(0)`. -/
def realRun (forward : List Effect) (bestEffort : Bool) (cwd : Option String)
    (fs : FileSystem) (calls : List ExecuteCall) : TryResult :=
  let errors : Option (List String) := if bestEffort then some [] else none
  let real := executeEffects ⟨false, bestEffort, cwd⟩ forward ⟨fs, errors⟩
  let calls := calls ++ [⟨forward, false, bestEffort⟩]
  match real.thrown with
  | some e => ⟨.raised e, real.world.fs, calls⟩
  | none =>
    match real.world.errors with
    | none => ⟨.completed, real.world.fs, calls⟩
    | some [] => ⟨.completed, real.world.fs, calls⟩
    | some (e :: es) =>
      match writeFileSync real.world.fs errorsLogPath
          ((String.singleton lineFeed ++ String.singleton lineFeed).intercalate (e :: es))
          0o666 with
      | .error e => ⟨.raised e, real.world.fs, calls⟩
      | .ok fs => ⟨.exited, fs, calls⟩

/-- The `try` block of the top-level `applyPatch`: unless `bestEffort`, the dry
run `executeEffects(forward, { dryRun: true, cwd, bestEffort: false })`, then
the real run. -/
def tryBlock (forward : List Effect) (bestEffort : Bool) (cwd : Option String)
    (fs : FileSystem) : TryResult :=
  if !bestEffort then
    let dry := executeEffects ⟨true, false, cwd⟩ forward ⟨fs, none⟩
    match dry.thrown with
    | some e => ⟨.raised e, dry.world.fs, [⟨forward, true, false⟩]⟩
    | none => realRun forward bestEffort cwd dry.world.fs [⟨forward, true, false⟩]
  else
    realRun forward bestEffort cwd fs []

/-- The function `applyPatch({ patchFilePath, reverse, patchDetails, patchDir,
cwd, bestEffort })` of `applyPatches.js`. The argument `parsedPatch` is the
value of `readPatch(...)`: the parsed patch file, or `none` when the file
cannot be read or parsed, in which case `readPatch` ends the process with
`process.exit(1)` (the parser `parse.js` is not among the sources). When the
`try` block raises, the `catch` block runs the dry run of the opposite
direction, `executeEffects(backward, { dryRun: true, cwd, bestEffort: false })`,
and returns `false` when that raises; in every other case that returns, the
value is `true`. -/
def ApplyPatches.applyPatch (parsedPatch : Option (List Effect)) (reverse bestEffort : Bool)
    (cwd : Option String) (fs : FileSystem) : ApplyPatchResult :=
  match parsedPatch with
  | none => ⟨.exited 1, fs, []⟩
  | some patch =>
    let forward := if reverse then reversePatch patch else patch
    let attempt := tryBlock forward bestEffort cwd fs
    match attempt.ended with
    | .completed => ⟨.returned true, attempt.fs, attempt.calls⟩
    | .exited => ⟨.exited 0, attempt.fs, attempt.calls⟩
    | .raised _ =>
      let backward := if reverse then patch else reversePatch patch
      let probe := executeEffects ⟨true, false, cwd⟩ backward ⟨attempt.fs, none⟩
      match probe.thrown with
      | some _ => ⟨.returned false, probe.world.fs, attempt.calls ++ [⟨backward, true, false⟩]⟩
      | none => ⟨.returned true, probe.world.fs, attempt.calls ++ [⟨backward, true, false⟩]⟩

/-! ## Notions used to state the properties -/

/-- The context and deletion lines of the parts, in part order: the lines
that are compared with the file. -/
def originalLines : List HunkPart → List String
  | [] => []
  | part :: parts =>
    if part.type = PartType.insertion then originalLines parts
    else part.lines ++ originalLines parts

/-- The context and insertion lines of the parts, in part order: the lines of
the modified side. -/
def modifiedLines : List HunkPart → List String
  | [] => []
  | part :: parts =>
    if part.type = PartType.deletion then modifiedLines parts
    else part.lines ++ modifiedLines parts

/-- The candidate start `hunk.header.original.start - 1 + fuzzingOffset`. -/
def contextStart (hunk : Hunk) (fuzzingOffset : Int) : Int :=
  (hunk.header.original.start : Int) - 1 + fuzzingOffset

/-- The lines `lines` stand in `fileLines` from position `index` on, each equal
to the line of the file up to trailing white space. -/
def linesOccurAt (fileLines : List String) : Int → List String → Bool
  | _, [] => true
  | index, line :: rest =>
    (match jsIndex fileLines index with
      | some originalLine => linesAreEqual originalLine line
      | none => false) &&
    linesOccurAt fileLines (index + 1) rest

/-- The context and deletion lines of the hunk occur in the file at the
position shifted by `shift` lines from the declared original start: the
position lies in the file, and each line equals the line of the file up to
trailing white space. -/
def hunkOccursAt (hunk : Hunk) (fileLines : List String) (shift : Int) : Bool :=
  decide (0 ≤ contextStart hunk shift) &&
  decide (contextStart hunk shift + (originalLines hunk.parts).length ≤ fileLines.length) &&
  linesOccurAt fileLines (contextStart hunk shift) (originalLines hunk.parts)

/-- The header invariant of the data model: the context and deletion line
counts of the hunk sum to `header.original.length`. -/
def headerConsistent (hunk : Hunk) : Prop :=
  (originalLines hunk.parts).length = hunk.header.original.length

instance (hunk : Hunk) : Decidable (headerConsistent hunk) := by
  unfold headerConsistent; infer_instance

/-- The edit list of section 4.3, steps 3 and 4, for a cursor and the parts
that follow it: a removal of the lines of each deletion part at the cursor
before the part, followed by `push ""` under `noNewlineAtEndOfFile`; an
insertion of the lines of each insertion part at the cursor, followed by
`pop` under `noNewlineAtEndOfFile`; nothing for a context part. Context and
deletion parts advance the cursor by their number of lines. -/
def expectedModifications : Int → List HunkPart → List Modification
  | _, [] => []
  | cursor, part :: parts =>
    match part.type with
    | .context => expectedModifications (cursor + part.lines.length) parts
    | .deletion =>
      (Modification.splice (cursor + part.lines.length - part.lines.length)
          part.lines.length [] ::
        (if part.noNewlineAtEndOfFile then [Modification.push ""] else [])) ++
      expectedModifications (cursor + part.lines.length) parts
    | .insertion =>
      (Modification.splice cursor 0 part.lines ::
        (if part.noNewlineAtEndOfFile then [Modification.pop] else [])) ++
      expectedModifications cursor parts

/-- The order of the fuzz offsets of section 4.3:
`0, -1, +1, -2, +2, ..., -20, +20`. -/
def probeOrder : List Int :=
  [0, -1, 1, -2, 2, -3, 3, -4, 4, -5, 5, -6, 6, -7, 7, -8, 8, -9, 9, -10, 10,
   -11, 11, -12, 12, -13, 13, -14, 14, -15, 15, -16, 16, -17, 17, -18, 18,
   -19, 19, -20, 20]

/-- The fuzz search as section 4.3 describes it: the offsets of a list are
probed in order, the search stops at the first offset at which `evaluateHunk`
does not answer no-match, and the hunk is unresolvable when the list is
exhausted. -/
def scanProbes (hunk : Hunk) (fileLines : List String) : List Int → List Int → FuzzSearch
  | [], probes => ⟨probes, .unresolvable⟩
  | offset :: rest, probes =>
    match (evaluateHunk hunk fileLines offset).result with
    | .error e => ⟨probes ++ [offset], .threw e⟩
    | .ok (some modifications) => ⟨probes ++ [offset], .matched modifications⟩
    | .ok none => scanProbes hunk fileLines rest (probes ++ [offset])

/-- The `i`-th offset of the fuzz search, counted from `0`. -/
def offsetAt (i : Nat) : Int :=
  if i % 2 = 0 then ((i / 2 : Nat) : Int) else -(((i + 1) / 2 : Nat) : Int)

/-! ## Example inputs -/

/-- A hunk that replaces the line `x` by the line `y` at line 1. -/
def replaceHunk : Hunk :=
  { header := { original := ⟨1, 1⟩, modified := ⟨1, 1⟩ }
    parts := [⟨.deletion, ["x"], false⟩, ⟨.insertion, ["y"], false⟩]
    source := "@@ -1,1 +1,1 @@" }

/-- A file in which the line `x` stands one line below line 1. -/
def shiftedByOne : List String := ["", "x", ""]

/-- A file in which the line `x` stands 21 lines below line 1. -/
def shiftedByTwentyOne : List String := List.replicate 21 "" ++ ["x", ""]

/-! ## Notions used to state the properties of the edit application -/

/-- The length change a modification declares: lines inserted minus lines
deleted for a splice; `pop` and `push` do not count (they leave `diffOffset`
unchanged). -/
def lengthDelta : Modification → Int
  | .splice _ numToDelete linesToInsert => (linesToInsert.length : Int) - (numToDelete : Int)
  | .pop => 0
  | .push _ => 0

/-- The cumulative length drift before the `j`-th modification of a list: the
sum of (lines inserted - lines deleted) over the splices before position `j`. -/
def driftBefore (modifications : List Modification) (j : Nat) : Int :=
  ((modifications.take j).map lengthDelta).sum

/-- One modification performed with a given drift: a splice at its declared
index plus the drift, a `pop` or a `push` at the end of the file. -/
def performAt (fileLines : List String) (drift : Int) : Modification → List String
  | .splice index numToDelete linesToInsert =>
    jsSplice fileLines (index + drift) numToDelete linesToInsert
  | .pop => fileLines.dropLast
  | .push line => fileLines ++ [line]

/-- The rule of section 4.3 for applying the accumulated edits: the edits are
performed left to right, the `j`-th one with the cumulative drift of all the
edits before it. -/
def applyWithDrift (fileLines : List String) (modifications : List Modification) :
    List String :=
  (List.range modifications.length).foldl
    (fun (lines : List String) (j : Nat) =>
      match modifications[j]? with
      | some modification => performAt lines (driftBefore modifications j) modification
      | none => lines)
    fileLines

/-- A file of ten lines. -/
def tenLines : List String :=
  ["l1", "l2", "l3", "l4", "l5", "l6", "l7", "l8", "l9", "l10"]

/-- A hunk that inserts three lines after line 1, so that they become the
lines 2 to 4. -/
def insertThreeHunk : Hunk :=
  { header := { original := ⟨1, 2⟩, modified := ⟨1, 5⟩ }
    parts := [⟨.context, ["l1"], false⟩, ⟨.insertion, ["n1", "n2", "n3"], false⟩,
      ⟨.context, ["l2"], false⟩]
    source := "@@ -1,2 +1,5 @@" }

/-- A hunk declared, against the original numbering, to delete the lines 8
and 9. -/
def deleteTwoHunk : Hunk :=
  { header := { original := ⟨8, 2⟩, modified := ⟨11, 0⟩ }
    parts := [⟨.deletion, ["l8", "l9"], false⟩]
    source := "@@ -8,2 +11,0 @@" }

/-- The lines that stand in place of the matched lines once the edits of a hunk
without `noNewlineAtEndOfFile` flags are applied. `segment` is the rest of the
file from the cursor on. A context part keeps the lines of the file, a
deletion part removes them, an insertion part contributes its own lines. -/
def patchedSegment : List String → List HunkPart → List String
  | _, [] => []
  | segment, part :: parts =>
    match part.type with
    | .context =>
      segment.take part.lines.length ++ patchedSegment (segment.drop part.lines.length) parts
    | .deletion => patchedSegment (segment.drop part.lines.length) parts
    | .insertion => part.lines ++ patchedSegment segment parts

/-- The lines `lines` stand at the head of `segment`, each equal to the line of
the segment up to trailing white space. -/
def segmentMatches : List String → List String → Bool
  | _, [] => true
  | [], _ :: _ => false
  | originalLine :: segment, line :: lines =>
    linesAreEqual originalLine line && segmentMatches segment lines

/-- A hunk applied to a file at fuzz offset 0: the lines after the edits that
`evaluateHunk` returns are applied, `none` when the hunk does not match. -/
def applyHunk (hunk : Hunk) (fileLines : List String) : Option (List String) :=
  match (evaluateHunk hunk fileLines 0).result with
  | .ok (some modifications) => some (applyModifications fileLines [modifications])
  | _ => none

/-- No part of the hunk carries `noNewlineAtEndOfFile`. -/
def noFlags (parts : List HunkPart) : Prop :=
  ∀ part ∈ parts, part.noNewlineAtEndOfFile = false

instance (parts : List HunkPart) : Decidable (noFlags parts) := by
  unfold noFlags; infer_instance

/-- The lines that stand in place of the matched lines once a hunk was applied
and its reversal was applied to the result: the lines of the file for a
context part, the lines of the patch for a deletion part. -/
def restoredSegment : List String → List HunkPart → List String
  | _, [] => []
  | segment, part :: parts =>
    match part.type with
    | .context =>
      segment.take part.lines.length ++ restoredSegment (segment.drop part.lines.length) parts
    | .deletion => part.lines ++ restoredSegment (segment.drop part.lines.length) parts
    | .insertion => restoredSegment segment parts

/-- A hunk that replaces the last line `a` of a file by the line `b`, both
without a newline at the end of the file. -/
def noNewlineHunk : Hunk :=
  { header := { original := ⟨1, 1⟩, modified := ⟨1, 1⟩ }
    parts := [⟨.deletion, ["a"], true⟩, ⟨.insertion, ["b"], true⟩]
    source := "@@ -1,1 +1,1 @@" }

/-! ## Notions used to state the properties of the effect executor -/

/-- What a path holds apart from its mode bits: nothing, a file with its
content, or a directory. -/
inductive Entry where
  | absent
  | fileWith (content : String)
  | directory
  deriving DecidableEq, Repr

/-- The entry at a path of the file system, mode bits left out. -/
def entryAt (fs : FileSystem) (path : String) : Entry :=
  match fs path with
  | none => .absent
  | some (.file content _) => .fileWith content
  | some (.dir _) => .directory

/-- The empty file system. -/
def emptyFs : FileSystem := fun _ => none

/-- A file system with one file, `bin/run`, that is not executable. -/
def scriptFs : FileSystem :=
  emptyFs.set "bin/run" (some (.file "echo" 0o644))

/-- A patch file that creates `notes.txt` and makes `bin/run` executable. -/
def createAndChmodPatch : List Effect :=
  [.fileCreation "notes.txt" 0o644 none, .modeChange "bin/run" 0o644 0o755]

/-- A file system on which `createAndChmodPatch` was applied. -/
def patchedScriptFs : FileSystem :=
  (emptyFs.set "bin/run" (some (.file "echo" 0o755))).set "notes.txt" (some (.file "" 0o644))

/-- A patch file that renames `a` to `b`. -/
def renamePatch : List Effect := [.rename "a" "b"]

/-- A file system in which neither `a` nor `b` exists and the path of the error
report is a directory. -/
def logIsDirectoryFs : FileSystem :=
  emptyFs.set errorsLogPath (some (.dir 0o755))

/-! ## Notions and example inputs for the effects of one document -/

/-- The initial content a file creation declares: the lines of the insertion
part of its hunk (the first part) joined by newlines, followed by a final
newline unless the part carries `noNewlineAtEndOfFile`; the empty string
without a hunk. -/
def creationContent : Option Hunk → String
  | none => ""
  | some hunk =>
    match hunk.parts.head? with
    | none => ""
    | some part =>
      joinLines part.lines ++
        (if part.noNewlineAtEndOfFile then "" else String.singleton lineFeed)

/-- The hunk of a patch file that creates a file with the lines `a` and `b`. -/
def createTwoLinesHunk : Hunk :=
  { header := { original := ⟨0, 0⟩, modified := ⟨1, 2⟩ }
    parts := [⟨.insertion, ["a", "b"], false⟩]
    source := "@@ -0,0 +1,2 @@" }

/-- The `result` array of the hunk loop of `applyPatch` for hunks none of which
raises: the modifications of the hunks that the fuzz search matches, in hunk
order; an unresolvable hunk contributes nothing. -/
def matchedModifications (fileLines : List String) : List Hunk → List (List Modification)
  | [] => []
  | hunk :: hunks =>
    match (fuzzSearch hunk fileLines).outcome with
    | .matched modifications => modifications :: matchedModifications fileLines hunks
    | _ => matchedModifications fileLines hunks

/-- A hunk that replaces the line `zzz` by `y` at line 1. -/
def replaceMissingHunk : Hunk :=
  { header := { original := ⟨1, 1⟩, modified := ⟨1, 1⟩ }
    parts := [⟨.deletion, ["zzz"], false⟩, ⟨.insertion, ["y"], false⟩]
    source := "@@ -1,1 +1,1 @@" }

/-- A hunk that replaces the line `x` by `y` at line 1 and a hunk that replaces
`w` by `v` at line 3. -/
def replaceLineThreeHunk : Hunk :=
  { header := { original := ⟨3, 1⟩, modified := ⟨3, 1⟩ }
    parts := [⟨.deletion, ["w"], false⟩, ⟨.insertion, ["v"], false⟩]
    source := "@@ -3,1 +3,1 @@" }

/-- A file system with the one file `f`, of the lines `x`, `u`, `w`. -/
def threeLinesFs : FileSystem :=
  emptyFs.set "f" (some (.file "x\nu\nw" 0o644))

/-- The paths at which an effect can change whether something exists: the path
of a file deletion or creation, both paths of a rename. A patch effect rewrites
an existing file and a mode change keeps the node. -/
def changesExistence (cwd : Option String) : Effect → List String
  | .fileDeletion path _ _ => [inCwd cwd path]
  | .rename fromPath toPath => [inCwd cwd fromPath, inCwd cwd toPath]
  | .fileCreation path _ _ => [inCwd cwd path]
  | .patch _ _ => []
  | .modeChange _ _ _ => []

/-- The dry-run precondition of a file deletion, a rename or a file creation is
violated on the file system: the file to delete or the source of the rename
is missing, or the file to create exists. -/
def preconditionViolated (cwd : Option String) (fs : FileSystem) : Effect → Prop
  | .fileDeletion path _ _ => existsSync fs (inCwd cwd path) = false
  | .rename fromPath _ => existsSync fs (inCwd cwd fromPath) = false
  | .fileCreation path _ _ => existsSync fs (inCwd cwd path) = true
  | .patch _ _ => False
  | .modeChange _ _ _ => False

/-- The effect is a file creation or a file deletion of the path `key`, or a
rename from the path `key` to another path: an effect that undoes its own
dry-run precondition. -/
def undoesPrecondition (cwd : Option String) (key : String) : Effect → Prop
  | .fileDeletion path _ _ => key = inCwd cwd path
  | .rename fromPath toPath => key = inCwd cwd fromPath ∧ inCwd cwd fromPath ≠ inCwd cwd toPath
  | .fileCreation path _ _ => key = inCwd cwd path
  | .patch _ _ => False
  | .modeChange _ _ _ => False

/-- A hunk that appends the line `x` after the line `a` at line 1. -/
def appendHunk : Hunk :=
  { header := { original := ⟨1, 1⟩, modified := ⟨1, 2⟩ }
    parts := [⟨.context, ["a"], false⟩, ⟨.insertion, ["x"], false⟩]
    source := "@@ -1,1 +1,2 @@" }

/-- A patch file that appends the line `x` to the file `f`. -/
def appendPatch : List Effect := [.patch "f" [appendHunk]]

/-- A file system with the one file `f`, of content `"a\n"`. -/
def oneLineFs : FileSystem :=
  emptyFs.set "f" (some (.file "a\n" 0o644))

/-- A patch file that changes `f` and creates `notes.txt`. -/
def appendAndCreatePatch : List Effect :=
  [.patch "f" [appendHunk], .fileCreation "notes.txt" 0o644 none]

/-! ## The patches of one package (`applyPatchesForPackage`, `applyPatches.js`) -/

/-- The fields of a `PatchDetails` object that `applyPatchesForPackage` reads.
The objects of the array `patches` are distinct objects with distinct
`patchFilename`; `patches.indexOf` compares them by identity, which is equality
of the fields here. -/
structure PatchDetails where
  name : String
  version : String
  path : String
  pathSpecifier : String
  patchFilename : String
  isDevOnly : Bool
  deriving DecidableEq, Repr

/-- Modelled from the spec: one record of the persisted state,
`PatchRecord { patchFilename, patchContentHash, didApply }` (the module
`stateFile.js` is not among the sources). -/
structure PatchRecord where
  patchFilename : String
  patchContentHash : String
  didApply : Bool
  deriving DecidableEq, Repr

/-- Modelled from the spec: the persisted state of one package, an ordered
sequence of records plus `isRebasing`. -/
structure PatchApplicationState where
  patches : List PatchRecord
  isRebasing : Bool
  deriving DecidableEq, Repr

/-- The two messages of `PatchApplicationError` raised by
`getInstalledPackageVersion`; the parameters of the message are kept, its text
is not rendered. `renameHint` tells whether the hint to rename the patch file to
`.dev.patch` is appended. -/
inductive PatchApplicationError where
  | notPresent (pathSpecifier packageDir patchFilename : String) (renameHint : Bool)
  | invalidVersion (version : Option String) (packageJsonPath : String)
  deriving DecidableEq, Repr

/-- An error raised inside the `try` block of the package loop: a
`PatchApplicationError`, or any other error. -/
inductive Thrown where
  | patchApplicationError (error : PatchApplicationError)
  | other (message : String)
  deriving DecidableEq, Repr

/-- An entry of the array `errors`: the value of `createBrokenPatchFileError`,
of `createPatchApplicationFailureError`, the message of a
`PatchApplicationError`, or the value of `createUnexpectedError`. The
parameters are kept, the text is not rendered. -/
inductive ReportedError where
  | brokenPatchFile (packageName patchFilename pathSpecifier path : String)
  | patchApplicationFailure (packageName actualVersion originalVersion patchFilename path
      pathSpecifier : String)
  | patchApplicationError (error : PatchApplicationError)
  | unexpected (filename error : String)
  deriving DecidableEq, Repr

/-- An entry of the array `warnings` pushed by the package loop: the value of
`createVersionMismatchWarning`, with its parameters kept. -/
structure VersionMismatchWarning where
  packageName : String
  actualVersion : String
  originalVersion : String
  pathSpecifier : String
  path : String
  deriving DecidableEq, Repr

/-- What `applyPatchesForPackage` obtains from outside `applyPatches.js` and
the file tree: whether `process.env.NODE_ENV === "production"`, the digest
`hashFile(path)` of a patch file (SHA-256 of its bytes, `hash.js`), the value of
`readPatch` for a patch file (`none` when it ends the process),
`packageIsDevDependency`, the `version` field of `require(packageJsonPath)`
(which can raise, and can be `undefined`), and `semver.valid`. Patch files and
`package.json` files are read through these functions, so they are the same
before and after a patch is applied. -/
structure Collaborators where
  production : Bool
  hashFile : String → String
  readPatch : String → Option (List Effect)
  packageIsDevDependency : String → PatchDetails → Bool
  packageJsonVersion : String → Except String (Option String)
  semverValid : Option String → Option String

/-- The function `getInstalledPackageVersion({ appPath, path, pathSpecifier,
isDevOnly, patchFilename })`: `none` is `null`. -/
def getInstalledPackageVersion (c : Collaborators) (fs : FileSystem)
    (appPath path pathSpecifier : String) (isDevOnly : Bool) (patchFilename : String) :
    Except Thrown (Option String) :=
  let packageDir := pathJoin appPath path
  if !existsSync fs packageDir then
    if c.production && isDevOnly then .ok none
    else .error (.patchApplicationError
      (.notPresent pathSpecifier packageDir patchFilename (!isDevOnly && c.production)))
  else
    match c.packageJsonVersion (pathJoin packageDir "package.json") with
    | .error e => .error (.other e)
    | .ok version =>
      match c.semverValid version with
      | none => .error (.patchApplicationError
          (.invalidVersion version (pathJoin packageDir "package.json")))
      | some result => .ok (some result)

/-- The expression `join(appPath, patchDir, patchFilename)`. -/
def patchFilePath (appPath patchDir patchFilename : String) : String :=
  pathJoin (pathJoin appPath patchDir) patchFilename

/-- The end of the state check at the start of `applyPatchesForPackage`: the
arrays `appliedPatches` and `unappliedPatches` after the loop, or
`process.exit(1)`, or the `TypeError` of `patchToApply.patchFilename` when
`unappliedPatches[0]` is `undefined`. -/
inductive StateCheck where
  | checked (appliedPatches unappliedPatches : List PatchDetails)
  | exit
  | typeError
  deriving DecidableEq, Repr

/-- The loop `for (let i = 0; i < state.patches.length; i++)` over the records
of the state: a record with `didApply` false ends the loop; otherwise the digest
of the first unapplied patch file is compared with the recorded one, and the
patch is moved to `appliedPatches` when they are equal. -/
def checkState (c : Collaborators) (appPath patchDir : String) :
    List PatchRecord → List PatchDetails → List PatchDetails → StateCheck
  | [], appliedPatches, unappliedPatches => .checked appliedPatches unappliedPatches
  | patchThatWasApplied :: records, appliedPatches, unappliedPatches =>
    if !patchThatWasApplied.didApply then .checked appliedPatches unappliedPatches
    else
      match unappliedPatches with
      | [] => .typeError
      | patchToApply :: rest =>
        if patchThatWasApplied.patchContentHash =
            c.hashFile (patchFilePath appPath patchDir patchToApply.patchFilename) then
          checkState c appPath patchDir records (appliedPatches ++ [patchToApply]) rest
        else .exit

/-- How one iteration of the package loop ends: the patch is skipped as
dev-only, `applyPatch` returned `true`, it returned `false` for a package with
several patches, with one patch of the installed version, or with one patch of
another version, an error was raised and caught, or `applyPatch` ended the
process. -/
inductive Outcome where
  | skipped
  | applied
  | sequenceFailure
  | brokenPatchFile
  | versionConflict
  | raised
  | exited
  deriving DecidableEq, Repr

/-- One iteration of the package loop: the patch and how the iteration ended. -/
structure Attempt where
  patchDetails : PatchDetails
  outcome : Outcome
  deriving DecidableEq, Repr

/-- The variables of the package loop: the file tree, the arrays `errors`,
`warnings` and `appliedPatches`, the variable `failedPatch`, the exit code when
`applyPatch` ended the process, and the iterations made so far (`attempts`
records the iterations, it is not a value of the program). -/
structure LoopState where
  fs : FileSystem
  errors : List ReportedError
  warnings : List VersionMismatchWarning
  appliedPatches : List PatchDetails
  failedPatch : Option PatchDetails
  exited : Option Nat
  attempts : List Attempt

/-- The test `!installedPackageVersion`: `null` and the empty string are
falsy. -/
def isFalsy : Option String → Bool
  | none => true
  | some version => version = ""

/-- The loop `packageLoop: for (const patchDetails of unappliedPatches)` with
its `try` and `catch`; `multiple` is `patches.length > 1`. Every branch but the
dev-only skip and the successful application leaves the loop. -/
def packageLoop (c : Collaborators) (multiple : Bool) (appPath patchDir : String)
    (reverse bestEffort : Bool) (cwd : String) : List PatchDetails → LoopState → LoopState
  | [], s => s
  | patchDetails :: rest, s =>
    match getInstalledPackageVersion c s.fs appPath patchDetails.path patchDetails.pathSpecifier
        (patchDetails.isDevOnly ||
          (c.production && c.packageIsDevDependency appPath patchDetails))
        patchDetails.patchFilename with
    | .error (.patchApplicationError error) =>
      { s with errors := s.errors ++ [.patchApplicationError error]
               attempts := s.attempts ++ [⟨patchDetails, .raised⟩] }
    | .error (.other message) =>
      { s with errors := s.errors ++ [.unexpected patchDetails.patchFilename message]
               attempts := s.attempts ++ [⟨patchDetails, .raised⟩] }
    | .ok installedPackageVersion =>
      if isFalsy installedPackageVersion then
        packageLoop c multiple appPath patchDir reverse bestEffort cwd rest
          { s with attempts := s.attempts ++ [⟨patchDetails, .skipped⟩] }
      else
        let result := ApplyPatches.applyPatch
          (c.readPatch (patchFilePath appPath patchDir patchDetails.patchFilename))
          reverse bestEffort (some cwd) s.fs
        match result.completion with
        | .exited code =>
          { s with fs := result.fs, exited := some code
                   attempts := s.attempts ++ [⟨patchDetails, .exited⟩] }
        | .returned true =>
          packageLoop c multiple appPath patchDir reverse bestEffort cwd rest
            { s with fs := result.fs
                     appliedPatches := s.appliedPatches ++ [patchDetails]
                     warnings :=
                       if installedPackageVersion ≠ some patchDetails.version then
                         s.warnings ++ [⟨patchDetails.name, installedPackageVersion.getD "",
                           patchDetails.version, patchDetails.pathSpecifier, patchDetails.path⟩]
                       else s.warnings
                     attempts := s.attempts ++ [⟨patchDetails, .applied⟩] }
        | .returned false =>
          if multiple then
            { s with fs := result.fs, failedPatch := some patchDetails
                     attempts := s.attempts ++ [⟨patchDetails, .sequenceFailure⟩] }
          else if installedPackageVersion = some patchDetails.version then
            { s with fs := result.fs
                     errors := s.errors ++ [.brokenPatchFile patchDetails.name
                       patchDetails.patchFilename patchDetails.pathSpecifier patchDetails.path]
                     attempts := s.attempts ++ [⟨patchDetails, .brokenPatchFile⟩] }
          else
            { s with fs := result.fs
                     errors := s.errors ++ [.patchApplicationFailure patchDetails.name
                       (installedPackageVersion.getD "") patchDetails.version
                       patchDetails.patchFilename patchDetails.path patchDetails.pathSpecifier]
                     attempts := s.attempts ++ [⟨patchDetails, .versionConflict⟩] }

/-- What `applyPatchesForPackage` can change: the file tree, the persisted
state of the package, and the arrays `errors` and `warnings` of the caller. -/
structure PackageWorld where
  fs : FileSystem
  stored : Option PatchApplicationState
  errors : List ReportedError
  warnings : List VersionMismatchWarning

/-- A call of the state store: `savePatchApplicationState` with the state
passed, or `clearPatchApplicationState`. -/
inductive StateWrite where
  | save (state : PatchApplicationState)
  | clear
  deriving DecidableEq, Repr

/-- How `applyPatchesForPackage` ends: it returns, the process is ended by
`process.exit(code)`, or an error is raised to the caller. -/
inductive PackageEnd where
  | returned
  | exited (code : Nat)
  | threw (message : String)
  deriving DecidableEq, Repr

/-- The end of a call of `applyPatchesForPackage`: how it ended, what it left,
the iterations of the package loop and the calls of the state store, in order
(`attempts` and `stateWrites` record what was done, they are not values of the
program). -/
structure PackageRun where
  ended : PackageEnd
  world : PackageWorld
  attempts : List Attempt
  stateWrites : List StateWrite

/-- The record `{ didApply, patchContentHash: hashFile(join(appPath, patchDir,
patch.patchFilename)), patchFilename: patch.patchFilename }` written for a
patch. -/
def recordOf (c : Collaborators) (appPath patchDir : String) (didApply : Bool)
    (patch : PatchDetails) : PatchRecord :=
  ⟨patch.patchFilename, c.hashFile (patchFilePath appPath patchDir patch.patchFilename),
    didApply⟩

/-- Modelled from the spec: `savePatchApplicationState` replaces the persisted
state of the package, `clearPatchApplicationState` removes it. -/
def StateWrite.perform (w : PackageWorld) : StateWrite → PackageWorld
  | .save state => { w with stored := some state }
  | .clear => { w with stored := none }

/-- The statements of `applyPatchesForPackage` after the package loop, entered
when `applyPatch` did not end the process: for a package with several patches
the state is cleared or saved, and `process.exit(1)` follows when `failedPatch`
is set. `stateFound` is the truth value of `state`; `patches.indexOf` gives
`patches.length` here where the source gives `-1`. -/
def finalise (c : Collaborators) (patches : List PatchDetails) (appPath patchDir : String)
    (reverse stateFound : Bool) (w : PackageWorld) (loop : LoopState) : PackageRun :=
  let w : PackageWorld := { w with fs := loop.fs, errors := loop.errors, warnings := loop.warnings }
  let ended : PackageEnd := if loop.failedPatch.isSome then .exited 1 else .returned
  if patches.length > 1 then
    if reverse then
      if !stateFound then
        ⟨.threw "unexpected state: no state file found while reversing", w, loop.attempts, []⟩
      else if loop.appliedPatches.length = patches.length then
        ⟨ended, StateWrite.clear.perform w, loop.attempts, [.clear]⟩
      else
        match loop.appliedPatches.getLast? with
        | none =>
          ⟨.threw "unexpected state: failed to find last reversed patch in original patches array",
            w, loop.attempts, []⟩
        | some lastReversedPatch =>
          let lastReversedPatchIndex := patches.indexOf lastReversedPatch
          if lastReversedPatchIndex = patches.length then
            ⟨.threw
              "unexpected state: failed to find last reversed patch in original patches array",
              w, loop.attempts, []⟩
          else
            let write := StateWrite.save
              ⟨(patches.take lastReversedPatchIndex).map (recordOf c appPath patchDir true), false⟩
            ⟨ended, write.perform w, loop.attempts, [write]⟩
    else
      let nextState := loop.appliedPatches.map (recordOf c appPath patchDir true)
      let nextState :=
        match loop.failedPatch with
        | some failedPatch => nextState ++ [recordOf c appPath patchDir false failedPatch]
        | none => nextState
      let write := StateWrite.save ⟨nextState, loop.failedPatch.isSome⟩
      ⟨ended, write.perform w, loop.attempts, [write]⟩
  else
    ⟨.returned, w, loop.attempts, []⟩

/-- The function `applyPatchesForPackage({ patches, appPath, patchDir, reverse,
warnings, errors, bestEffort })`; `cwd` is `process.cwd()`. Reading
`patches[0].pathSpecifier` of an empty array raises a `TypeError`. The state
is loaded for a package with several patches (modelled from the spec:
`getPatchApplicationState` gives the persisted state of the package, or
`null`), checked by `checkState`, and in reverse mode with a state the patches
to process are the applied ones, last first. -/
def applyPatchesForPackage (c : Collaborators) (patches : List PatchDetails)
    (appPath patchDir : String) (reverse bestEffort : Bool) (cwd : String)
    (w : PackageWorld) : PackageRun :=
  match patches with
  | [] => ⟨.threw "TypeError: Cannot read properties of undefined", w, [], []⟩
  | _ :: _ =>
    let state := if patches.length > 1 then w.stored else none
    let check :=
      match state with
      | some state => checkState c appPath patchDir state.patches [] patches
      | none => .checked [] patches
    match check with
    | .typeError => ⟨.threw "TypeError: Cannot read properties of undefined", w, [], []⟩
    | .exit => ⟨.exited 1, w, [], []⟩
    | .checked appliedPatches unappliedPatches =>
      let unappliedPatches :=
        if reverse && state.isSome then appliedPatches.reverse else unappliedPatches
      let appliedPatches := if reverse && state.isSome then [] else appliedPatches
      if unappliedPatches.isEmpty then ⟨.returned, w, [], []⟩
      else
        let loop := packageLoop c (patches.length > 1) appPath patchDir reverse bestEffort cwd
          unappliedPatches ⟨w.fs, w.errors, w.warnings, appliedPatches, none, none, []⟩
        match loop.exited with
        | some code =>
          ⟨.exited code,
            { w with fs := loop.fs, errors := loop.errors, warnings := loop.warnings },
            loop.attempts, []⟩
        | none => finalise c patches appPath patchDir reverse state.isSome w loop

/-- The patches of the iterations in which `applyPatch` returned `true`. -/
def appliedOf (attempts : List Attempt) : List PatchDetails :=
  (attempts.filter (fun attempt => attempt.outcome = .applied)).map (fun a => a.patchDetails)

/-- The patch of the iteration that ended as a sequence failure, if any. -/
def failedOf (attempts : List Attempt) : Option PatchDetails :=
  (attempts.find? (fun attempt => attempt.outcome = .sequenceFailure)).map
    (fun a => a.patchDetails)

/-- A patch file of the package `pkg`, with the name given. -/
def pkgPatch (patchFilename : String) : PatchDetails :=
  ⟨"pkg", "1.0.0", "node_modules/pkg", "pkg", patchFilename, false⟩

/-- Collaborators for a development install of `pkg@1.0.0` with three patch
files, each creating two files; the digest of a patch file is a function of
its path. -/
def pkgCollaborators : Collaborators :=
  { production := false
    hashFile := fun path => "sha256 of " ++ path
    readPatch := fun path =>
      if path = "app/patches/a.patch" then
        some [.fileCreation "a.txt" 0o644 none, .fileCreation "a2.txt" 0o644 none]
      else if path = "app/patches/b.patch" then
        some [.fileCreation "b.txt" 0o644 none, .fileCreation "b2.txt" 0o644 none]
      else if path = "app/patches/c.patch" then
        some [.fileCreation "c.txt" 0o644 none, .fileCreation "c2.txt" 0o644 none]
      else none
    packageIsDevDependency := fun _ _ => false
    packageJsonVersion := fun _ => .ok (some "1.0.0")
    semverValid := fun version => version }

/-- The records of the patch files `a.patch`, `b.patch` and `c.patch` as
applied. -/
def pkgRecords : List PatchRecord :=
  [pkgPatch "a.patch", pkgPatch "b.patch", pkgPatch "c.patch"].map
    (recordOf pkgCollaborators "app" "patches" true)

/-- A file tree with the package directory and the files named, and the
state given. -/
def pkgWorld (files : List String) (stored : Option PatchApplicationState) : PackageWorld :=
  { fs := files.foldl (fun fs file => fs.set ("work/" ++ file) (some (.file "" 0o644)))
      (emptyFs.set "app/node_modules/pkg" (some (.dir 0o755)))
    stored := stored
    errors := []
    warnings := [] }

/-- The state a forward run saves, in terms of what the run did: one record
with `didApply` true for each patch of `already` and for each patch applied in
an iteration, followed, when an iteration ended as a sequence failure, by the
record of its patch with `didApply` false; `isRebasing` tells whether there is
such an iteration. -/
def forwardState (c : Collaborators) (appPath patchDir : String) (already : List PatchDetails)
    (attempts : List Attempt) : PatchApplicationState :=
  ⟨(already ++ appliedOf attempts).map (recordOf c appPath patchDir true) ++
      (match failedOf attempts with
        | some failedPatch => [recordOf c appPath patchDir false failedPatch]
        | none => []),
    (failedOf attempts).isSome⟩

/-- A tree without the directory of `pkg`, and no persisted state. -/
def missingPackageWorld : PackageWorld :=
  { fs := emptyFs, stored := none, errors := [], warnings := [] }

/-- The collaborators of `pkgCollaborators` in a production install. -/
def productionCollaborators : Collaborators :=
  { pkgCollaborators with production := true }

/-- A dev-only patch file of the package `pkg`. -/
def devOnlyPatch : PatchDetails :=
  { pkgPatch "a.dev.patch" with isDevOnly := true }

/-! ## All the packages (`applyPatchesForApp`, `applyPatches.js`) -/

/-- The fields of the value of `getGroupedPatches(patchesDirectory)` that
`applyPatchesForApp` reads (the module `patchFs.js` is not among the sources):
the number of patch files, the warnings of the grouping, and the values of
`pathSpecifierToPatchFiles`, one array of patches per package, in the order of
`Object.values`. -/
structure GroupedPatches where
  numPatchFiles : Nat
  warnings : List String
  pathSpecifierToPatchFiles : List (List PatchDetails)
  deriving DecidableEq, Repr

/-- What `applyPatchesForApp` can change: the file tree and the persisted
states. Modelled from the spec: the state store holds one state per package,
keyed here by the `pathSpecifier` of the package. -/
structure AppWorld where
  fs : FileSystem
  stored : String → Option PatchApplicationState

/-- The variables of the loop over the packages: the world, the array `errors`,
the warnings pushed by the packages (the array `warnings` is
`groupedPatches.warnings` followed by these), and how a call of
`applyPatchesForPackage` that did not return ended, if there is one. -/
structure PackagesState where
  world : AppWorld
  errors : List ReportedError
  pushedWarnings : List VersionMismatchWarning
  ended : Option PackageEnd

/-- The loop `for (const patches of Object.values(...))` of
`applyPatchesForApp`: `applyPatchesForPackage` is called for each package, with
the arrays `errors` and `warnings` of the run; a call that ends the process or
raises ends the loop, since `applyPatchesForApp` catches nothing.
`applyPatchesForPackage` only pushes to `warnings`, so it is given the pushed
warnings alone. -/
def packagesLoop (c : Collaborators) (appPath patchDir : String) (reverse bestEffort : Bool)
    (cwd : String) : List (List PatchDetails) → PackagesState → PackagesState
  | [], s => s
  | patches :: rest, s =>
    let key := (patches.head?.map (fun patch => patch.pathSpecifier)).getD ""
    let run := applyPatchesForPackage c patches appPath patchDir reverse bestEffort cwd
      ⟨s.world.fs, s.world.stored key, s.errors, s.pushedWarnings⟩
    let next : PackagesState :=
      { world := ⟨run.world.fs,
          fun other => if other = key then run.world.stored else s.world.stored other⟩
        errors := run.world.errors
        pushedWarnings := run.world.warnings
        ended := none }
    match run.ended with
    | .returned => packagesLoop c appPath patchDir reverse bestEffort cwd rest next
    | ended => { next with ended := some ended }

/-- The end of a call of `applyPatchesForApp`: how it ended, and the world and
the arrays `errors` and `warnings` at that point. -/
structure AppRun where
  ended : PackageEnd
  world : AppWorld
  errors : List ReportedError
  groupedWarnings : List String
  pushedWarnings : List VersionMismatchWarning

/-- The function `applyPatchesForApp({ appPath, reverse, patchDir,
shouldExitWithError, shouldExitWithWarning, bestEffort })`; `grouped` is the
value of `getGroupedPatches(join(appPath, patchDir))` and `cwd` is
`process.cwd()`. Without patch files it returns; otherwise, after the loop
over the packages, it ends the process with code 1 when there are errors and
`shouldExitWithError`, or warnings and `shouldExitWithWarning`, and with
code 0 otherwise. -/
def applyPatchesForApp (c : Collaborators) (grouped : GroupedPatches)
    (appPath patchDir : String)
    (reverse shouldExitWithError shouldExitWithWarning bestEffort : Bool) (cwd : String)
    (w : AppWorld) : AppRun :=
  if grouped.numPatchFiles = 0 then ⟨.returned, w, [], [], []⟩
  else
    let loop := packagesLoop c appPath patchDir reverse bestEffort cwd
      grouped.pathSpecifierToPatchFiles ⟨w, [], [], none⟩
    match loop.ended with
    | some ended => ⟨ended, loop.world, loop.errors, grouped.warnings, loop.pushedWarnings⟩
    | none =>
      let warningsLength := grouped.warnings.length + loop.pushedWarnings.length
      let code :=
        if loop.errors.length ≠ 0 && shouldExitWithError then 1
        else if warningsLength ≠ 0 && shouldExitWithWarning then 1
        else 0
      ⟨.exited code, loop.world, loop.errors, grouped.warnings, loop.pushedWarnings⟩

/-- One package with the patch file `a.patch`. -/
def onePackage : GroupedPatches :=
  ⟨1, [], [[pkgPatch "a.patch"]]⟩

/-- The number of lines of the insertion parts. -/
def insertedCount : List HunkPart → Nat
  | [] => 0
  | part :: parts =>
    (if part.type = PartType.insertion then part.lines.length else 0) + insertedCount parts

/-- The number of lines of the deletion parts. -/
def deletedCount : List HunkPart → Nat
  | [] => 0
  | part :: parts =>
    (if part.type = PartType.deletion then part.lines.length else 0) + deletedCount parts

/-- The hunks applied one after another: each hunk is evaluated against the
lines already updated by the hunks before it, at its offset shifted by the
cumulative length change `shift`, and its edits are applied to these lines;
`none` when a hunk does not match there. -/
def applySequentially : List String → Int → List (Hunk × Int) → Option (List String)
  | lines, _, [] => some lines
  | lines, shift, (hunk, offset) :: rest =>
    match (evaluateHunk hunk lines (offset + shift)).result with
    | .ok (some modifications) =>
      applySequentially (applyModifications lines [modifications])
        (shift + (((applyModifications lines [modifications]).length : Int) -
          (lines.length : Int))) rest
    | _ => none

/-- The fuzz offset at which the fuzz search of a hunk ended: the last offset
passed to `evaluateHunk`. -/
def matchedOffset (hunk : Hunk) (fileLines : List String) : Int :=
  (fuzzSearch hunk fileLines).probes.getLast?.getD 0

/-- The hunks, each with an offset, have no `noNewlineAtEndOfFile` flags and
match the lines at regions in increasing order: each hunk matches at its
offset, at a position that is not before `bound`, and the hunks after it match
in order from the end of its region on. -/
def matchInOrder (fileLines : List String) : Nat → List (Hunk × Int) → Prop
  | _, [] => True
  | bound, (hunk, offset) :: rest =>
    noFlags hunk.parts ∧
    (∃ modifications,
      (evaluateHunk hunk fileLines offset).result = .ok (some modifications)) ∧
    (bound : Int) ≤ contextStart hunk offset ∧
    matchInOrder fileLines
      ((contextStart hunk offset).toNat + (originalLines hunk.parts).length) rest

/-- A file of four lines. -/
def fourLines : List String := ["a", "b", "c", "d"]

/-- A hunk that inserts the line `x` after the line `c` at line 3. -/
def insertAfterCHunk : Hunk :=
  { header := { original := ⟨3, 1⟩, modified := ⟨3, 2⟩ }
    parts := [⟨.context, ["c"], false⟩, ⟨.insertion, ["x"], false⟩]
    source := "@@ -3,1 +3,2 @@" }

/-- A hunk that deletes the line `a` at line 1. -/
def deleteAHunk : Hunk :=
  { header := { original := ⟨1, 1⟩, modified := ⟨1, 0⟩ }
    parts := [⟨.deletion, ["a"], false⟩]
    source := "@@ -1,1 +1,0 @@" }

/-- A hunk that deletes the line `d` at line 4. -/
def deleteDHunk : Hunk :=
  { header := { original := ⟨4, 1⟩, modified := ⟨4, 0⟩ }
    parts := [⟨.deletion, ["d"], false⟩]
    source := "@@ -4,1 +4,0 @@" }

/-! # Properties -/

/-! ## `trimRight` and `linesAreEqual` -/

theorem rdropWhile_append_rtakeWhile {α : Type} (p : α → Bool) (l : List α) :
    l.rdropWhile p ++ l.rtakeWhile p = l := by
  unfold List.rdropWhile List.rtakeWhile
  rw [← List.reverse_append, List.takeWhile_append_dropWhile, List.reverse_reverse]

theorem rdropWhile_append_of_all {α : Type} (p : α → Bool) (c w : List α)
    (hw : ∀ x ∈ w, p x = true) : (c ++ w).rdropWhile p = c.rdropWhile p := by
  induction w using List.reverseRecOn with
  | nil => simp
  | append_singleton w x ih =>
    rw [← List.append_assoc, List.rdropWhile_concat_pos _ _ _ (hw x (by simp))]
    exact ih (fun y hy => hw y (by simp [hy]))

theorem linesAreEqual_iff (a b : String) :
    linesAreEqual a b = true ↔
      ∃ c wa wb : List Char, a.data = c ++ wa ∧ b.data = c ++ wb ∧
        (∀ x ∈ wa, isJsWhiteSpace x = true) ∧ (∀ x ∈ wb, isJsWhiteSpace x = true) := by
  unfold linesAreEqual trimRight
  simp only [decide_eq_true_eq, String.ext_iff]
  constructor
  · intro h
    refine ⟨a.data.rdropWhile isJsWhiteSpace, a.data.rtakeWhile isJsWhiteSpace,
      b.data.rtakeWhile isJsWhiteSpace, ?_, ?_, ?_, ?_⟩
    · exact (rdropWhile_append_rtakeWhile _ _).symm
    · rw [h]; exact (rdropWhile_append_rtakeWhile _ _).symm
    · intro x hx
      exact List.rtakeWhile_eq_self_iff.1 (List.rtakeWhile_idempotent isJsWhiteSpace a.data) x hx
    · intro x hx
      exact List.rtakeWhile_eq_self_iff.1 (List.rtakeWhile_idempotent isJsWhiteSpace b.data) x hx
  · rintro ⟨c, wa, wb, ha, hb, hwa, hwb⟩
    rw [ha, hb, rdropWhile_append_of_all _ _ _ hwa, rdropWhile_append_of_all _ _ _ hwb]

theorem linesAreEqual_refl (a : String) : linesAreEqual a a = true := by
  simp [linesAreEqual]

/-! ## The line walk of `evaluateHunk` -/

theorem matchLines_result_irrel (fileLines : List String) (lines : List String) :
    ∀ (contextIndex : Int) (reads : List Int),
      (matchLines fileLines contextIndex lines reads).2 =
        (matchLines fileLines contextIndex lines []).2 := by
  induction lines with
  | nil => intro ci r; simp [matchLines]
  | cons line rest ih =>
    intro ci r
    simp only [matchLines]
    cases hj : jsIndex fileLines ci with
    | none => simp
    | some o =>
      simp only
      by_cases hl : linesAreEqual o line = true
      · simp only [hl, Bool.not_true, Bool.false_eq_true, if_false]
        rw [ih (ci + 1) (r ++ [ci]), ih (ci + 1) ([] ++ [ci])]
      · simp [hl]

theorem matchLines_append (fileLines : List String) (first second : List String) :
    ∀ (contextIndex : Int) (reads : List Int),
      (matchLines fileLines contextIndex (first ++ second) reads).2 =
        match (matchLines fileLines contextIndex first reads).2 with
        | .ok (some cursor) => (matchLines fileLines cursor second []).2
        | other => other := by
  induction first with
  | nil => intro ci r; simp [matchLines]; exact matchLines_result_irrel _ _ _ _
  | cons line rest ih =>
    intro ci r
    simp only [List.cons_append, matchLines]
    cases hj : jsIndex fileLines ci with
    | none => simp
    | some o =>
      simp only
      by_cases hl : linesAreEqual o line = true
      · simp only [hl, Bool.not_true, Bool.false_eq_true, if_false]
        exact ih _ _
      · simp [hl]

theorem matchLines_of_occur (fileLines : List String) (lines : List String) :
    ∀ (contextIndex : Int) (reads : List Int),
      linesOccurAt fileLines contextIndex lines = true →
      (matchLines fileLines contextIndex lines reads).2 =
        .ok (some (contextIndex + lines.length)) := by
  induction lines with
  | nil => intro ci r _; simp [matchLines]
  | cons line rest ih =>
    intro ci r h
    simp only [linesOccurAt, Bool.and_eq_true] at h
    obtain ⟨h1, h2⟩ := h
    simp only [matchLines]
    cases hj : jsIndex fileLines ci with
    | none => simp [hj] at h1
    | some o =>
      simp only [hj] at h1
      simp only [h1, Bool.not_true, Bool.false_eq_true, if_false]
      rw [ih _ _ h2]
      simp only [List.length_cons, Nat.cast_add, Nat.cast_one]
      congr 2
      omega

theorem matchLines_some (fileLines : List String) (lines : List String) :
    ∀ (contextIndex : Int) (reads : List Int) (cursor : Int),
      (matchLines fileLines contextIndex lines reads).2 = .ok (some cursor) →
      linesOccurAt fileLines contextIndex lines = true ∧
        cursor = contextIndex + lines.length := by
  induction lines with
  | nil => intro ci r c h; simp [matchLines] at h; simp [linesOccurAt, h]
  | cons line rest ih =>
    intro ci r c h
    simp only [matchLines] at h
    cases hj : jsIndex fileLines ci with
    | none => simp [hj] at h
    | some o =>
      simp only [hj] at h
      by_cases hl : linesAreEqual o line = true
      · simp only [hl, Bool.not_true, Bool.false_eq_true, if_false] at h
        obtain ⟨h1, h2⟩ := ih _ _ _ h
        refine ⟨by simp [linesOccurAt, hj, hl, h1], ?_⟩
        rw [h2]; simp only [List.length_cons, Nat.cast_add, Nat.cast_one]; omega
      · simp [hl] at h

theorem jsIndex_some_of_le {α : Type} (xs : List α) (i j : Int) (x : α)
    (hi : 0 ≤ i) (hij : i ≤ j) (hj : jsIndex xs j = some x) : ∃ y, jsIndex xs i = some y := by
  unfold jsIndex at *
  have hj0 : ¬ j < 0 := by omega
  have hi0 : ¬ i < 0 := by omega
  simp only [hj0, hi0, if_false] at *
  have hlt : j.toNat < xs.length := by
    rcases Nat.lt_or_ge j.toNat xs.length with h | h
    · exact h
    · rw [List.getElem?_eq_none h] at hj; cases hj
  have : i.toNat < xs.length := by omega
  exact ⟨xs[i.toNat], List.getElem?_eq_getElem this⟩

theorem matchLines_none_iff (fileLines : List String) (lines : List String) :
    ∀ (contextIndex : Int) (reads : List Int), 0 ≤ contextIndex →
      ((matchLines fileLines contextIndex lines reads).2 = .ok none ↔
        ∃ (i : Nat) (line originalLine : String), lines[i]? = some line ∧
          jsIndex fileLines (contextIndex + i) = some originalLine ∧
          linesAreEqual originalLine line = false) := by
  induction lines with
  | nil => intro ci r _; simp [matchLines]
  | cons line rest ih =>
    intro ci r hci
    simp only [matchLines]
    constructor
    · intro h
      cases hj : jsIndex fileLines ci with
      | none => simp [hj] at h
      | some o =>
        simp only [hj] at h
        by_cases hl : linesAreEqual o line = true
        · simp only [hl, Bool.not_true, Bool.false_eq_true, if_false] at h
          obtain ⟨i, l, ol, h1, h2, h3⟩ := (ih (ci + 1) _ (by omega)).1 h
          refine ⟨i + 1, l, ol, by simpa using h1, ?_, h3⟩
          rw [← h2]; congr 1; push_cast; omega
        · refine ⟨0, line, o, by simp, by simpa using hj, by simpa using hl⟩
    · rintro ⟨i, l, ol, h1, h2, h3⟩
      obtain ⟨o, ho⟩ := jsIndex_some_of_le fileLines ci (ci + i) ol hci (by omega) h2
      simp only [ho]
      by_cases hl : linesAreEqual o line = true
      · simp only [hl, Bool.not_true, Bool.false_eq_true, if_false]
        cases i with
        | zero =>
          simp at h1 h2
          rw [ho] at h2
          cases h2; cases h1
          rw [hl] at h3; cases h3
        | succ i =>
          refine (ih (ci + 1) _ (by omega)).2 ⟨i, l, ol, by simpa using h1, ?_, h3⟩
          rw [← h2]; congr 1; push_cast; omega
      · simp [hl]

theorem evaluateParts_result (fileLines : List String) (parts : List HunkPart) :
    ∀ (contextIndex : Int) (result : List Modification) (reads : List Int),
      (evaluateParts fileLines contextIndex parts result reads).result =
        match (matchLines fileLines contextIndex (originalLines parts) []).2 with
        | .error e => .error e
        | .ok none => .ok none
        | .ok (some _) => .ok (some (result ++ expectedModifications contextIndex parts)) := by
  induction parts with
  | nil => intro ci acc r; simp [evaluateParts, originalLines, matchLines, expectedModifications]
  | cons part parts ih =>
    intro ci acc r
    cases hty : part.type with
    | insertion =>
      simp only [evaluateParts, hty, originalLines, expectedModifications, if_true]
      rw [ih]
      cases (matchLines fileLines ci (originalLines parts) []).2 with
      | error e => rfl
      | ok v =>
        cases v with
        | none => rfl
        | some c => cases part.noNewlineAtEndOfFile <;> simp
    | context =>
      simp only [evaluateParts, hty, originalLines, expectedModifications, reduceCtorEq, if_false,
        if_true]
      rw [matchLines_append]
      rcases hm : matchLines fileLines ci part.lines r with ⟨rd, res⟩
      have hres : (matchLines fileLines ci part.lines []).2 = res := by
        rw [← matchLines_result_irrel fileLines part.lines ci r, hm]
      rw [hres]
      cases res with
      | error e => simp
      | ok v =>
        cases v with
        | none => simp
        | some c =>
          have hc := (matchLines_some fileLines part.lines ci [] c hres).2
          simp only [reduceCtorEq, if_false]
          rw [ih, hc]
    | deletion =>
      simp only [evaluateParts, hty, originalLines, expectedModifications, reduceCtorEq, if_false,
        if_true]
      rw [matchLines_append]
      rcases hm : matchLines fileLines ci part.lines r with ⟨rd, res⟩
      have hres : (matchLines fileLines ci part.lines []).2 = res := by
        rw [← matchLines_result_irrel fileLines part.lines ci r, hm]
      rw [hres]
      cases res with
      | error e => simp
      | ok v =>
        cases v with
        | none => simp
        | some c =>
          have hc := (matchLines_some fileLines part.lines ci [] c hres).2
          simp only [reduceCtorEq, if_false, if_true]
          rw [ih, hc]
          cases (matchLines fileLines (ci + part.lines.length) (originalLines parts) []).2 with
          | error e => rfl
          | ok v =>
            cases v with
            | none => rfl
            | some c => cases part.noNewlineAtEndOfFile <;> simp

/-! ## The fuzz search -/

theorem nextFuzzingOffset_offsetAt (i : Nat) :
    nextFuzzingOffset (offsetAt i) = offsetAt (i + 1) := by
  unfold nextFuzzingOffset offsetAt
  split_ifs <;> omega

theorem natAbs_offsetAt_succ (i : Nat) : (offsetAt (i + 1)).natAbs > 20 ↔ 40 ≤ i := by
  unfold offsetAt
  split_ifs <;> omega

theorem probeOrder_eq : probeOrder = (List.range' 0 41).map offsetAt := by
  decide

theorem scanProbes_cons (hunk : Hunk) (fileLines : List String) (offset : Int)
    (rest probes : List Int) :
    scanProbes hunk fileLines (offset :: rest) probes =
      match (evaluateHunk hunk fileLines offset).result with
      | .error e => ⟨probes ++ [offset], .threw e⟩
      | .ok (some modifications) => ⟨probes ++ [offset], .matched modifications⟩
      | .ok none => scanProbes hunk fileLines rest (probes ++ [offset]) := by
  rw [scanProbes]

theorem fuzzLoop_eq_scanProbes (hunk : Hunk) (fileLines : List String) (n : Nat) :
    ∀ (i : Nat) (probes : List Int), i + n = 40 →
      fuzzLoop hunk fileLines (offsetAt i) probes =
        scanProbes hunk fileLines ((List.range' i (n + 1)).map offsetAt) probes := by
  induction n with
  | zero =>
    intro i probes hi
    rw [fuzzLoop]
    have hgt : (offsetAt (i + 1)).natAbs > 20 := (natAbs_offsetAt_succ i).2 (by omega)
    rw [List.range'_succ, List.map_cons, scanProbes_cons, nextFuzzingOffset_offsetAt,
      if_pos hgt]
    rfl
  | succ n ih =>
    intro i probes hi
    rw [fuzzLoop]
    have hnot : ¬ (offsetAt (i + 1)).natAbs > 20 := by
      rw [natAbs_offsetAt_succ]; omega
    rw [List.range'_succ, List.map_cons, scanProbes_cons, nextFuzzingOffset_offsetAt,
      if_neg hnot, ih (i + 1) _ (by omega)]

theorem fuzzSearch_eq_scanProbes (hunk : Hunk) (fileLines : List String) :
    fuzzSearch hunk fileLines = scanProbes hunk fileLines probeOrder [] := by
  rw [probeOrder_eq]
  exact fuzzLoop_eq_scanProbes hunk fileLines 40 0 [] (by omega)

theorem scanProbes_outcome_matched (hunk : Hunk) (fileLines : List String)
    (modifications : List Modification) (offset : Int) (pre : List Int) :
    ∀ (post probes : List Int),
      (∀ j ∈ pre, (evaluateHunk hunk fileLines j).result = .ok none) →
      (evaluateHunk hunk fileLines offset).result = .ok (some modifications) →
      scanProbes hunk fileLines (pre ++ offset :: post) probes =
        ⟨probes ++ pre ++ [offset], .matched modifications⟩ := by
  induction pre with
  | nil =>
    intro post probes _ h
    rw [List.nil_append, scanProbes_cons, h]
    simp
  | cons p pre ih =>
    intro post probes hpre h
    rw [List.cons_append, scanProbes_cons, hpre p (by simp)]
    simp only
    rw [ih post _ (fun j hj => hpre j (by simp [hj])) h]
    simp

theorem scanProbes_outcome_unresolvable (hunk : Hunk) (fileLines : List String)
    (offsets : List Int) :
    ∀ (probes : List Int),
      (∀ j ∈ offsets, (evaluateHunk hunk fileLines j).result = .ok none) →
      scanProbes hunk fileLines offsets probes = ⟨probes ++ offsets, .unresolvable⟩ := by
  induction offsets with
  | nil => intro probes _; simp [scanProbes]
  | cons p rest ih =>
    intro probes h
    rw [scanProbes_cons, h p (by simp)]
    simp only
    rw [ih _ (fun j hj => h j (by simp [hj]))]
    simp

theorem scanProbes_spec (hunk : Hunk) (fileLines : List String) (offsets : List Int) :
    ∀ (probes : List Int),
      ∃ taken : List Int,
        (scanProbes hunk fileLines offsets probes).probes = probes ++ taken ∧
        taken <+: offsets ∧
        match (scanProbes hunk fileLines offsets probes).outcome with
        | .matched modifications =>
          ∃ pre offset, taken = pre ++ [offset] ∧
            (∀ j ∈ pre, (evaluateHunk hunk fileLines j).result = .ok none) ∧
            (evaluateHunk hunk fileLines offset).result = .ok (some modifications)
        | .threw e =>
          ∃ pre offset, taken = pre ++ [offset] ∧
            (∀ j ∈ pre, (evaluateHunk hunk fileLines j).result = .ok none) ∧
            (evaluateHunk hunk fileLines offset).result = .error e
        | .unresolvable =>
          taken = offsets ∧ ∀ j ∈ offsets, (evaluateHunk hunk fileLines j).result = .ok none := by
  induction offsets with
  | nil => intro probes; exact ⟨[], by simp [scanProbes]⟩
  | cons p rest ih =>
    intro probes
    rw [scanProbes_cons]
    cases hres : (evaluateHunk hunk fileLines p).result with
    | error e =>
      exact ⟨[p], rfl, by simp, [], p, rfl, by simp, hres⟩
    | ok v =>
      cases v with
      | some m => exact ⟨[p], rfl, by simp, [], p, rfl, by simp, hres⟩
      | none =>
        simp only
        obtain ⟨taken, h1, h2, h3⟩ := ih (probes ++ [p])
        refine ⟨p :: taken, by simp [h1], by simpa using h2, ?_⟩
        cases hout : (scanProbes hunk fileLines rest (probes ++ [p])).outcome with
        | matched m =>
          rw [hout] at h3
          obtain ⟨pre, o, e1, e2, e3⟩ := h3
          refine ⟨p :: pre, o, by simp [e1], ?_, e3⟩
          intro j hj
          rcases List.mem_cons.1 hj with rfl | hj
          · exact hres
          · exact e2 j hj
        | threw e =>
          rw [hout] at h3
          obtain ⟨pre, o, e1, e2, e3⟩ := h3
          refine ⟨p :: pre, o, by simp [e1], ?_, e3⟩
          intro j hj
          rcases List.mem_cons.1 hj with rfl | hj
          · exact hres
          · exact e2 j hj
        | unresolvable =>
          rw [hout] at h3
          obtain ⟨e1, e2⟩ := h3
          refine ⟨by simp [e1], ?_⟩
          intro j hj
          rcases List.mem_cons.1 hj with rfl | hj
          · exact hres
          · exact e2 j hj

theorem matchLines_in_range (fileLines : List String) (lines : List String) :
    ∀ (contextIndex : Int) (reads : List Int), 0 ≤ contextIndex →
      contextIndex + lines.length ≤ fileLines.length →
      (matchLines fileLines contextIndex lines reads).2 =
        if linesOccurAt fileLines contextIndex lines = true
        then .ok (some (contextIndex + lines.length)) else .ok none := by
  induction lines with
  | nil => intro ci r _ _; simp [matchLines, linesOccurAt]
  | cons line rest ih =>
    intro ci r h0 hlen
    simp only [List.length_cons, Nat.cast_add, Nat.cast_one] at hlen
    have hlt : ci.toNat < fileLines.length := by omega
    have hj : jsIndex fileLines ci = some fileLines[ci.toNat] := by
      unfold jsIndex
      rw [if_neg (by omega), List.getElem?_eq_getElem hlt]
    simp only [matchLines, linesOccurAt, hj]
    by_cases hl : linesAreEqual fileLines[ci.toNat] line = true
    · simp only [hl, Bool.not_true, Bool.false_eq_true, if_false, Bool.true_and]
      rw [ih (ci + 1) _ (by omega) (by omega)]
      simp only [List.length_cons, Nat.cast_add, Nat.cast_one]
      split_ifs
      · congr 2; omega
      · rfl
    · simp [hl]

theorem evaluateHunk_result_of_consistent (hunk : Hunk) (fileLines : List String)
    (fuzzingOffset : Int) (hcons : headerConsistent hunk) :
    (evaluateHunk hunk fileLines fuzzingOffset).result =
      if hunkOccursAt hunk fileLines fuzzingOffset = true
      then .ok (some (expectedModifications (contextStart hunk fuzzingOffset) hunk.parts))
      else .ok none := by
  unfold headerConsistent at hcons
  unfold evaluateHunk hunkOccursAt
  simp only [← contextStart.eq_1, ← hcons]
  by_cases h0 : contextStart hunk fuzzingOffset < 0
  · have : ¬ (0 ≤ contextStart hunk fuzzingOffset) := by omega
    simp [h0, this]
  · by_cases h1 : (fileLines.length : Int) - contextStart hunk fuzzingOffset <
        ((originalLines hunk.parts).length : Int)
    · have : ¬ (contextStart hunk fuzzingOffset + ((originalLines hunk.parts).length : Int) ≤
          (fileLines.length : Int)) := by omega
      simp [h0, h1, this]
    · have h2 : contextStart hunk fuzzingOffset + ((originalLines hunk.parts).length : Int) ≤
          (fileLines.length : Int) := by omega
      have h3 : 0 ≤ contextStart hunk fuzzingOffset := by omega
      simp only [h0, h1, if_false, evaluateParts_result, h2, h3, decide_True, Bool.true_and,
        List.nil_append]
      rw [matchLines_in_range fileLines _ _ _ h3 h2]
      split_ifs <;> rfl

theorem mem_probeOrder_of_natAbs_le (k : Int) (hk : k.natAbs ≤ 20) : k ∈ probeOrder := by
  have h1 : -20 ≤ k := by omega
  have h2 : k ≤ 20 := by omega
  interval_cases k <;> decide

theorem natAbs_le_of_mem_probeOrder : ∀ j ∈ probeOrder, j.natAbs ≤ 20 := by
  decide

theorem probeOrder_nodup : probeOrder.Nodup := by
  decide

/-- C1: when the context and deletion lines of a hunk with a consistent header
occur in the file at the position shifted by `k` lines from the declared
original start (each line equal up to trailing white space), and at no other
probed position, the fuzz search of `applyPatch` ends with the match found at
offset `k` if `|k| ≤ 20`, and declares the hunk unresolvable if `|k| ≥ 21`, in
particular for a shift of 21 lines. -/
theorem fuzzSearch_finds_shifted_hunk (hunk : Hunk) (fileLines : List String) (k : Int)
    (hcons : headerConsistent hunk)
    (hocc : hunkOccursAt hunk fileLines k = true)
    (hother : ∀ j ∈ probeOrder, j ≠ k → hunkOccursAt hunk fileLines j = false) :
    (k.natAbs ≤ 20 →
      (fuzzSearch hunk fileLines).outcome =
          .matched (expectedModifications (contextStart hunk k) hunk.parts) ∧
        (fuzzSearch hunk fileLines).probes.getLast? = some k ∧
        (evaluateHunk hunk fileLines k).result =
          .ok (some (expectedModifications (contextStart hunk k) hunk.parts))) ∧
    (21 ≤ k.natAbs → (fuzzSearch hunk fileLines).outcome = .unresolvable) := by
  have hk : (evaluateHunk hunk fileLines k).result =
      .ok (some (expectedModifications (contextStart hunk k) hunk.parts)) := by
    rw [evaluateHunk_result_of_consistent hunk fileLines k hcons, if_pos hocc]
  have hnone : ∀ j ∈ probeOrder, j ≠ k → (evaluateHunk hunk fileLines j).result = .ok none := by
    intro j hj hjk
    rw [evaluateHunk_result_of_consistent hunk fileLines j hcons, hother j hj hjk]
    simp
  constructor
  · intro hle
    obtain ⟨s, t, hst⟩ := List.append_of_mem (mem_probeOrder_of_natAbs_le k hle)
    have hnd := probeOrder_nodup
    rw [hst] at hnd
    have hks : k ∉ s := by
      intro hmem
      have := (List.nodup_append.1 hnd).2.2
      exact this hmem (by simp) 
    have hpre : ∀ j ∈ s, (evaluateHunk hunk fileLines j).result = .ok none := by
      intro j hj
      refine hnone j (by rw [hst]; simp [hj]) ?_
      rintro rfl
      exact hks hj
    rw [fuzzSearch_eq_scanProbes, hst, scanProbes_outcome_matched hunk fileLines _ k s t [] hpre hk]
    simp [hk]
  · intro hge
    have hall : ∀ j ∈ probeOrder, (evaluateHunk hunk fileLines j).result = .ok none := by
      intro j hj
      refine hnone j hj ?_
      rintro rfl
      have := natAbs_le_of_mem_probeOrder j hj
      omega
    rw [fuzzSearch_eq_scanProbes, scanProbes_outcome_unresolvable hunk fileLines _ [] hall]

/-- The hunk that replaces `x` is found one line below its declared start, and
is unresolvable 21 lines below it. -/
theorem fuzzSearch_finds_shifted_hunk_witness :
    (headerConsistent replaceHunk ∧ hunkOccursAt replaceHunk shiftedByOne 1 = true ∧
      (fuzzSearch replaceHunk shiftedByOne).outcome =
        .matched [.splice 1 1 [], .splice 2 0 ["y"]]) ∧
    (headerConsistent replaceHunk ∧ hunkOccursAt replaceHunk shiftedByTwentyOne 21 = true ∧
      (fuzzSearch replaceHunk shiftedByTwentyOne).outcome = .unresolvable) :=
  ⟨⟨by decide, by decide,
      ((fuzzSearch_finds_shifted_hunk replaceHunk shiftedByOne 1 (by decide) (by decide)
        (by decide)).1 (by decide)).1⟩,
    ⟨by decide, by decide,
      (fuzzSearch_finds_shifted_hunk replaceHunk shiftedByTwentyOne 21 (by decide) (by decide)
        (by decide)).2 (by decide)⟩⟩

/-! ## The probes of the fuzz search and the answers of `evaluateHunk` -/

/-- C2: the fuzz search of `applyPatch` is the scan of the offsets
`0, -1, +1, -2, +2, ..., -20, +20` in this order: the offsets passed to
`evaluateHunk` are a prefix of that list, so at most 41 evaluations are made;
when the search ends with a match, every earlier offset answered no-match and
the last offset probed is the one that matched; and the hunk is declared
unresolvable exactly when all 41 offsets answered no-match, after all of them
were probed. -/
theorem fuzzSearch_probes_in_order (hunk : Hunk) (fileLines : List String) :
    fuzzSearch hunk fileLines = scanProbes hunk fileLines probeOrder [] ∧
    (fuzzSearch hunk fileLines).probes <+: probeOrder ∧
    (fuzzSearch hunk fileLines).probes.length ≤ 41 ∧
    (∀ modifications, (fuzzSearch hunk fileLines).outcome = .matched modifications →
      ∃ pre offset, (fuzzSearch hunk fileLines).probes = pre ++ [offset] ∧
        (∀ j ∈ pre, (evaluateHunk hunk fileLines j).result = .ok none) ∧
        (evaluateHunk hunk fileLines offset).result = .ok (some modifications)) ∧
    ((fuzzSearch hunk fileLines).outcome = .unresolvable ↔
      ∀ j ∈ probeOrder, (evaluateHunk hunk fileLines j).result = .ok none) ∧
    ((fuzzSearch hunk fileLines).outcome = .unresolvable →
      (fuzzSearch hunk fileLines).probes = probeOrder) := by
  obtain ⟨taken, h1, h2, h3⟩ := scanProbes_spec hunk fileLines probeOrder []
  rw [← fuzzSearch_eq_scanProbes] at h1 h3
  simp only [List.nil_append] at h1
  refine ⟨fuzzSearch_eq_scanProbes hunk fileLines, h1 ▸ h2, ?_, ?_, ⟨?_, ?_⟩, ?_⟩
  · rw [h1]
    have := h2.length_le
    have hlen : probeOrder.length = 41 := by decide
    omega
  · intro m hm
    rw [hm] at h3
    obtain ⟨pre, o, e1, e2, e3⟩ := h3
    exact ⟨pre, o, by rw [h1, e1], e2, e3⟩
  · intro hu
    rw [hu] at h3
    exact h3.2
  · intro hall
    rw [fuzzSearch_eq_scanProbes, scanProbes_outcome_unresolvable hunk fileLines _ [] hall]
  · intro hu
    rw [hu] at h3
    rw [h1, h3.1]

/-- C3: for a hunk, a line array and a fuzz offset that pass the two bounds
checks of `evaluateHunk`, the answer is no-match if and only if some context or
deletion line of the hunk, the `i`-th in part order, differs from the line of
the file at the cursor (candidate start plus `i`) after `trimRight` of both;
and two lines are equal for `linesAreEqual` exactly when they consist of a
common text followed, in each, by white space only. -/
theorem evaluateHunk_noMatch_iff (hunk : Hunk) (fileLines : List String) (fuzzingOffset : Int)
    (hstart : ¬ contextStart hunk fuzzingOffset < 0)
    (hlength : ¬ (fileLines.length : Int) - contextStart hunk fuzzingOffset <
      (hunk.header.original.length : Int)) :
    ((evaluateHunk hunk fileLines fuzzingOffset).result = .ok none ↔
      ∃ (i : Nat) (line originalLine : String),
        (originalLines hunk.parts)[i]? = some line ∧
        jsIndex fileLines (contextStart hunk fuzzingOffset + i) = some originalLine ∧
        trimRight originalLine ≠ trimRight line) ∧
    (∀ a b : String, linesAreEqual a b = true ↔
      ∃ c wa wb : List Char, a.data = c ++ wa ∧ b.data = c ++ wb ∧
        (∀ x ∈ wa, isJsWhiteSpace x = true) ∧ (∀ x ∈ wb, isJsWhiteSpace x = true)) := by
  refine ⟨?_, linesAreEqual_iff⟩
  have hiff := matchLines_none_iff fileLines (originalLines hunk.parts)
    (contextStart hunk fuzzingOffset) [] (by omega)
  have hne : ∀ a b : String, linesAreEqual a b = false ↔ trimRight a ≠ trimRight b := by
    intro a b; simp [linesAreEqual]
  simp only [hne] at hiff
  rw [← hiff]
  unfold evaluateHunk
  simp only [← contextStart.eq_1, hstart, hlength, if_false, evaluateParts_result]
  cases (matchLines fileLines (contextStart hunk fuzzingOffset) (originalLines hunk.parts) []).2 with
  | error e => simp
  | ok v => cases v <;> simp

/-- The characterisation of no-match at the hunk that replaces `x`, probed one
line below its declared start. -/
theorem evaluateHunk_noMatch_iff_witness :
    ¬ contextStart replaceHunk 1 < 0 ∧
    ¬ ((shiftedByOne.length : Int) - contextStart replaceHunk 1 <
      (replaceHunk.header.original.length : Int)) ∧
    ((evaluateHunk replaceHunk shiftedByOne 1).result = .ok none ↔
      ∃ (i : Nat) (line originalLine : String),
        (originalLines replaceHunk.parts)[i]? = some line ∧
        jsIndex shiftedByOne (contextStart replaceHunk 1 + i) = some originalLine ∧
        trimRight originalLine ≠ trimRight line) :=
  ⟨by decide, by decide,
    (evaluateHunk_noMatch_iff replaceHunk shiftedByOne 1 (by decide) (by decide)).1⟩

/-- C4: `evaluateHunk` answers no-match, with no edit list, whenever the
candidate start `header.original.start - 1 + fuzzingOffset` is negative or the
number of lines from the candidate start to the end of the file is smaller than
`header.original.length`; in both cases no line of the file is read. -/
theorem evaluateHunk_bounds_reject (hunk : Hunk) (fileLines : List String)
    (fuzzingOffset : Int)
    (h : (hunk.header.original.start : Int) - 1 + fuzzingOffset < 0 ∨
      (fileLines.length : Int) - ((hunk.header.original.start : Int) - 1 + fuzzingOffset) <
        (hunk.header.original.length : Int)) :
    (evaluateHunk hunk fileLines fuzzingOffset).result = .ok none ∧
    (evaluateHunk hunk fileLines fuzzingOffset).reads = [] := by
  unfold evaluateHunk
  rcases h with h | h
  · simp [h]
  · by_cases h0 : (hunk.header.original.start : Int) - 1 + fuzzingOffset < 0
    · simp [h0]
    · simp [h0, h]

/-- Both bounds checks at work: a candidate start before the file, and a
candidate start at the end of a file of three lines. -/
theorem evaluateHunk_bounds_reject_witness :
    ((evaluateHunk replaceHunk shiftedByOne (-1)).result = .ok none ∧
      (evaluateHunk replaceHunk shiftedByOne (-1)).reads = []) ∧
    ((evaluateHunk replaceHunk shiftedByOne 3).result = .ok none ∧
      (evaluateHunk replaceHunk shiftedByOne 3).reads = []) :=
  ⟨evaluateHunk_bounds_reject replaceHunk shiftedByOne (-1) (Or.inl (by decide)),
    evaluateHunk_bounds_reject replaceHunk shiftedByOne 3 (Or.inr (by decide))⟩

/-- C5: whenever `evaluateHunk` matches, the edit list it returns is the list
of section 4.3 (`expectedModifications`), in part order: for a deletion part of
`n` lines a removal of `n` lines at the cursor after the part minus `n`,
inserting nothing, followed by `push ""` iff the part carries
`noNewlineAtEndOfFile`; for an insertion part an insertion of the lines of the
part at the cursor, deleting nothing, followed by `pop` iff the part carries
`noNewlineAtEndOfFile`; a context part gives no edit and advances the cursor. -/
theorem evaluateHunk_modifications (hunk : Hunk) (fileLines : List String)
    (fuzzingOffset : Int) (modifications : List Modification)
    (h : (evaluateHunk hunk fileLines fuzzingOffset).result = .ok (some modifications)) :
    modifications =
      expectedModifications ((hunk.header.original.start : Int) - 1 + fuzzingOffset)
        hunk.parts := by
  unfold evaluateHunk at h
  by_cases h0 : (hunk.header.original.start : Int) - 1 + fuzzingOffset < 0
  · simp [h0] at h
  · by_cases h1 : (fileLines.length : Int) -
        ((hunk.header.original.start : Int) - 1 + fuzzingOffset) <
        (hunk.header.original.length : Int)
    · simp [h0, h1] at h
    · simp only [h0, h1, if_false, evaluateParts_result] at h
      cases hm : (matchLines fileLines ((hunk.header.original.start : Int) - 1 + fuzzingOffset)
          (originalLines hunk.parts) []).2 with
      | error e => rw [hm] at h; simp at h
      | ok v =>
        cases v with
        | none => rw [hm] at h; simp at h
        | some c => rw [hm] at h; simpa using h.symm

/-- The edit list of the hunk that replaces `x`, matched one line below its
declared start. -/
theorem evaluateHunk_modifications_witness :
    (evaluateHunk replaceHunk shiftedByOne 1).result =
      .ok (some [.splice 1 1 [], .splice 2 0 ["y"]]) ∧
    [Modification.splice 1 1 [], Modification.splice 2 0 ["y"]] =
      expectedModifications ((replaceHunk.header.original.start : Int) - 1 + 1)
        replaceHunk.parts :=
  ⟨by decide, evaluateHunk_modifications replaceHunk shiftedByOne 1 _ (by decide)⟩

/-! ## The application of the modifications -/

theorem applyModifications_eq_foldl (fileLines : List String)
    (result : List (List Modification)) :
    applyModifications fileLines result =
      (result.flatten.foldl applyModification (ApplyState.mk fileLines 0)).fileLines := by
  unfold applyModifications
  rw [List.foldl_flatten]

theorem applyModification_eq_performAt (st : ApplyState) (modification : Modification) :
    applyModification st modification =
      ⟨performAt st.fileLines st.diffOffset modification,
        st.diffOffset + lengthDelta modification⟩ := by
  cases modification <;> simp [applyModification, performAt, lengthDelta]

theorem foldl_applyModification_drift (rest : List Modification) :
    ∀ (done : List Modification) (lines : List String),
      (rest.foldl applyModification ⟨lines, (done.map lengthDelta).sum⟩).fileLines =
        (List.range' done.length rest.length).foldl
          (fun (lines : List String) (j : Nat) =>
            match (done ++ rest)[j]? with
            | some modification => performAt lines (driftBefore (done ++ rest) j) modification
            | none => lines)
          lines := by
  induction rest with
  | nil => intro done lines; simp
  | cons m rest ih =>
    intro done lines
    have hget : (done ++ m :: rest)[done.length]? = some m := by
      rw [List.getElem?_append_right (Nat.le_refl _)]
      simp
    have hdrift : driftBefore (done ++ m :: rest) done.length = (done.map lengthDelta).sum := by
      simp [driftBefore]
    rw [List.foldl_cons, applyModification_eq_performAt, List.length_cons, List.range'_succ,
      List.foldl_cons, hget, hdrift]
    have h := ih (done ++ [m]) (performAt lines (done.map lengthDelta).sum m)
    simp only [List.map_append, List.sum_append, List.map_cons, List.map_nil, List.sum_cons,
      List.sum_nil, add_zero, List.length_append, List.length_singleton, List.append_assoc,
      List.singleton_append] at h
    exact h

/-- C6: the loops of `applyPatch` over the modifications of all the hunks of a
file perform every splice at its declared index plus the sum of (lines
inserted - lines deleted) over all the splices performed before it, left to
right (`applyWithDrift`). For the file of ten lines, with a first hunk that
inserts three lines at line 2 and a second hunk declared to delete the
original lines 8 and 9, the second splice is performed at index 7 + 3 and
removes the current lines 11 and 12, which are the original lines 8 and 9. -/
theorem applyModifications_cumulative_drift :
    (∀ (fileLines : List String) (result : List (List Modification)),
      applyModifications fileLines result = applyWithDrift fileLines result.flatten) ∧
    ((evaluateHunk insertThreeHunk tenLines 0).result =
        .ok (some [.splice 1 0 ["n1", "n2", "n3"]]) ∧
      (evaluateHunk deleteTwoHunk tenLines 0).result = .ok (some [.splice 7 2 []]) ∧
      applyModifications tenLines [[.splice 1 0 ["n1", "n2", "n3"]]] =
        ["l1", "n1", "n2", "n3", "l2", "l3", "l4", "l5", "l6", "l7", "l8", "l9", "l10"] ∧
      driftBefore [.splice 1 0 ["n1", "n2", "n3"], .splice 7 2 []] 1 = 3 ∧
      applyModifications tenLines [[.splice 1 0 ["n1", "n2", "n3"]], [.splice 7 2 []]] =
        jsSplice (applyModifications tenLines [[.splice 1 0 ["n1", "n2", "n3"]]]) (7 + 3) 2 [] ∧
      ((applyModifications tenLines [[.splice 1 0 ["n1", "n2", "n3"]]]).drop 10).take 2 =
        ["l8", "l9"] ∧
      applyModifications tenLines [[.splice 1 0 ["n1", "n2", "n3"]], [.splice 7 2 []]] =
        ["l1", "n1", "n2", "n3", "l2", "l3", "l4", "l5", "l6", "l7", "l10"]) := by
  refine ⟨?_, by decide⟩
  intro fileLines result
  rw [applyModifications_eq_foldl]
  have h := foldl_applyModification_drift result.flatten [] fileLines
  simp only [List.map_nil, List.sum_nil, List.length_nil, List.nil_append] at h
  rw [h, applyWithDrift, List.range_eq_range']

/-! ## A hunk applied and reversed -/

theorem jsSplice_of_le {α : Type} (xs : List α) (start : Nat) (deleteCount : Nat)
    (items : List α) (h : start ≤ xs.length) :
    jsSplice xs (start : Int) deleteCount items =
      xs.take start ++ items ++ xs.drop (start + deleteCount) := by
  unfold jsSplice
  have h0 : ¬ ((start : Int) < 0) := by omega
  simp only [h0, if_false, Int.toNat_ofNat, Nat.min_eq_left h]
  congr 1
  rcases Nat.le_total deleteCount (xs.length - start) with hle | hle
  · rw [Nat.min_eq_left hle]
  · rw [Nat.min_eq_right hle, List.drop_of_length_le (by omega), List.drop_of_length_le (by omega)]

theorem originalLines_cons_length (part : HunkPart) (parts : List HunkPart) :
    (originalLines (part :: parts)).length =
      (if part.type = PartType.insertion then 0 else part.lines.length) +
        (originalLines parts).length := by
  simp only [originalLines]
  split_ifs <;> simp

theorem foldl_expectedModifications (parts : List HunkPart) :
    ∀ (cursor drift : Int) (before segment : List String),
      noFlags parts →
      cursor + drift = before.length →
      (originalLines parts).length ≤ segment.length →
      ((expectedModifications cursor parts).foldl applyModification
          ⟨before ++ segment, drift⟩).fileLines =
        before ++ patchedSegment segment parts ++ segment.drop (originalLines parts).length := by
  induction parts with
  | nil => intro c d A seg _ _ _; simp [expectedModifications, patchedSegment, originalLines]
  | cons part parts ih =>
    intro c d A seg hflags hcd hlen
    have hflag : part.noNewlineAtEndOfFile = false := hflags part (by simp)
    have hflags' : noFlags parts := fun q hq => hflags q (by simp [hq])
    rw [originalLines_cons_length] at hlen
    cases hty : part.type with
    | context =>
      simp only [hty, reduceCtorEq, if_false] at hlen
      simp only [expectedModifications, hty, patchedSegment, originalLines, reduceCtorEq,
        if_false, List.length_append]
      have h := ih (c + part.lines.length) d (A ++ seg.take part.lines.length)
        (seg.drop part.lines.length) hflags'
        (by simp only [List.length_append, List.length_take, Nat.cast_add]
            rw [Nat.min_eq_left (by omega)]; omega)
        (by simp only [List.length_drop]; omega)
      simp only [List.append_assoc, List.take_append_drop, List.drop_drop] at h
      rw [h]
      simp [Nat.add_comm]
    | deletion =>
      simp only [hty, reduceCtorEq, if_false] at hlen
      simp only [expectedModifications, hty, patchedSegment, originalLines, reduceCtorEq,
        if_false, List.length_append, hflag, Bool.false_eq_true, List.cons_append,
        List.nil_append, List.foldl_cons, applyModification]
      have hidx : c + (part.lines.length : Int) - (part.lines.length : Int) + d =
          ((A.length : Nat) : Int) := by omega
      rw [hidx, jsSplice_of_le _ _ _ _ (by simp)]
      have h := ih (c + part.lines.length) (d + ((([] : List String).length : Int) -
          (part.lines.length : Int))) A (seg.drop part.lines.length) hflags'
        (by simp only [List.length_nil, Nat.cast_zero]; omega)
        (by simp only [List.length_drop]; omega)
      simp only [List.drop_drop] at h
      simp only [List.take_left', List.append_nil, List.drop_append, List.take_append_eq_append_take,
        Nat.sub_self, List.take_zero, List.take_length]
      exact h
    | insertion =>
      simp only [hty, if_true] at hlen
      simp only [expectedModifications, hty, patchedSegment, originalLines, if_true, hflag,
        Bool.false_eq_true, if_false, List.cons_append, List.nil_append, List.foldl_cons,
        applyModification]
      have hidx : c + d = ((A.length : Nat) : Int) := by omega
      rw [hidx, jsSplice_of_le _ _ _ _ (by simp)]
      have h := ih c (d + ((part.lines.length : Int) - ((0 : Nat) : Int)))
        (A ++ part.lines) seg hflags'
        (by simp only [List.length_append, Nat.cast_add, Nat.cast_zero]; omega)
        (by omega)
      simp only [List.take_left', Nat.add_zero, List.drop_left', List.append_assoc] at h ⊢
      rw [h]

theorem linesOccurAt_eq_segmentMatches (fileLines : List String) (lines : List String) :
    ∀ (p : Nat), linesOccurAt fileLines (p : Int) lines = segmentMatches (fileLines.drop p) lines := by
  induction lines with
  | nil => intro p; simp [linesOccurAt, segmentMatches]
  | cons line rest ih =>
    intro p
    have hj : jsIndex fileLines (p : Int) = fileLines[p]? := by
      unfold jsIndex
      rw [if_neg (by omega)]; simp
    have hnext := ih (p + 1)
    simp only [Nat.cast_add, Nat.cast_one] at hnext
    rcases Nat.lt_or_ge p fileLines.length with hlt | hge
    · rw [List.drop_eq_getElem_cons hlt]
      simp only [linesOccurAt, segmentMatches, hj, List.getElem?_eq_getElem hlt, hnext]
    · rw [List.drop_of_length_le hge]
      simp [linesOccurAt, segmentMatches, hj, List.getElem?_eq_none hge]

theorem segmentMatches_length (lines : List String) :
    ∀ (segment : List String), segmentMatches segment lines = true →
      lines.length ≤ segment.length := by
  induction lines with
  | nil => intro seg _; simp
  | cons line rest ih =>
    intro seg h
    cases seg with
    | nil => simp [segmentMatches] at h
    | cons o seg =>
      simp only [segmentMatches, Bool.and_eq_true] at h
      have := ih seg h.2
      simp only [List.length_cons]; omega

theorem segmentMatches_append (first : List String) :
    ∀ (segment second : List String),
      segmentMatches segment (first ++ second) =
        (segmentMatches segment first && segmentMatches (segment.drop first.length) second) := by
  induction first with
  | nil => intro seg second; simp [segmentMatches]
  | cons line rest ih =>
    intro seg second
    cases seg with
    | nil => simp [segmentMatches]
    | cons o seg => simp [segmentMatches, ih, Bool.and_assoc]

theorem segmentMatches_take_append (lines : List String) :
    ∀ (segment tail : List String), segmentMatches segment lines = true →
      segmentMatches (segment.take lines.length ++ tail) lines = true := by
  induction lines with
  | nil => intro seg tail _; simp [segmentMatches]
  | cons line rest ih =>
    intro seg tail h
    cases seg with
    | nil => simp [segmentMatches] at h
    | cons o seg =>
      simp only [segmentMatches, Bool.and_eq_true] at h
      simp [segmentMatches, h.1, ih seg tail h.2]

theorem segmentMatches_self_append (lines : List String) (tail : List String) :
    segmentMatches (lines ++ tail) lines = true := by
  induction lines with
  | nil => simp [segmentMatches]
  | cons line rest ih => simp [segmentMatches, linesAreEqual_refl, ih]

theorem originalLines_reverse (parts : List HunkPart) :
    originalLines (parts.map reversePart) = modifiedLines parts := by
  induction parts with
  | nil => rfl
  | cons part parts ih =>
    cases hty : part.type <;>
      simp [originalLines, modifiedLines, reversePart, hty, ih]

theorem noFlags_reverse (parts : List HunkPart) (h : noFlags parts) :
    noFlags (parts.map reversePart) := by
  intro q hq
  obtain ⟨p, hp, rfl⟩ := List.mem_map.1 hq
  have := h p hp
  unfold reversePart
  cases p.type <;> simpa using this

theorem patchedSegment_length (parts : List HunkPart) :
    ∀ (segment : List String), (originalLines parts).length ≤ segment.length →
      (patchedSegment segment parts).length = (modifiedLines parts).length := by
  induction parts with
  | nil => intro seg _; rfl
  | cons part parts ih =>
    intro seg hlen
    rw [originalLines_cons_length] at hlen
    cases hty : part.type with
    | context =>
      simp only [hty, reduceCtorEq, if_false] at hlen
      simp only [patchedSegment, modifiedLines, hty, reduceCtorEq, if_false, List.length_append,
        List.length_take]
      rw [ih _ (by simp only [List.length_drop]; omega), Nat.min_eq_left (by omega)]
    | deletion =>
      simp only [hty, reduceCtorEq, if_false] at hlen
      simp only [patchedSegment, modifiedLines, hty, if_true]
      rw [ih _ (by simp only [List.length_drop]; omega)]
    | insertion =>
      simp only [hty, if_true] at hlen
      simp only [patchedSegment, modifiedLines, hty, reduceCtorEq, if_false, List.length_append]
      rw [ih _ (by omega)]

theorem segmentMatches_patchedSegment (parts : List HunkPart) :
    ∀ (segment tail : List String),
      segmentMatches segment (originalLines parts) = true →
      segmentMatches (patchedSegment segment parts ++ tail)
        (originalLines (parts.map reversePart)) = true := by
  induction parts with
  | nil => intro seg tail _; simp [originalLines, segmentMatches]
  | cons part parts ih =>
    intro seg tail h
    cases hty : part.type with
    | context =>
      simp only [originalLines, hty, reduceCtorEq, if_false, segmentMatches_append,
        Bool.and_eq_true] at h
      have hk := segmentMatches_length _ _ h.1
      simp only [List.map_cons, reversePart, hty, originalLines, reduceCtorEq, if_false,
        patchedSegment, segmentMatches_append, Bool.and_eq_true, List.append_assoc]
      refine ⟨segmentMatches_take_append _ _ _ h.1, ?_⟩
      rw [List.drop_append_of_le_length (by simp; omega), List.drop_of_length_le (by simp)]
      simpa using ih _ tail h.2
    | deletion =>
      simp only [originalLines, hty, reduceCtorEq, if_false, segmentMatches_append,
        Bool.and_eq_true] at h
      simp only [List.map_cons, reversePart, hty, originalLines, if_true, patchedSegment]
      exact ih _ tail h.2
    | insertion =>
      simp only [originalLines, hty, if_true] at h
      simp only [List.map_cons, reversePart, hty, originalLines, reduceCtorEq, if_false,
        patchedSegment, segmentMatches_append, Bool.and_eq_true, List.append_assoc]
      refine ⟨segmentMatches_self_append _ _, ?_⟩
      rw [List.drop_left]
      exact ih _ tail h

theorem patchedSegment_reverse (parts : List HunkPart) :
    ∀ (segment tail : List String),
      (originalLines parts).length ≤ segment.length →
      patchedSegment (patchedSegment segment parts ++ tail) (parts.map reversePart) =
        restoredSegment segment parts := by
  induction parts with
  | nil => intro seg tail _; rfl
  | cons part parts ih =>
    intro seg tail hlen
    rw [originalLines_cons_length] at hlen
    cases hty : part.type with
    | context =>
      simp only [hty, reduceCtorEq, if_false] at hlen
      simp only [List.map_cons, reversePart, hty, patchedSegment, restoredSegment,
        List.append_assoc]
      have hk : (seg.take part.lines.length).length = part.lines.length := by
        rw [List.length_take, Nat.min_eq_left (by omega)]
      rw [List.take_append_of_le_length (by omega), List.take_of_length_le (by omega),
        List.drop_append_of_le_length (by omega), List.drop_of_length_le (by omega),
        List.nil_append, ih _ tail (by simp only [List.length_drop]; omega)]
    | deletion =>
      simp only [hty, reduceCtorEq, if_false] at hlen
      simp only [List.map_cons, reversePart, hty, patchedSegment, restoredSegment]
      rw [ih _ tail (by simp only [List.length_drop]; omega)]
    | insertion =>
      simp only [hty, if_true] at hlen
      simp only [List.map_cons, reversePart, hty, patchedSegment, restoredSegment,
        List.append_assoc]
      rw [List.drop_left, ih _ tail (by omega)]

theorem segmentMatches_map_trimRight (lines : List String) :
    ∀ (segment : List String), segmentMatches segment lines = true →
      lines.map trimRight = (segment.take lines.length).map trimRight := by
  induction lines with
  | nil => intro seg _; simp
  | cons line rest ih =>
    intro seg h
    cases seg with
    | nil => simp [segmentMatches] at h
    | cons o seg =>
      simp only [segmentMatches, Bool.and_eq_true, linesAreEqual, decide_eq_true_eq] at h
      simp [h.1, ih seg h.2]

theorem restoredSegment_map_trimRight (parts : List HunkPart) :
    ∀ (segment : List String), segmentMatches segment (originalLines parts) = true →
      (restoredSegment segment parts).map trimRight =
        (segment.take (originalLines parts).length).map trimRight := by
  induction parts with
  | nil => intro seg _; simp [restoredSegment, originalLines]
  | cons part parts ih =>
    intro seg h
    cases hty : part.type with
    | context =>
      simp only [originalLines, hty, reduceCtorEq, if_false, segmentMatches_append,
        Bool.and_eq_true] at h
      simp only [restoredSegment, originalLines, hty, reduceCtorEq, if_false, List.map_append,
        List.length_append, List.take_add, ih _ h.2]
    | deletion =>
      simp only [originalLines, hty, reduceCtorEq, if_false, segmentMatches_append,
        Bool.and_eq_true] at h
      simp only [restoredSegment, originalLines, hty, reduceCtorEq, if_false, List.map_append,
        List.length_append, List.take_add, ih _ h.2, segmentMatches_map_trimRight _ _ h.1]
    | insertion =>
      simp only [originalLines, hty, if_true] at h
      simp only [restoredSegment, originalLines, hty, if_true, ih _ h]

theorem restoredSegment_of_exact (parts : List HunkPart) :
    ∀ (segment : List String), originalLines parts <+: segment →
      restoredSegment segment parts = segment.take (originalLines parts).length := by
  induction parts with
  | nil => intro seg _; simp [restoredSegment, originalLines]
  | cons part parts ih =>
    intro seg h
    cases hty : part.type with
    | context =>
      simp only [originalLines, hty, reduceCtorEq, if_false] at h
      obtain ⟨t, rfl⟩ := h
      simp only [restoredSegment, originalLines, hty, reduceCtorEq, if_false, List.length_append,
        List.take_add, List.append_assoc, List.drop_left]
      rw [ih _ ⟨t, rfl⟩]
    | deletion =>
      simp only [originalLines, hty, reduceCtorEq, if_false] at h
      obtain ⟨t, rfl⟩ := h
      simp only [restoredSegment, originalLines, hty, reduceCtorEq, if_false, List.length_append,
        List.take_add, List.append_assoc, List.drop_left, List.take_left]
      rw [ih _ ⟨t, rfl⟩]
      simp
    | insertion =>
      simp only [originalLines, hty, if_true] at h
      simp only [restoredSegment, originalLines, hty, if_true, ih _ h]

theorem evaluateHunk_match_inv (hunk : Hunk) (fileLines : List String)
    (modifications : List Modification)
    (h : (evaluateHunk hunk fileLines 0).result = .ok (some modifications)) :
    1 ≤ hunk.header.original.start ∧
    hunk.header.original.start - 1 ≤ fileLines.length ∧
    modifications =
      expectedModifications ((hunk.header.original.start - 1 : Nat) : Int) hunk.parts ∧
    segmentMatches (fileLines.drop (hunk.header.original.start - 1))
      (originalLines hunk.parts) = true := by
  unfold evaluateHunk at h
  by_cases h0 : (hunk.header.original.start : Int) - 1 + 0 < 0
  · rw [if_pos h0] at h; simp at h
  · by_cases h1 : (fileLines.length : Int) - ((hunk.header.original.start : Int) - 1 + 0) <
        (hunk.header.original.length : Int)
    · rw [if_neg h0, if_pos h1] at h; simp at h
    · have hs : 1 ≤ hunk.header.original.start := by omega
      have hp : (hunk.header.original.start : Int) - 1 + 0 =
          ((hunk.header.original.start - 1 : Nat) : Int) := by omega
      simp only [h0, h1, if_false, evaluateParts_result] at h
      rw [hp] at h
      refine ⟨hs, by omega, ?_⟩
      cases hm : (matchLines fileLines ((hunk.header.original.start - 1 : Nat) : Int)
          (originalLines hunk.parts) []).2 with
      | error e => rw [hm] at h; simp at h
      | ok v =>
        cases v with
        | none => rw [hm] at h; simp at h
        | some c =>
          rw [hm] at h
          refine ⟨by simpa using h.symm, ?_⟩
          rw [← linesOccurAt_eq_segmentMatches]
          exact (matchLines_some _ _ _ _ _ hm).1

theorem applyModifications_expected (fileLines : List String) (p : Nat) (parts : List HunkPart)
    (hflags : noFlags parts) (hp : p ≤ fileLines.length)
    (hlen : (originalLines parts).length ≤ (fileLines.drop p).length) :
    applyModifications fileLines [expectedModifications (p : Int) parts] =
      fileLines.take p ++ patchedSegment (fileLines.drop p) parts ++
        fileLines.drop (p + (originalLines parts).length) := by
  rw [applyModifications_eq_foldl]
  simp only [List.flatten_cons, List.flatten_nil, List.append_nil]
  have h := foldl_expectedModifications parts (p : Int) 0 (fileLines.take p) (fileLines.drop p)
    hflags (by simp [Nat.min_eq_left hp]) hlen
  rw [List.take_append_drop] at h
  rw [h, List.drop_drop, Nat.add_comm]

theorem intercalate_go_data (sep : String) (rest : List String) :
    ∀ acc : String, (String.intercalate.go acc sep rest).data =
      acc.data ++ (rest.map (fun a => sep.data ++ a.data)).flatten := by
  induction rest with
  | nil => intro acc; simp [String.intercalate.go]
  | cons a rest ih =>
    intro acc
    simp [String.intercalate.go, ih, String.data_append]

theorem splitChars_ne_nil (cs : List Char) : splitChars cs ≠ [] := by
  cases cs with
  | nil => simp [splitChars]
  | cons c cs =>
    simp only [splitChars]
    split_ifs
    · simp
    · split <;> simp

theorem joinLines_splitLines_data (cs : List Char) :
    (joinLines ((splitChars cs).map String.mk)).data = cs := by
  induction cs with
  | nil => simp [splitChars, joinLines, String.intercalate, String.intercalate.go]
  | cons c cs ih =>
    cases hs : splitChars cs with
    | nil => exact absurd hs (splitChars_ne_nil cs)
    | cons l ls =>
      rw [hs] at ih
      simp only [joinLines, List.map_cons, String.intercalate, intercalate_go_data] at ih
      simp only [splitChars, hs]
      split_ifs with hc
      · simp only [joinLines, List.map_cons, String.intercalate, intercalate_go_data,
          List.flatten_cons, List.nil_append]
        rw [List.append_assoc, ih, hc]
        rfl
      · simp only [joinLines, List.map_cons, String.intercalate, intercalate_go_data,
          List.cons_append]
        rw [ih]

theorem joinLines_splitLines (fileContents : String) :
    joinLines (splitLines fileContents) = fileContents := by
  apply String.ext
  exact joinLines_splitLines_data fileContents.data

theorem applyHunk_reverse (hunk : Hunk) (fileLines patched : List String)
    (hflags : noFlags hunk.parts)
    (hstart : hunk.header.modified.start = hunk.header.original.start)
    (hlength : hunk.header.modified.length ≤ (modifiedLines hunk.parts).length)
    (happly : applyHunk hunk fileLines = some patched) :
    applyHunk (reverseHunk hunk) patched =
      some (fileLines.take (hunk.header.original.start - 1) ++
        restoredSegment (fileLines.drop (hunk.header.original.start - 1)) hunk.parts ++
        fileLines.drop (hunk.header.original.start - 1 + (originalLines hunk.parts).length)) := by
  unfold applyHunk at happly
  cases hres : (evaluateHunk hunk fileLines 0).result with
  | error e => rw [hres] at happly; simp at happly
  | ok v =>
    cases v with
    | none => rw [hres] at happly; simp at happly
    | some modifications =>
      rw [hres] at happly
      simp only [Option.some.injEq] at happly
      obtain ⟨hs, hp, hmods, hseg⟩ := evaluateHunk_match_inv hunk fileLines modifications hres
      have hn := segmentMatches_length _ _ hseg
      have hpatched := applyModifications_expected fileLines (hunk.header.original.start - 1)
        hunk.parts hflags hp hn
      rw [← hmods, happly] at hpatched
      have htake : (fileLines.take (hunk.header.original.start - 1)).length =
          hunk.header.original.start - 1 := by
        rw [List.length_take, Nat.min_eq_left hp]
      have hM := patchedSegment_length hunk.parts _ hn
      have hdrop : patched.drop (hunk.header.original.start - 1) =
          patchedSegment (fileLines.drop (hunk.header.original.start - 1)) hunk.parts ++
            fileLines.drop (hunk.header.original.start - 1 + (originalLines hunk.parts).length) := by
        rw [hpatched, List.append_assoc, List.drop_append_of_le_length (by omega),
          List.drop_of_length_le (by omega), List.nil_append]
      have htakeP : patched.take (hunk.header.original.start - 1) =
          fileLines.take (hunk.header.original.start - 1) := by
        rw [hpatched, List.append_assoc, List.take_append_of_le_length (by omega),
          List.take_of_length_le (by omega)]
      have hlenP : patched.length = hunk.header.original.start - 1 +
          ((modifiedLines hunk.parts).length +
            (fileLines.drop (hunk.header.original.start - 1 +
              (originalLines hunk.parts).length)).length) := by
        rw [hpatched]; simp only [List.length_append, htake, hM]; omega
      -- the reversed hunk matches the patched file at the same position
      have hback : (evaluateHunk (reverseHunk hunk) patched 0).result =
          .ok (some (expectedModifications ((hunk.header.original.start - 1 : Nat) : Int)
            (hunk.parts.map reversePart))) := by
        unfold evaluateHunk
        simp only [reverseHunk, hstart]
        have hp0 : ¬ ((hunk.header.original.start : Int) - 1 + 0 < 0) := by omega
        have hp1 : ¬ ((patched.length : Int) - ((hunk.header.original.start : Int) - 1 + 0) <
            (hunk.header.modified.length : Int)) := by omega
        have hpe : (hunk.header.original.start : Int) - 1 + 0 =
            ((hunk.header.original.start - 1 : Nat) : Int) := by omega
        rw [if_neg hp0, if_neg hp1, evaluateParts_result, hpe,
          matchLines_of_occur _ _ _ _ (by
            rw [linesOccurAt_eq_segmentMatches, hdrop]
            exact segmentMatches_patchedSegment _ _ _ hseg)]
        simp
      unfold applyHunk
      rw [hback]
      simp only [Option.some.injEq]
      have hflags' := noFlags_reverse _ hflags
      rw [applyModifications_expected patched (hunk.header.original.start - 1)
        (hunk.parts.map reversePart) hflags' (by omega)
        (by rw [originalLines_reverse, hdrop, List.length_append, hM]; omega),
        htakeP, hdrop, originalLines_reverse,
        patchedSegment_reverse _ _ _ hn]
      congr 1
      rw [← hM, ← List.drop_drop, hdrop, List.drop_left]

/-- C7, as amended: for a hunk without `noNewlineAtEndOfFile` flags whose
`modified` header starts at the same line as its `original` header and
declares at most as many lines as its context and insertion parts hold, and
that `evaluateHunk` matches on the file at fuzz offset 0, the reversed hunk
matches the patched file at fuzz offset 0, and applying its edits gives a file
equal to the original line by line once trailing white space is removed; the
lines are restored exactly, and the content written is the original content
byte for byte, when the context and deletion lines of the hunk are exactly the
lines of the file at the matched position. -/
theorem applyHunk_reverse_restores (hunk : Hunk) (fileLines patched : List String)
    (hflags : noFlags hunk.parts)
    (hstart : hunk.header.modified.start = hunk.header.original.start)
    (hlength : hunk.header.modified.length ≤ (modifiedLines hunk.parts).length)
    (happly : applyHunk hunk fileLines = some patched) :
    ∃ restored : List String,
      applyHunk (reverseHunk hunk) patched = some restored ∧
      restored.map trimRight = fileLines.map trimRight ∧
      (originalLines hunk.parts <+: fileLines.drop (hunk.header.original.start - 1) →
        restored = fileLines ∧
        ∀ fileContents : String, fileLines = splitLines fileContents →
          joinLines restored = fileContents) := by
  refine ⟨_, applyHunk_reverse hunk fileLines patched hflags hstart hlength happly, ?_, ?_⟩
  · unfold applyHunk at happly
    cases hres : (evaluateHunk hunk fileLines 0).result with
    | error e => rw [hres] at happly; simp at happly
    | ok v =>
      cases v with
      | none => rw [hres] at happly; simp at happly
      | some modifications =>
        obtain ⟨_, _, _, hseg⟩ := evaluateHunk_match_inv hunk fileLines modifications hres
        simp only [List.map_append, restoredSegment_map_trimRight _ _ hseg]
        rw [← List.map_append, ← List.map_append, List.append_assoc, ← List.drop_drop,
          List.take_append_drop, List.take_append_drop]
  · intro hexact
    have : fileLines.take (hunk.header.original.start - 1) ++
        restoredSegment (fileLines.drop (hunk.header.original.start - 1)) hunk.parts ++
        fileLines.drop (hunk.header.original.start - 1 + (originalLines hunk.parts).length) =
        fileLines := by
      rw [restoredSegment_of_exact _ _ hexact, List.append_assoc, ← List.drop_drop,
        List.take_append_drop, List.take_append_drop]
    rw [this]
    refine ⟨rfl, ?_⟩
    intro fileContents hsplit
    rw [hsplit, joinLines_splitLines]

/-- The hunk that replaces `x` applied to a file whose first line is `x`
followed by a blank, and reversed. -/
theorem applyHunk_reverse_restores_witness :
    noFlags replaceHunk.parts ∧
    applyHunk replaceHunk ["x ", "z"] = some ["y", "z"] ∧
    ∃ restored : List String,
      applyHunk (reverseHunk replaceHunk) ["y", "z"] = some restored ∧
      restored.map trimRight = ["x ", "z"].map trimRight ∧
      (originalLines replaceHunk.parts <+:
          ["x ", "z"].drop (replaceHunk.header.original.start - 1) →
        restored = ["x ", "z"] ∧
        ∀ fileContents : String, ["x ", "z"] = splitLines fileContents →
          joinLines restored = fileContents) :=
  ⟨by decide, by decide,
    applyHunk_reverse_restores replaceHunk ["x ", "z"] ["y", "z"] (by decide) (by decide)
      (by decide) (by decide)⟩

/-- C7, counterexample: the hunk that replaces `x` by `y` matches the file
`"x \n"` at fuzz offset 0 (the lines differ in trailing white space only), and
applying it and then its reversal gives `"x\n"`, not the original bytes; the
hunk that replaces the last line `a` by `b`, both without a newline at the end
of the file, turns `"a"` into `"b"`, and its reversal turns `"b"` into `"a\n"`;
and the reversal of the hunk that deletes the lines 8 and 9, whose `modified`
header starts at line 11, does not match the patched file at fuzz offset 0. -/
theorem applyHunk_reverse_not_bytewise :
    (applyHunk replaceHunk ["x ", ""] = some ["y", ""] ∧
      applyHunk (reverseHunk replaceHunk) ["y", ""] = some ["x", ""] ∧
      joinLines ["x", ""] ≠ joinLines ["x ", ""]) ∧
    (applyHunk noNewlineHunk ["a"] = some ["b"] ∧
      applyHunk (reverseHunk noNewlineHunk) ["b"] = some ["a", ""] ∧
      joinLines ["a", ""] ≠ joinLines ["a"]) ∧
    (applyHunk deleteTwoHunk tenLines =
        some ["l1", "l2", "l3", "l4", "l5", "l6", "l7", "l10"] ∧
      applyHunk (reverseHunk deleteTwoHunk)
        ["l1", "l2", "l3", "l4", "l5", "l6", "l7", "l10"] = none) := by
  decide

/-! ## The effect executor and the apply protocol -/

theorem entryAt_set_file (fs : FileSystem) (path : String) (content : String)
    (oldMode newMode : Nat) (h : fs path = some (.file content oldMode)) (p : String) :
    entryAt (fs.set path (some (.file content newMode))) p = entryAt fs p := by
  unfold entryAt FileSystem.set
  by_cases hp : p = path
  · subst hp; simp [h]
  · simp [hp]

theorem entryAt_set_dir (fs : FileSystem) (path : String) (oldMode newMode : Nat)
    (h : fs path = some (.dir oldMode)) (p : String) :
    entryAt (fs.set path (some (.dir newMode))) p = entryAt fs p := by
  unfold entryAt FileSystem.set
  by_cases hp : p = path
  · subst hp; simp [h]
  · simp [hp]

theorem applyPatch_dryRun_fs (hunks : List Hunk) (path : String) (opts : Options)
    (hdry : opts.dryRun = true) (w : World) :
    (Apply.applyPatch hunks path opts w).world.fs = w.fs := by
  unfold Apply.applyPatch
  dsimp only
  split
  · rfl
  · split
    · rfl
    · split
      · rfl
      · simp [hdry]

theorem executeEffect_dryRun_entryAt (opts : Options) (hdry : opts.dryRun = true) (w : World)
    (eff : Effect) (p : String) :
    entryAt (executeEffect opts w eff).world.fs p = entryAt w.fs p := by
  cases eff with
  | fileDeletion path mode hunk =>
    simp only [executeEffect, hdry, if_true]
    split_ifs <;> rfl
  | rename fromPath toPath =>
    simp only [executeEffect, hdry, if_true]
    split_ifs <;> rfl
  | fileCreation path mode hunk =>
    simp only [executeEffect, hdry, if_true]
    split_ifs <;> rfl
  | patch path hunks =>
    simp only [executeEffect]
    rw [applyPatch_dryRun_fs hunks path opts hdry w]
  | modeChange path oldMode newMode =>
    simp only [executeEffect, statSyncMode, chmodSync]
    cases hn : w.fs (inCwd opts.cwd path) with
    | none => rfl
    | some node =>
      cases node with
      | file content mode => exact entryAt_set_file _ _ _ _ _ hn p
      | dir mode => exact entryAt_set_dir _ _ _ _ hn p

theorem executeEffects_dryRun_entryAt (opts : Options) (hdry : opts.dryRun = true)
    (effects : List Effect) :
    ∀ (w : World) (p : String),
      entryAt (executeEffects opts effects w).world.fs p = entryAt w.fs p := by
  induction effects with
  | nil => intro w p; rfl
  | cons eff effects ih =>
    intro w p
    have h1 := executeEffect_dryRun_entryAt opts hdry w eff p
    simp only [executeEffects]
    rcases hrun : executeEffect opts w eff with ⟨w1, thrown⟩
    rw [hrun] at h1
    cases thrown with
    | some e => exact h1
    | none => simp only; rw [ih w1 p]; exact h1

/-- C8, the code at the failing input: executed with `dryRun = true` on a file
system in which `bin/run` has mode `0o644`, the document with the one effect
`mode change` of `bin/run` to `0o755` returns without raising and leaves
`bin/run` with mode `0o755`: the dry run has changed the mode bits. -/
theorem executeEffects_dryRun_changes_mode :
    scriptFs "bin/run" = some (.file "echo" 0o644) ∧
    (executeEffects ⟨true, false, none⟩ [.modeChange "bin/run" 0o644 0o755]
      ⟨scriptFs, none⟩).thrown = none ∧
    (executeEffects ⟨true, false, none⟩ [.modeChange "bin/run" 0o644 0o755]
      ⟨scriptFs, none⟩).world.fs "bin/run" = some (.file "echo" 0o755) := by
  decide

theorem realRun_calls (forward : List Effect) (bestEffort : Bool) (cwd : Option String)
    (fs : FileSystem) (calls : List ExecuteCall) :
    (realRun forward bestEffort cwd fs calls).calls = calls ++ [⟨forward, false, bestEffort⟩] := by
  unfold realRun
  dsimp only
  split
  · rfl
  · split
    · rfl
    · rfl
    · split <;> rfl

theorem tryBlock_strict_calls (forward : List Effect) (cwd : Option String) (fs : FileSystem) :
    ∃ rest, (tryBlock forward false cwd fs).calls = ⟨forward, true, false⟩ :: rest := by
  unfold tryBlock
  simp only [Bool.not_false, if_true]
  split
  · exact ⟨[], rfl⟩
  · exact ⟨_, by rw [realRun_calls]; rfl⟩

theorem applyPatch_calls (patch : List Effect) (reverse bestEffort : Bool)
    (cwd : Option String) (fs : FileSystem) :
    ∃ rest, (ApplyPatches.applyPatch (some patch) reverse bestEffort cwd fs).calls =
      (tryBlock (if reverse then reversePatch patch else patch) bestEffort cwd fs).calls ++
        rest := by
  simp only [ApplyPatches.applyPatch]
  split
  · exact ⟨[], by simp⟩
  · exact ⟨[], by simp⟩
  · split
    · exact ⟨_, rfl⟩
    · exact ⟨_, rfl⟩

/-- C9: with `bestEffort = false`, the first call of `executeEffects` made by
the top-level `applyPatch` is the dry run of the requested direction; and when
that dry run raises, no call with `dryRun = false` is made, and at every path
the file system holds what it held before (nothing, the same file content, or
a directory): no content, creation, deletion or rename is committed. -/
theorem applyPatch_validates_before_commit (patch : List Effect) (reverse : Bool)
    (cwd : Option String) (fs : FileSystem) :
    (ApplyPatches.applyPatch (some patch) reverse false cwd fs).calls.head? =
      some ⟨if reverse then reversePatch patch else patch, true, false⟩ ∧
    ((executeEffects ⟨true, false, cwd⟩ (if reverse then reversePatch patch else patch)
        ⟨fs, none⟩).thrown ≠ none →
      (∀ call ∈ (ApplyPatches.applyPatch (some patch) reverse false cwd fs).calls,
        call.dryRun = true) ∧
      ∀ path, entryAt (ApplyPatches.applyPatch (some patch) reverse false cwd fs).fs path =
        entryAt fs path) := by
  constructor
  · obtain ⟨rest, h1⟩ := applyPatch_calls patch reverse false cwd fs
    obtain ⟨rest2, h2⟩ := tryBlock_strict_calls (if reverse then reversePatch patch else patch)
      cwd fs
    rw [h1, h2]
    rfl
  · intro hthrown
    cases hdry : (executeEffects ⟨true, false, cwd⟩ (if reverse then reversePatch patch else patch)
        ⟨fs, none⟩).thrown with
    | none => exact absurd hdry hthrown
    | some e =>
      simp only [ApplyPatches.applyPatch, tryBlock, Bool.not_false, if_true, hdry]
      have h1 := executeEffects_dryRun_entryAt ⟨true, false, cwd⟩ rfl
        (if reverse then reversePatch patch else patch) ⟨fs, none⟩
      have h2 := executeEffects_dryRun_entryAt ⟨true, false, cwd⟩ rfl
        (if reverse then patch else reversePatch patch)
        ⟨(executeEffects ⟨true, false, cwd⟩ (if reverse then reversePatch patch else patch)
          ⟨fs, none⟩).world.fs, none⟩
      split
      · constructor
        · intro call hcall; simp at hcall; rcases hcall with rfl | rfl <;> rfl
        · intro path; simp only; rw [h2, h1]
      · constructor
        · intro call hcall; simp at hcall; rcases hcall with rfl | rfl <;> rfl
        · intro path; simp only; rw [h2, h1]

/-- Strict application of `createAndChmodPatch` to a file system on which it
was already applied: the dry run raises and nothing is committed. -/
theorem applyPatch_validates_before_commit_witness :
    (executeEffects ⟨true, false, none⟩ (if false then reversePatch createAndChmodPatch
        else createAndChmodPatch) ⟨patchedScriptFs, none⟩).thrown ≠ none ∧
    (∀ call ∈ (ApplyPatches.applyPatch (some createAndChmodPatch) false false none
        patchedScriptFs).calls, call.dryRun = true) ∧
    ∀ path, entryAt (ApplyPatches.applyPatch (some createAndChmodPatch) false false none
        patchedScriptFs).fs path = entryAt patchedScriptFs path :=
  ⟨by decide,
    (applyPatch_validates_before_commit createAndChmodPatch false none patchedScriptFs).2
      (by decide)⟩

theorem realRun_raised_iff (forward : List Effect) (bestEffort : Bool) (cwd : Option String)
    (fs : FileSystem) (calls : List ExecuteCall) :
    (∃ e, (realRun forward bestEffort cwd fs calls).ended = .raised e) ↔
      (executeEffects ⟨false, bestEffort, cwd⟩ forward
          ⟨fs, if bestEffort then some [] else none⟩).thrown ≠ none ∨
      ((executeEffects ⟨false, bestEffort, cwd⟩ forward
          ⟨fs, if bestEffort then some [] else none⟩).thrown = none ∧
        ∃ e es err,
          (executeEffects ⟨false, bestEffort, cwd⟩ forward
            ⟨fs, if bestEffort then some [] else none⟩).world.errors = some (e :: es) ∧
          writeFileSync
            (executeEffects ⟨false, bestEffort, cwd⟩ forward
              ⟨fs, if bestEffort then some [] else none⟩).world.fs
            errorsLogPath
            ((String.singleton lineFeed ++ String.singleton lineFeed).intercalate (e :: es))
            0o666 = .error err) := by
  unfold realRun
  dsimp only
  cases hth : (executeEffects ⟨false, bestEffort, cwd⟩ forward
      ⟨fs, if bestEffort then some [] else none⟩).thrown with
  | some e => simp
  | none =>
    cases her : (executeEffects ⟨false, bestEffort, cwd⟩ forward
        ⟨fs, if bestEffort then some [] else none⟩).world.errors with
    | none => simp
    | some errs =>
      cases errs with
      | nil => simp
      | cons e es =>
        cases hw : writeFileSync
            (executeEffects ⟨false, bestEffort, cwd⟩ forward
              ⟨fs, if bestEffort then some [] else none⟩).world.fs
            errorsLogPath
            ((String.singleton lineFeed ++ String.singleton lineFeed).intercalate (e :: es))
            0o666 with
        | error err =>
          refine ⟨fun _ => Or.inr ⟨rfl, e, es, err, rfl, hw⟩, fun _ => ?_⟩
          dsimp only
          rw [hw]
          exact ⟨err, rfl⟩
        | ok fs2 => simp [hw]

/-- C10, as amended: the top-level `applyPatch` returns `false` if and only if
its `try` block raises and the dry run of the opposite direction raises too,
where the `try` block raises exactly when the dry run of the requested
direction raises (strict mode), or its real run raises, or the real run
recorded errors and the report `patch-package-errors.log` cannot be written;
and when the `try` block raises and the dry run of the opposite direction
passes, `applyPatch` returns `true`, the only call of `executeEffects` after
the raise being that dry run. -/
theorem applyPatch_returns_false_iff (patch : List Effect) (reverse bestEffort : Bool)
    (cwd : Option String) (fs : FileSystem) :
    let forward := if reverse then reversePatch patch else patch
    let backward := if reverse then patch else reversePatch patch
    let attempt := tryBlock forward bestEffort cwd fs
    let probe := executeEffects ⟨true, false, cwd⟩ backward ⟨attempt.fs, none⟩
    let outcome := ApplyPatches.applyPatch (some patch) reverse bestEffort cwd fs
    let dry := executeEffects ⟨true, false, cwd⟩ forward ⟨fs, none⟩
    let real := executeEffects ⟨false, bestEffort, cwd⟩ forward
      ⟨if bestEffort then fs else dry.world.fs, if bestEffort then some [] else none⟩
    (outcome.completion = .returned false ↔
      (∃ e, attempt.ended = .raised e) ∧ probe.thrown ≠ none) ∧
    ((∃ e, attempt.ended = .raised e) ∧ probe.thrown = none →
      outcome.completion = .returned true ∧
      outcome.calls = attempt.calls ++ [⟨backward, true, false⟩] ∧
      outcome.fs = probe.world.fs) ∧
    ((∃ e, attempt.ended = .raised e) ↔
      (bestEffort = false ∧ dry.thrown ≠ none) ∨
      ((bestEffort = true ∨ dry.thrown = none) ∧
        (real.thrown ≠ none ∨
          (real.thrown = none ∧ ∃ e es err, real.world.errors = some (e :: es) ∧
            writeFileSync real.world.fs errorsLogPath
              ((String.singleton lineFeed ++ String.singleton lineFeed).intercalate (e :: es))
              0o666 = .error err)))) := by
  intro forward backward attempt probe outcome dry real
  refine ⟨?_, ?_, ?_⟩
  · show (ApplyPatches.applyPatch (some patch) reverse bestEffort cwd fs).completion = _ ↔ _
    simp only [ApplyPatches.applyPatch]
    cases hend : attempt.ended with
    | completed =>
      have : (tryBlock (if reverse then reversePatch patch else patch) bestEffort cwd fs).ended =
        .completed := hend
      simp [this]
    | exited =>
      have : (tryBlock (if reverse then reversePatch patch else patch) bestEffort cwd fs).ended =
        .exited := hend
      simp [this]
    | raised e =>
      have : (tryBlock (if reverse then reversePatch patch else patch) bestEffort cwd fs).ended =
        .raised e := hend
      simp only [this]
      cases hp : probe.thrown with
      | some e2 =>
        have : (executeEffects ⟨true, false, cwd⟩ (if reverse then patch else reversePatch patch)
          ⟨(tryBlock (if reverse then reversePatch patch else patch) bestEffort cwd fs).fs,
            none⟩).thrown = some e2 := hp
        simp [this]
      | none =>
        have : (executeEffects ⟨true, false, cwd⟩ (if reverse then patch else reversePatch patch)
          ⟨(tryBlock (if reverse then reversePatch patch else patch) bestEffort cwd fs).fs,
            none⟩).thrown = none := hp
        simp [this]
  · rintro ⟨⟨e, hend⟩, hp⟩
    have h1 : (tryBlock (if reverse then reversePatch patch else patch) bestEffort cwd fs).ended =
        .raised e := hend
    have h2 : (executeEffects ⟨true, false, cwd⟩ (if reverse then patch else reversePatch patch)
        ⟨(tryBlock (if reverse then reversePatch patch else patch) bestEffort cwd fs).fs,
          none⟩).thrown = none := hp
    show (ApplyPatches.applyPatch (some patch) reverse bestEffort cwd fs).completion = _ ∧
      (ApplyPatches.applyPatch (some patch) reverse bestEffort cwd fs).calls = _ ∧
      (ApplyPatches.applyPatch (some patch) reverse bestEffort cwd fs).fs = _
    simp only [ApplyPatches.applyPatch, h1, h2]
    exact ⟨trivial, trivial, trivial⟩
  · show (∃ e, (tryBlock (if reverse then reversePatch patch else patch) bestEffort cwd
      fs).ended = .raised e) ↔ _
    unfold tryBlock
    cases bestEffort with
    | true =>
      simp only [Bool.not_true, Bool.false_eq_true, if_false, realRun_raised_iff]
      simp [real]
    | false =>
      simp only [Bool.not_false, if_true]
      cases hd : dry.thrown with
      | some e =>
        have : (executeEffects ⟨true, false, cwd⟩ (if reverse then reversePatch patch else patch)
          ⟨fs, none⟩).thrown = some e := hd
        simp [this]
      | none =>
        have : (executeEffects ⟨true, false, cwd⟩ (if reverse then reversePatch patch else patch)
          ⟨fs, none⟩).thrown = none := hd
        simp only [this, realRun_raised_iff]
        simp [real, dry, forward]

/-- C10, counterexample: with `bestEffort = true`, for the patch that renames
`a` to `b` on a file system in which neither exists and the path of the error
report is a directory, neither run of `executeEffects` in the requested
direction raises (the failed rename is recorded in `errors`), the report
cannot be written, the dry run of the opposite direction raises, and
`applyPatch` returns `false`. -/
theorem applyPatch_false_without_forward_raise :
    (executeEffects ⟨false, true, none⟩ renamePatch ⟨logIsDirectoryFs, some []⟩).thrown = none ∧
    (ApplyPatches.applyPatch (some renamePatch) false true none logIsDirectoryFs).calls =
      [⟨renamePatch, false, true⟩, ⟨reversePatch renamePatch, true, false⟩] ∧
    (ApplyPatches.applyPatch (some renamePatch) false true none logIsDirectoryFs).completion =
      .returned false := by
  decide

/-- The dry run of the opposite direction can change mode bits: strict
application of `createAndChmodPatch` to a file system on which it was already
applied fails its dry run on the first effect, the dry run of the reversed
patch passes, `applyPatch` returns `true`, and `bin/run` is left with mode
`0o644` instead of `0o755`. -/
theorem applyPatch_probe_changes_mode :
    patchedScriptFs "bin/run" = some (.file "echo" 0o755) ∧
    (ApplyPatches.applyPatch (some createAndChmodPatch) false false none
      patchedScriptFs).completion = .returned true ∧
    (ApplyPatches.applyPatch (some createAndChmodPatch) false false none
      patchedScriptFs).fs "bin/run" = some (.file "echo" 0o644) := by
  decide

/-! ## The effects of one document -/

/-- C13: in dry-run mode, for both values of `bestEffort`, `executeEffects`
raises at a file-deletion effect whose path does not exist, at a rename effect
whose source path does not exist, and at a file-creation effect whose path
exists, leaving the file system and `errors` as they were; when the respective
precondition holds the effect raises nothing, changes nothing, and the
execution goes on with the rest of the document. -/
theorem executeEffects_dryRun_preconditions (bestEffort : Bool) (cwd : Option String)
    (w : World) (rest : List Effect) :
    (∀ path mode hunk,
      (existsSync w.fs (inCwd cwd path) = false →
        (executeEffects ⟨true, bestEffort, cwd⟩ (.fileDeletion path mode hunk :: rest) w).thrown =
            some ("Trying to delete file that doesn't exist: " ++ humanReadable cwd path) ∧
        (executeEffects ⟨true, bestEffort, cwd⟩ (.fileDeletion path mode hunk :: rest) w).world.fs =
            w.fs ∧
        (executeEffects ⟨true, bestEffort, cwd⟩
          (.fileDeletion path mode hunk :: rest) w).world.errors = w.errors) ∧
      (existsSync w.fs (inCwd cwd path) = true →
        executeEffects ⟨true, bestEffort, cwd⟩ (.fileDeletion path mode hunk :: rest) w =
          executeEffects ⟨true, bestEffort, cwd⟩ rest w)) ∧
    (∀ fromPath toPath,
      (existsSync w.fs (inCwd cwd fromPath) = false →
        (executeEffects ⟨true, bestEffort, cwd⟩ (.rename fromPath toPath :: rest) w).thrown =
            some ("Trying to move file that doesn't exist: " ++ humanReadable cwd fromPath) ∧
        (executeEffects ⟨true, bestEffort, cwd⟩ (.rename fromPath toPath :: rest) w).world.fs =
            w.fs ∧
        (executeEffects ⟨true, bestEffort, cwd⟩ (.rename fromPath toPath :: rest) w).world.errors =
            w.errors) ∧
      (existsSync w.fs (inCwd cwd fromPath) = true →
        executeEffects ⟨true, bestEffort, cwd⟩ (.rename fromPath toPath :: rest) w =
          executeEffects ⟨true, bestEffort, cwd⟩ rest w)) ∧
    (∀ path mode hunk,
      (existsSync w.fs (inCwd cwd path) = true →
        (executeEffects ⟨true, bestEffort, cwd⟩ (.fileCreation path mode hunk :: rest) w).thrown =
            some ("Trying to create file that already exists: " ++ humanReadable cwd path) ∧
        (executeEffects ⟨true, bestEffort, cwd⟩ (.fileCreation path mode hunk :: rest) w).world.fs =
            w.fs ∧
        (executeEffects ⟨true, bestEffort, cwd⟩
          (.fileCreation path mode hunk :: rest) w).world.errors = w.errors) ∧
      (existsSync w.fs (inCwd cwd path) = false →
        executeEffects ⟨true, bestEffort, cwd⟩ (.fileCreation path mode hunk :: rest) w =
          executeEffects ⟨true, bestEffort, cwd⟩ rest w)) := by
  refine ⟨?_, ?_, ?_⟩
  · intro path mode hunk
    constructor <;> intro h <;> simp [executeEffects, executeEffect, h]
  · intro fromPath toPath
    constructor <;> intro h <;> simp [executeEffects, executeEffect, h]
  · intro path mode hunk
    constructor <;> intro h <;> simp [executeEffects, executeEffect, h]

/-- The preconditions at work on the file system that holds `bin/run` only: the
deletion of an absent file raises in a best-effort dry run, and the creation
of an absent file does not. -/
theorem executeEffects_dryRun_preconditions_witness :
    existsSync scriptFs (inCwd none "notes.txt") = false ∧
    (executeEffects ⟨true, true, none⟩ [.fileDeletion "notes.txt" 0o644 none]
      ⟨scriptFs, some []⟩).thrown =
        some ("Trying to delete file that doesn't exist: " ++ humanReadable none "notes.txt") ∧
    (executeEffects ⟨true, true, none⟩ [.fileDeletion "notes.txt" 0o644 none]
      ⟨scriptFs, some []⟩).world.errors = some [] ∧
    executeEffects ⟨true, true, none⟩ [.fileCreation "notes.txt" 0o644 none] ⟨scriptFs, some []⟩ =
      executeEffects ⟨true, true, none⟩ [] ⟨scriptFs, some []⟩ :=
  ⟨by decide,
    (((executeEffects_dryRun_preconditions true none ⟨scriptFs, some []⟩ []).1
      "notes.txt" 0o644 none).1 (by decide)).1,
    (((executeEffects_dryRun_preconditions true none ⟨scriptFs, some []⟩ []).1
      "notes.txt" 0o644 none).1 (by decide)).2.2,
    ((executeEffects_dryRun_preconditions true none ⟨scriptFs, some []⟩ []).2.2
      "notes.txt" 0o644 none).2 (by decide)⟩

/-- C14: in a real run, a file-creation effect writes to the target path the
lines of the insertion part of its hunk (the first part) joined by newlines,
followed by a final newline iff the part does not carry
`noNewlineAtEndOfFile`, and the empty string when it has no hunk: where
nothing existed the path then holds a file with this content and the declared
mode, nothing is raised, and no other path is changed. The creation of `x.txt`
with the lines `a`, `b`, no flag and mode `0o644` passes the dry run where
`x.txt` is absent, and the real run leaves `x.txt` with content `"a\nb\n"` and
mode `0o644`. -/
theorem executeEffects_fileCreation (bestEffort : Bool) (cwd : Option String) (w : World)
    (path : String) (mode : Nat) (hunk : Option Hunk)
    (hparts : ∀ h, hunk = some h → h.parts ≠ [])
    (habsent : w.fs (inCwd cwd path) = none) :
    ((executeEffects ⟨false, bestEffort, cwd⟩ [.fileCreation path mode hunk] w).thrown = none ∧
      (executeEffects ⟨false, bestEffort, cwd⟩ [.fileCreation path mode hunk] w).world.fs
          (inCwd cwd path) = some (.file (creationContent hunk) mode) ∧
      (∀ other, other ≠ inCwd cwd path →
        (executeEffects ⟨false, bestEffort, cwd⟩ [.fileCreation path mode hunk] w).world.fs other =
          w.fs other) ∧
      (executeEffects ⟨false, bestEffort, cwd⟩ [.fileCreation path mode hunk] w).world.errors =
        w.errors) ∧
    ((executeEffects ⟨true, false, none⟩ [.fileCreation "x.txt" 0o644 (some createTwoLinesHunk)]
        ⟨emptyFs, none⟩).thrown = none ∧
      (executeEffects ⟨false, false, none⟩
        [.fileCreation "x.txt" 0o644 (some createTwoLinesHunk)] ⟨emptyFs, none⟩).world.fs "x.txt" =
          some (.file "a\nb\n" 0o644)) := by
  refine ⟨?_, by decide⟩
  have hw : ∀ data, writeFileSync w.fs (inCwd cwd path) data mode =
      .ok (w.fs.set (inCwd cwd path) (some (.file data mode))) := by
    intro data; simp [writeFileSync, habsent]
  cases hunk with
  | none =>
    simp only [executeEffects, executeEffect, Bool.false_eq_true, if_false, hw, bestEffortCatch,
      creationContent]
    refine ⟨trivial, by simp [FileSystem.set], ?_, trivial⟩
    intro other hne; simp [FileSystem.set, hne]
  | some h =>
    cases hp : h.parts with
    | nil => exact absurd hp (hparts h rfl)
    | cons part rest =>
      simp only [executeEffects, executeEffect, Bool.false_eq_true, if_false, hp, hw,
        bestEffortCatch, creationContent, List.head?_cons]
      refine ⟨trivial, by simp [FileSystem.set], ?_, trivial⟩
      intro other hne; simp [FileSystem.set, hne]

/-- The creation of `x.txt` from the hunk with the lines `a` and `b`, on the
empty file system. -/
theorem executeEffects_fileCreation_witness :
    emptyFs (inCwd none "x.txt") = none ∧
    (executeEffects ⟨false, false, none⟩ [.fileCreation "x.txt" 0o644 (some createTwoLinesHunk)]
      ⟨emptyFs, none⟩).world.fs (inCwd none "x.txt") =
        some (.file (creationContent (some createTwoLinesHunk)) 0o644) :=
  ⟨by decide,
    (executeEffects_fileCreation false none ⟨emptyFs, none⟩ "x.txt" 0o644
      (some createTwoLinesHunk) (by decide) (by decide)).1.2.1⟩

theorem searchHunks_matched_before (fileLines : List String) (bestEffort : Bool)
    (path : String) (pre : List Hunk) :
    ∀ (rest : List Hunk) (index : Nat) (result : List (List Modification))
      (errors : Option (List String)),
      (∀ h ∈ pre, ∃ m, (fuzzSearch h fileLines).outcome = .matched m) →
      searchHunks fileLines bestEffort path (pre ++ rest) index result errors =
        searchHunks fileLines bestEffort path rest (index + pre.length)
          (result ++ matchedModifications fileLines pre) errors := by
  induction pre with
  | nil => intro rest index result errors _; simp [matchedModifications]
  | cons h pre ih =>
    intro rest index result errors hpre
    obtain ⟨m, hm⟩ := hpre h (by simp)
    rw [List.cons_append, searchHunks, hm]
    simp only
    rw [ih rest (index + 1) _ errors (fun h' hh => hpre h' (by simp [hh]))]
    simp only [matchedModifications, hm, List.length_cons, List.append_assoc,
      List.singleton_append]
    congr 1
    omega

theorem matchedModifications_append (fileLines : List String) (pre post : List Hunk) :
    matchedModifications fileLines (pre ++ post) =
      matchedModifications fileLines pre ++ matchedModifications fileLines post := by
  induction pre with
  | nil => rfl
  | cons h pre ih =>
    simp only [List.cons_append, matchedModifications]
    split <;> simp [ih]

theorem matchedModifications_unresolvable (fileLines : List String) (hunk : Hunk)
    (post : List Hunk) (h : (fuzzSearch hunk fileLines).outcome = .unresolvable) :
    matchedModifications fileLines (hunk :: post) = matchedModifications fileLines post := by
  simp [matchedModifications, h]

theorem searchHunks_one_unresolvable (fileLines : List String) (bestEffort : Bool)
    (path : String) (pre post : List Hunk) (hunk : Hunk) (errors : Option (List String))
    (hpre : ∀ h ∈ pre, ∃ m, (fuzzSearch h fileLines).outcome = .matched m)
    (hhunk : (fuzzSearch hunk fileLines).outcome = .unresolvable) :
    (bestEffort = false →
      searchHunks fileLines bestEffort path (pre ++ hunk :: post) 0 [] errors =
        (.error (cannotApplyHunkMessage pre.length path hunk), errors)) ∧
    (bestEffort = true →
      (∀ h ∈ post, ∃ m, (fuzzSearch h fileLines).outcome = .matched m) →
      searchHunks fileLines bestEffort path (pre ++ hunk :: post) 0 [] errors =
        (.ok (matchedModifications fileLines (pre ++ hunk :: post)),
          pushError errors (cannotApplyHunkMessage pre.length path hunk))) := by
  constructor
  · intro hb
    rw [searchHunks_matched_before fileLines bestEffort path pre _ 0 [] errors hpre, searchHunks,
      hhunk]
    simp [hb]
  · intro hb hpost
    rw [searchHunks_matched_before fileLines bestEffort path pre _ 0 [] errors hpre, searchHunks,
      hhunk]
    simp only [hb, if_true, Nat.zero_add, List.nil_append]
    have h := searchHunks_matched_before fileLines true path post [] (pre.length + 1)
      (matchedModifications fileLines pre)
      (pushError errors (cannotApplyHunkMessage pre.length path hunk)) hpost
    rw [List.append_nil] at h
    rw [h, searchHunks, matchedModifications_append,
      matchedModifications_unresolvable _ _ _ hhunk]

theorem statSyncMode_of_file (fs : FileSystem) (path content : String) (mode : Nat)
    (h : fs path = some (.file content mode)) :
    readFileSync fs path = .ok content ∧ statSyncMode fs path = .ok mode ∧
    ∀ data m, writeFileSync fs path data m = .ok (fs.set path (some (.file data mode))) := by
  simp [readFileSync, statSyncMode, writeFileSync, h]

/-- C15: when the hunks of a patch effect are `pre ++ hunk :: post`, the fuzz
search matches every hunk of `pre` and of `post` and exhausts on `hunk`, a real
run with `bestEffort = true` appends the one message of `hunk` to `errors`,
does not raise, and writes the file with the edits of the hunks of `pre` and
`post` applied (`hunk` contributes no edit); with `bestEffort = false` the run
raises that message and leaves the file system and `errors` as they were. -/
theorem applyPatch_one_unresolvable_hunk (cwd : Option String) (w : World) (path : String)
    (pre post : List Hunk) (hunk : Hunk) (fileContents : String) (mode : Nat)
    (hfile : w.fs (inCwd cwd path) = some (.file fileContents mode))
    (hpre : ∀ h ∈ pre, ∃ m, (fuzzSearch h (splitLines fileContents)).outcome = .matched m)
    (hhunk : (fuzzSearch hunk (splitLines fileContents)).outcome = .unresolvable)
    (hpost : ∀ h ∈ post, ∃ m, (fuzzSearch h (splitLines fileContents)).outcome = .matched m) :
    ((executeEffects ⟨false, true, cwd⟩ [.patch path (pre ++ hunk :: post)] w).thrown = none ∧
      (executeEffects ⟨false, true, cwd⟩ [.patch path (pre ++ hunk :: post)] w).world.errors =
        pushError w.errors (cannotApplyHunkMessage pre.length (inCwd cwd path) hunk) ∧
      (∀ es, w.errors = some es →
        (executeEffects ⟨false, true, cwd⟩ [.patch path (pre ++ hunk :: post)] w).world.errors =
          some (es ++ [cannotApplyHunkMessage pre.length (inCwd cwd path) hunk])) ∧
      (executeEffects ⟨false, true, cwd⟩ [.patch path (pre ++ hunk :: post)] w).world.fs
          (inCwd cwd path) =
        some (.file (joinLines (applyModifications (splitLines fileContents)
          (matchedModifications (splitLines fileContents) (pre ++ post)))) mode)) ∧
    ((executeEffects ⟨false, false, cwd⟩ [.patch path (pre ++ hunk :: post)] w).thrown =
        some (cannotApplyHunkMessage pre.length (inCwd cwd path) hunk) ∧
      (executeEffects ⟨false, false, cwd⟩ [.patch path (pre ++ hunk :: post)] w).world.fs = w.fs ∧
      (executeEffects ⟨false, false, cwd⟩ [.patch path (pre ++ hunk :: post)] w).world.errors =
        w.errors) := by
  obtain ⟨hread, hstat, hwrite⟩ := statSyncMode_of_file _ _ _ _ hfile
  have hs := searchHunks_one_unresolvable (splitLines fileContents) true (inCwd cwd path) pre post
    hunk w.errors hpre hhunk
  have hf := searchHunks_one_unresolvable (splitLines fileContents) false (inCwd cwd path) pre post
    hunk w.errors hpre hhunk
  have hmods : matchedModifications (splitLines fileContents) (pre ++ hunk :: post) =
      matchedModifications (splitLines fileContents) (pre ++ post) := by
    rw [matchedModifications_append, matchedModifications_unresolvable _ _ _ hhunk,
      matchedModifications_append]
  constructor
  · simp only [executeEffects, executeEffect, Apply.applyPatch, hread, hstat, hs.2 rfl hpost,
      Bool.false_eq_true, if_false, hwrite, bestEffortCatch, hmods]
    refine ⟨trivial, trivial, ?_, by simp [FileSystem.set]⟩
    intro es hes
    simp [hes, pushError]
  · simp only [executeEffects, executeEffect, Apply.applyPatch, hread, hstat, hf.1 rfl]
    exact ⟨trivial, trivial, trivial⟩

/-- Three hunks on the file of the lines `x`, `u`, `w`: the second one, which
looks for `zzz`, is unresolvable; the first and the third are applied. -/
theorem applyPatch_one_unresolvable_hunk_witness :
    threeLinesFs (inCwd none "f") = some (.file "x\nu\nw" 0o644) ∧
    (executeEffects ⟨false, true, none⟩
      [.patch "f" ([replaceHunk] ++ replaceMissingHunk :: [replaceLineThreeHunk])]
      ⟨threeLinesFs, some []⟩).world.errors =
        pushError (some []) (cannotApplyHunkMessage 1 (inCwd none "f") replaceMissingHunk) ∧
    joinLines (applyModifications (splitLines "x\nu\nw")
      [[.splice 0 1 [], .splice 1 0 ["y"]], [.splice 2 1 [], .splice 3 0 ["v"]]]) = "y\nu\nv" :=
  ⟨by decide,
    (applyPatch_one_unresolvable_hunk none ⟨threeLinesFs, some []⟩ "f" [replaceHunk]
      [replaceLineThreeHunk] replaceMissingHunk "x\nu\nw" 0o644 (by decide)
      (by
        intro h hh
        rw [List.mem_singleton] at hh
        subst hh
        exact ⟨[.splice 0 1 [], .splice 1 0 ["y"]], by rw [fuzzSearch_eq_scanProbes]; decide⟩)
      (by rw [fuzzSearch_eq_scanProbes]; decide)
      (by
        intro h hh
        rw [List.mem_singleton] at hh
        subst hh
        exact ⟨[.splice 2 1 [], .splice 3 0 ["v"]],
          by rw [fuzzSearch_eq_scanProbes]; decide⟩)).1.2.1,
    by decide⟩

theorem tryBlock_dryRun_calls (forward : List Effect) (bestEffort : Bool)
    (cwd : Option String) (fs : FileSystem) :
    ∀ call ∈ (tryBlock forward bestEffort cwd fs).calls,
      call.dryRun = true → call.bestEffort = false := by
  unfold tryBlock
  cases bestEffort with
  | false =>
    simp only [Bool.not_false, if_true]
    split
    · intro call hcall _
      simp only [List.mem_singleton] at hcall
      subst hcall; rfl
    · intro call hcall hdry
      rw [realRun_calls] at hcall
      simp only [List.mem_append, List.mem_singleton] at hcall
      rcases hcall with rfl | rfl
      · rfl
      · rfl
  | true =>
    simp only [Bool.not_true, Bool.false_eq_true, if_false]
    intro call hcall hdry
    rw [realRun_calls] at hcall
    simp only [List.nil_append, List.mem_singleton] at hcall
    subst hcall
    simp at hdry

theorem applyPatch_dryRun_calls_strict (parsedPatch : Option (List Effect))
    (reverse bestEffort : Bool) (cwd : Option String) (fs : FileSystem) :
    ∀ call ∈ (ApplyPatches.applyPatch parsedPatch reverse bestEffort cwd fs).calls,
      call.dryRun = true → call.bestEffort = false := by
  cases parsedPatch with
  | none => intro call hcall; simp [ApplyPatches.applyPatch] at hcall
  | some patch =>
    have htry := tryBlock_dryRun_calls (if reverse then reversePatch patch else patch)
      bestEffort cwd fs
    intro call hcall hdry
    simp only [ApplyPatches.applyPatch] at hcall
    split at hcall
    · exact htry call hcall hdry
    · exact htry call hcall hdry
    · split at hcall
      · simp only [List.mem_append, List.mem_singleton] at hcall
        rcases hcall with h | rfl
        · exact htry call h hdry
        · rfl
      · simp only [List.mem_append, List.mem_singleton] at hcall
        rcases hcall with h | rfl
        · exact htry call h hdry
        · rfl

/-- C12, as amended: when the fuzz search matches the hunks of `pre` and
exhausts on `hunk`, a patch effect with the hunks `pre ++ hunk :: post`
executed with `bestEffort = false` raises the message of `hunk`, for both
values of `dryRun`; executed with `bestEffort = true` (the hunks of `post`
matching) it records the message into `errors` and, in a dry run, raises
nothing and leaves the file system as it was; and every dry run that the
top-level `applyPatch` makes passes `bestEffort = false`. -/
theorem applyPatch_unresolvable_hunk_raise (cwd : Option String) (w : World) (path : String)
    (pre post : List Hunk) (hunk : Hunk) (fileContents : String) (mode : Nat)
    (hfile : w.fs (inCwd cwd path) = some (.file fileContents mode))
    (hpre : ∀ h ∈ pre, ∃ m, (fuzzSearch h (splitLines fileContents)).outcome = .matched m)
    (hhunk : (fuzzSearch hunk (splitLines fileContents)).outcome = .unresolvable) :
    (∀ dryRun,
      (executeEffects ⟨dryRun, false, cwd⟩ [.patch path (pre ++ hunk :: post)] w).thrown =
        some (cannotApplyHunkMessage pre.length (inCwd cwd path) hunk)) ∧
    ((∀ h ∈ post, ∃ m, (fuzzSearch h (splitLines fileContents)).outcome = .matched m) →
      (executeEffects ⟨true, true, cwd⟩ [.patch path (pre ++ hunk :: post)] w).thrown = none ∧
      (executeEffects ⟨true, true, cwd⟩ [.patch path (pre ++ hunk :: post)] w).world.errors =
        pushError w.errors (cannotApplyHunkMessage pre.length (inCwd cwd path) hunk) ∧
      (executeEffects ⟨true, true, cwd⟩ [.patch path (pre ++ hunk :: post)] w).world.fs = w.fs) ∧
    (∀ (parsedPatch : Option (List Effect)) (reverse bestEffort : Bool) (cwd : Option String)
      (fs : FileSystem),
      ∀ call ∈ (ApplyPatches.applyPatch parsedPatch reverse bestEffort cwd fs).calls,
        call.dryRun = true → call.bestEffort = false) := by
  obtain ⟨hread, hstat, _⟩ := statSyncMode_of_file _ _ _ _ hfile
  have hs := searchHunks_one_unresolvable (splitLines fileContents) true (inCwd cwd path) pre post
    hunk w.errors hpre hhunk
  have hf := searchHunks_one_unresolvable (splitLines fileContents) false (inCwd cwd path) pre post
    hunk w.errors hpre hhunk
  refine ⟨?_, ?_, applyPatch_dryRun_calls_strict⟩
  · intro dryRun
    simp only [executeEffects, executeEffect, Apply.applyPatch, hread, hstat, hf.1 rfl]
  · intro hpost
    simp only [executeEffects, executeEffect, Apply.applyPatch, hread, hstat, hs.2 rfl hpost,
      if_true]
    exact ⟨trivial, trivial, trivial⟩

/-- The hunk that looks for `zzz` in the file of the lines `x`, `u`, `w`, in a
strict dry run. -/
theorem applyPatch_unresolvable_hunk_raise_witness :
    threeLinesFs (inCwd none "f") = some (.file "x\nu\nw" 0o644) ∧
    (executeEffects ⟨true, false, none⟩ [.patch "f" ([] ++ replaceMissingHunk :: [])]
      ⟨threeLinesFs, none⟩).thrown =
        some (cannotApplyHunkMessage 0 (inCwd none "f") replaceMissingHunk) :=
  ⟨by decide,
    (applyPatch_unresolvable_hunk_raise none ⟨threeLinesFs, none⟩ "f" [] [] replaceMissingHunk
      "x\nu\nw" 0o644 (by decide) (by intro h hh; simp at hh)
      (by rw [fuzzSearch_eq_scanProbes]; decide)).1 true⟩

/-- C12, counterexample: executed with `dryRun = true` and `bestEffort = true`,
the patch effect whose one hunk looks for `zzz` in the file of the lines `x`,
`u`, `w` exhausts the fuzz search and does not raise: the message is recorded
into `errors`. -/
theorem applyPatch_dryRun_bestEffort_no_raise :
    (fuzzSearch replaceMissingHunk (splitLines "x\nu\nw")).outcome = .unresolvable ∧
    (executeEffects ⟨true, true, none⟩ [.patch "f" [replaceMissingHunk]]
      ⟨threeLinesFs, some []⟩).thrown = none ∧
    (executeEffects ⟨true, true, none⟩ [.patch "f" [replaceMissingHunk]]
      ⟨threeLinesFs, some []⟩).world.errors =
        some [cannotApplyHunkMessage 0 "f" replaceMissingHunk] := by
  simp only [executeEffects, executeEffect, Apply.applyPatch, searchHunks,
    fuzzSearch_eq_scanProbes]
  decide

/-! ## A patch applied a second time -/

theorem executeEffects_append (opts : Options) (first second : List Effect) :
    ∀ w : World, executeEffects opts (first ++ second) w =
      match (executeEffects opts first w).thrown with
      | some _ => executeEffects opts first w
      | none => executeEffects opts second (executeEffects opts first w).world := by
  induction first with
  | nil => intro w; simp [executeEffects]
  | cons eff first ih =>
    intro w
    simp only [List.cons_append, executeEffects]
    rcases hrun : executeEffect opts w eff with ⟨w1, thrown⟩
    cases thrown with
    | some e => rfl
    | none => simp only; exact ih w1

theorem existsSync_eq_of_entryAt (fs fs2 : FileSystem) (path : String)
    (h : entryAt fs path = entryAt fs2 path) : existsSync fs path = existsSync fs2 path := by
  unfold entryAt at h
  unfold existsSync
  cases h1 : fs path with
  | none =>
    cases h2 : fs2 path with
    | none => rfl
    | some n2 => rw [h1, h2] at h; cases n2 <;> simp at h
  | some n1 =>
    cases h2 : fs2 path with
    | none => rw [h1, h2] at h; cases n1 <;> simp at h
    | some n2 => rfl

theorem existsSync_set (fs : FileSystem) (path other : String) (node : Option Node)
    (h : other ≠ path) : existsSync (fs.set path node) other = existsSync fs other := by
  simp [existsSync, FileSystem.set, h]

theorem existsSync_set_some (fs : FileSystem) (path other : String) (node : Node)
    (h : existsSync fs path = true) :
    existsSync (fs.set path (some node)) other = existsSync fs other := by
  by_cases hp : other = path
  · subst hp; simp [existsSync, FileSystem.set] at h ⊢; exact h.symm ▸ rfl
  · exact existsSync_set fs path other _ hp

theorem applyPatch_existsSync (hunks : List Hunk) (path : String) (opts : Options) (w : World)
    (other : String) :
    existsSync (Apply.applyPatch hunks path opts w).world.fs other = existsSync w.fs other := by
  unfold Apply.applyPatch
  dsimp only
  cases hn : w.fs (inCwd opts.cwd path) with
  | none => simp [readFileSync, hn]
  | some node =>
    cases node with
    | dir mode => simp [readFileSync, hn]
    | file content mode =>
      simp only [readFileSync, statSyncMode, hn]
      split
      · rfl
      · split
        · rfl
        · simp only [writeFileSync, hn, bestEffortCatch]
          exact existsSync_set_some _ _ _ _ (by simp [existsSync, hn])

theorem executeEffect_existsSync (opts : Options) (w : World) (eff : Effect) (key : String)
    (hkey : key ∉ changesExistence opts.cwd eff) :
    existsSync (executeEffect opts w eff).world.fs key = existsSync w.fs key := by
  cases eff with
  | fileDeletion path mode hunk =>
    simp only [changesExistence, List.mem_singleton] at hkey
    simp only [executeEffect]
    split
    · split <;> rfl
    · simp only [unlinkSync]
      cases hn : w.fs (inCwd opts.cwd path) with
      | none => simp only [bestEffortCatch]; split <;> rfl
      | some node =>
        cases node with
        | dir m => simp only [bestEffortCatch]; split <;> rfl
        | file c m => simp only [bestEffortCatch]; exact existsSync_set _ _ _ _ hkey
  | rename fromPath toPath =>
    simp only [changesExistence, List.mem_cons, List.mem_singleton, List.not_mem_nil, or_false,
      not_or] at hkey
    simp only [executeEffect]
    split
    · split <;> rfl
    · simp only [moveSync]
      cases hn : w.fs (inCwd opts.cwd fromPath) with
      | none => simp only [bestEffortCatch]; split <;> rfl
      | some node =>
        simp only
        split
        · rfl
        · split
          · simp only [bestEffortCatch]; split <;> rfl
          · simp only [bestEffortCatch]
            rw [existsSync_set _ _ _ _ hkey.2, existsSync_set _ _ _ _ hkey.1]
  | fileCreation path mode hunk =>
    simp only [changesExistence, List.mem_singleton] at hkey
    have hw : ∀ data message, existsSync (bestEffortCatch opts w message
        (writeFileSync w.fs (inCwd opts.cwd path) data mode)).world.fs key =
        existsSync w.fs key := by
      intro data message
      simp only [writeFileSync]
      cases hn : w.fs (inCwd opts.cwd path) with
      | none => simp only [bestEffortCatch]; exact existsSync_set _ _ _ _ hkey
      | some node =>
        cases node with
        | dir m => simp only [bestEffortCatch]; split <;> rfl
        | file c m => simp only [bestEffortCatch]; exact existsSync_set _ _ _ _ hkey
    simp only [executeEffect]
    split
    · split <;> rfl
    · cases hunk with
      | none => exact hw _ _
      | some h =>
        simp only
        cases h.parts with
        | nil => rfl
        | cons part rest => exact hw _ _
  | patch path hunks =>
    simp only [executeEffect]
    exact applyPatch_existsSync hunks path opts w key
  | modeChange path oldMode newMode =>
    simp only [executeEffect, statSyncMode, chmodSync]
    cases hn : w.fs (inCwd opts.cwd path) with
    | none => rfl
    | some node =>
      cases node with
      | file content mode => exact existsSync_set_some _ _ _ _ (by simp [existsSync, hn])
      | dir mode => exact existsSync_set_some _ _ _ _ (by simp [existsSync, hn])

theorem executeEffects_existsSync (opts : Options) (effects : List Effect) (key : String) :
    ∀ w : World, (∀ eff ∈ effects, key ∉ changesExistence opts.cwd eff) →
      existsSync (executeEffects opts effects w).world.fs key = existsSync w.fs key := by
  induction effects with
  | nil => intro w _; rfl
  | cons eff effects ih =>
    intro w h
    have h1 := executeEffect_existsSync opts w eff key (h eff (by simp))
    simp only [executeEffects]
    rcases hrun : executeEffect opts w eff with ⟨w1, thrown⟩
    rw [hrun] at h1
    cases thrown with
    | some e => exact h1
    | none =>
      simp only
      rw [ih w1 (fun e he => h e (by simp [he]))]
      exact h1

theorem executeEffect_real_undoes (cwd : Option String) (w w2 : World) (eff : Effect)
    (key : String) (hkey : undoesPrecondition cwd key eff)
    (hrun : executeEffect ⟨false, false, cwd⟩ w eff = ⟨w2, none⟩) :
    preconditionViolated cwd w2.fs eff := by
  cases eff with
  | fileDeletion path mode hunk =>
    simp only [executeEffect, Bool.false_eq_true, if_false, unlinkSync] at hrun
    simp only [preconditionViolated]
    cases hn : w.fs (inCwd cwd path) with
    | none => simp [hn, bestEffortCatch] at hrun
    | some node =>
      cases node with
      | dir m => simp [hn, bestEffortCatch] at hrun
      | file c m =>
        simp only [hn, bestEffortCatch, Run.mk.injEq, and_true] at hrun
        rw [← hrun]
        simp [existsSync, FileSystem.set]
  | rename fromPath toPath =>
    obtain ⟨_, hne⟩ := hkey
    simp only [executeEffect, Bool.false_eq_true, if_false, moveSync] at hrun
    simp only [preconditionViolated]
    cases hn : w.fs (inCwd cwd fromPath) with
    | none => simp [hn, bestEffortCatch] at hrun
    | some node =>
      simp only [hn, hne, if_false] at hrun
      split at hrun
      · simp [bestEffortCatch] at hrun
      · simp only [bestEffortCatch, Run.mk.injEq, and_true] at hrun
        rw [← hrun]
        simp [existsSync, FileSystem.set, hne]
  | fileCreation path mode hunk =>
    simp only [preconditionViolated]
    have hw : ∀ data message, bestEffortCatch ⟨false, false, cwd⟩ w message
        (writeFileSync w.fs (inCwd cwd path) data mode) = ⟨w2, none⟩ →
        existsSync w2.fs (inCwd cwd path) = true := by
      intro data message h
      simp only [writeFileSync] at h
      cases hn : w.fs (inCwd cwd path) with
      | none =>
        simp only [hn, bestEffortCatch, Run.mk.injEq, and_true] at h
        rw [← h]; simp [existsSync, FileSystem.set]
      | some node =>
        cases node with
        | dir m => simp [hn, bestEffortCatch] at h
        | file c m =>
          simp only [hn, bestEffortCatch, Run.mk.injEq, and_true] at h
          rw [← h]; simp [existsSync, FileSystem.set]
    simp only [executeEffect, Bool.false_eq_true, if_false] at hrun
    cases hunk with
    | none => exact hw _ _ hrun
    | some h =>
      simp only at hrun
      cases hp : h.parts with
      | nil => simp [hp] at hrun
      | cons part rest => rw [hp] at hrun; exact hw _ _ hrun
  | patch path hunks => exact absurd hkey (by simp [undoesPrecondition])
  | modeChange path oldMode newMode => exact absurd hkey (by simp [undoesPrecondition])

theorem preconditionViolated_congr (cwd : Option String) (fs fs2 : FileSystem) (eff : Effect)
    (key : String) (hkey : undoesPrecondition cwd key eff)
    (h : existsSync fs2 key = existsSync fs key) (hv : preconditionViolated cwd fs eff) :
    preconditionViolated cwd fs2 eff := by
  cases eff with
  | fileDeletion path mode hunk =>
    simp only [undoesPrecondition] at hkey; subst hkey
    simp only [preconditionViolated] at hv ⊢; rw [h, hv]
  | rename fromPath toPath =>
    obtain ⟨hkey, _⟩ := hkey; subst hkey
    simp only [preconditionViolated] at hv ⊢; rw [h, hv]
  | fileCreation path mode hunk =>
    simp only [undoesPrecondition] at hkey; subst hkey
    simp only [preconditionViolated] at hv ⊢; rw [h, hv]
  | patch path hunks => exact absurd hv (by simp [preconditionViolated])
  | modeChange path oldMode newMode => exact absurd hv (by simp [preconditionViolated])

theorem executeEffect_dryRun_violated (bestEffort : Bool) (cwd : Option String) (w : World)
    (eff : Effect) (hv : preconditionViolated cwd w.fs eff) :
    (executeEffect ⟨true, bestEffort, cwd⟩ w eff).thrown ≠ none := by
  cases eff with
  | fileDeletion path mode hunk =>
    simp only [preconditionViolated] at hv; simp [executeEffect, hv]
  | rename fromPath toPath =>
    simp only [preconditionViolated] at hv; simp [executeEffect, hv]
  | fileCreation path mode hunk =>
    simp only [preconditionViolated] at hv; simp [executeEffect, hv]
  | patch path hunks => exact absurd hv (by simp [preconditionViolated])
  | modeChange path oldMode newMode => exact absurd hv (by simp [preconditionViolated])

theorem executeEffects_dryRun_violated (cwd : Option String) (pre post : List Effect)
    (eff : Effect) (key : String) (hkey : undoesPrecondition cwd key eff) (w : World)
    (hv : preconditionViolated cwd w.fs eff) :
    (executeEffects ⟨true, false, cwd⟩ (pre ++ eff :: post) w).thrown ≠ none := by
  rw [executeEffects_append]
  cases hpre : (executeEffects ⟨true, false, cwd⟩ pre w).thrown with
  | some e => simp [hpre]
  | none =>
    simp only
    have hent := executeEffects_dryRun_entryAt ⟨true, false, cwd⟩ rfl pre w key
    have hex := existsSync_eq_of_entryAt _ _ _ hent
    have hv2 := preconditionViolated_congr cwd w.fs
      (executeEffects ⟨true, false, cwd⟩ pre w).world.fs eff key hkey hex hv
    have hraise := executeEffect_dryRun_violated false cwd
      (executeEffects ⟨true, false, cwd⟩ pre w).world eff hv2
    simp only [executeEffects]
    rcases hrun : executeEffect ⟨true, false, cwd⟩
      (executeEffects ⟨true, false, cwd⟩ pre w).world eff with ⟨w1, thrown⟩
    rw [hrun] at hraise
    cases thrown with
    | some e => simp
    | none => exact absurd rfl hraise

theorem executeEffects_real_violated (cwd : Option String) (pre post : List Effect)
    (eff : Effect) (key : String) (hkey : undoesPrecondition cwd key eff)
    (hpost : ∀ later ∈ post, key ∉ changesExistence cwd later) (w : World)
    (hrun : (executeEffects ⟨false, false, cwd⟩ (pre ++ eff :: post) w).thrown = none) :
    preconditionViolated cwd
      (executeEffects ⟨false, false, cwd⟩ (pre ++ eff :: post) w).world.fs eff := by
  rw [executeEffects_append] at hrun ⊢
  cases hpre : (executeEffects ⟨false, false, cwd⟩ pre w).thrown with
  | some e => rw [hpre] at hrun; simp only at hrun; rw [hpre] at hrun; cases hrun
  | none =>
    rw [hpre] at hrun
    simp only at hrun ⊢
    simp only [executeEffects] at hrun ⊢
    rcases heff : executeEffect ⟨false, false, cwd⟩
      (executeEffects ⟨false, false, cwd⟩ pre w).world eff with ⟨w2, thrown⟩
    rw [heff] at hrun
    cases thrown with
    | some e => simp at hrun
    | none =>
      simp only at hrun ⊢
      have hv := executeEffect_real_undoes cwd _ w2 eff key hkey heff
      have hframe := executeEffects_existsSync ⟨false, false, cwd⟩ post key w2 hpost
      exact preconditionViolated_congr cwd w2.fs _ eff key hkey hframe hv

theorem applyPatch_strict_dry_raise (patch : List Effect) (cwd : Option String)
    (fs : FileSystem)
    (hthrown : (executeEffects ⟨true, false, cwd⟩ patch ⟨fs, none⟩).thrown ≠ none) :
    (∀ call ∈ (ApplyPatches.applyPatch (some patch) false false cwd fs).calls,
      call.dryRun = true) ∧
    ∀ path, entryAt (ApplyPatches.applyPatch (some patch) false false cwd fs).fs path =
      entryAt fs path := by
  cases hdry : (executeEffects ⟨true, false, cwd⟩ patch ⟨fs, none⟩).thrown with
  | none => exact absurd hdry hthrown
  | some e =>
    simp only [ApplyPatches.applyPatch, tryBlock, Bool.not_false, if_true, Bool.false_eq_true,
      if_false, hdry]
    have h1 := executeEffects_dryRun_entryAt ⟨true, false, cwd⟩ rfl patch ⟨fs, none⟩
    have h2 := executeEffects_dryRun_entryAt ⟨true, false, cwd⟩ rfl (reversePatch patch)
      ⟨(executeEffects ⟨true, false, cwd⟩ patch ⟨fs, none⟩).world.fs, none⟩
    split
    · constructor
      · intro call hcall; simp at hcall; rcases hcall with rfl | rfl <;> rfl
      · intro path; simp only; rw [h2, h1]
    · constructor
      · intro call hcall; simp at hcall; rcases hcall with rfl | rfl <;> rfl
      · intro path; simp only; rw [h2, h1]

theorem applyPatch_strict_success (patch : List Effect) (cwd : Option String)
    (fs : FileSystem)
    (hdone : (ApplyPatches.applyPatch (some patch) false false cwd fs).completion =
      .returned true)
    (hcalls : (ApplyPatches.applyPatch (some patch) false false cwd fs).calls =
      [⟨patch, true, false⟩, ⟨patch, false, false⟩]) :
    (executeEffects ⟨false, false, cwd⟩ patch
      ⟨(executeEffects ⟨true, false, cwd⟩ patch ⟨fs, none⟩).world.fs, none⟩).thrown = none ∧
    (ApplyPatches.applyPatch (some patch) false false cwd fs).fs =
      (executeEffects ⟨false, false, cwd⟩ patch
        ⟨(executeEffects ⟨true, false, cwd⟩ patch ⟨fs, none⟩).world.fs, none⟩).world.fs := by
  simp only [ApplyPatches.applyPatch, tryBlock, Bool.not_false, if_true, Bool.false_eq_true,
    if_false] at hdone hcalls ⊢
  cases hdry : (executeEffects ⟨true, false, cwd⟩ patch ⟨fs, none⟩).thrown with
  | some e =>
    rw [hdry] at hcalls
    simp only at hcalls
    split at hcalls <;> simp at hcalls
  | none =>
    rw [hdry] at hdone hcalls
    simp only [realRun, Bool.false_eq_true, if_false] at hdone hcalls ⊢
    cases hreal : (executeEffects ⟨false, false, cwd⟩ patch
      ⟨(executeEffects ⟨true, false, cwd⟩ patch ⟨fs, none⟩).world.fs, none⟩).thrown with
    | some e =>
      rw [hreal] at hcalls
      simp only at hcalls
      split at hcalls <;> simp at hcalls
    | none =>
      rw [hreal] at hdone hcalls
      simp only at hdone hcalls ⊢
      refine ⟨trivial, ?_⟩
      cases herr : (executeEffects ⟨false, false, cwd⟩ patch
        ⟨(executeEffects ⟨true, false, cwd⟩ patch ⟨fs, none⟩).world.fs, none⟩).world.errors with
      | none => rfl
      | some l =>
        cases l with
        | nil => rfl
        | cons e es =>
          rw [herr] at hdone hcalls
          simp only at hdone hcalls
          cases hw : writeFileSync (executeEffects ⟨false, false, cwd⟩ patch
            ⟨(executeEffects ⟨true, false, cwd⟩ patch ⟨fs, none⟩).world.fs, none⟩).world.fs
            errorsLogPath
            ((String.singleton lineFeed ++ String.singleton lineFeed).intercalate (e :: es))
            0o666 with
          | error e2 =>
            rw [hw] at hcalls
            simp only at hcalls
            split at hcalls <;> simp at hcalls
          | ok fs2 =>
            rw [hw] at hdone
            simp at hdone

/-- Where a second application is refused: let a patch contain a file creation
or a file deletion of a path, or a rename away from it, and no later effect that
creates, deletes or renames that path. When the strict protocol succeeds on a
file tree (the call returns `true` after exactly the dry run and the real
run), the forward dry run of the same patch on the resulting tree raises, so
that the second call makes only dry runs and leaves the existence and the
content of every path as they were. -/
theorem applyPatch_twice_fails_dry_run (pre post : List Effect) (eff : Effect) (key : String)
    (cwd : Option String) (fs : FileSystem)
    (hkey : undoesPrecondition cwd key eff)
    (hpost : ∀ later ∈ post, key ∉ changesExistence cwd later)
    (hdone : (ApplyPatches.applyPatch (some (pre ++ eff :: post)) false false cwd fs).completion =
      .returned true)
    (hcalls : (ApplyPatches.applyPatch (some (pre ++ eff :: post)) false false cwd fs).calls =
      [⟨pre ++ eff :: post, true, false⟩, ⟨pre ++ eff :: post, false, false⟩]) :
    (executeEffects ⟨true, false, cwd⟩ (pre ++ eff :: post)
      ⟨(ApplyPatches.applyPatch (some (pre ++ eff :: post)) false false cwd fs).fs,
        none⟩).thrown ≠ none ∧
    (∀ call ∈ (ApplyPatches.applyPatch (some (pre ++ eff :: post)) false false cwd
        (ApplyPatches.applyPatch (some (pre ++ eff :: post)) false false cwd fs).fs).calls,
      call.dryRun = true) ∧
    ∀ path, entryAt (ApplyPatches.applyPatch (some (pre ++ eff :: post)) false false cwd
        (ApplyPatches.applyPatch (some (pre ++ eff :: post)) false false cwd fs).fs).fs path =
      entryAt (ApplyPatches.applyPatch (some (pre ++ eff :: post)) false false cwd fs).fs
        path := by
  obtain ⟨hreal, hfs⟩ := applyPatch_strict_success (pre ++ eff :: post) cwd fs hdone hcalls
  have hviolated := executeEffects_real_violated cwd pre post eff key hkey hpost _ hreal
  rw [← hfs] at hviolated
  have hraise := executeEffects_dryRun_violated cwd pre post eff key hkey
    ⟨(ApplyPatches.applyPatch (some (pre ++ eff :: post)) false false cwd fs).fs, none⟩
    hviolated
  exact ⟨hraise, applyPatch_strict_dry_raise (pre ++ eff :: post) cwd _ hraise⟩

/-- The patch `appendAndCreatePatch` applied twice to `oneLineFs`: the second
call stops at the dry run, because `notes.txt` exists. -/
theorem applyPatch_twice_fails_dry_run_witness :
    (executeEffects ⟨true, false, none⟩ ([.patch "f" [appendHunk]] ++
        .fileCreation "notes.txt" 0o644 none :: [])
      ⟨(ApplyPatches.applyPatch (some ([.patch "f" [appendHunk]] ++
        .fileCreation "notes.txt" 0o644 none :: [])) false false none oneLineFs).fs,
        none⟩).thrown ≠ none ∧
    (∀ call ∈ (ApplyPatches.applyPatch (some ([.patch "f" [appendHunk]] ++
        .fileCreation "notes.txt" 0o644 none :: [])) false false none
        (ApplyPatches.applyPatch (some ([.patch "f" [appendHunk]] ++
          .fileCreation "notes.txt" 0o644 none :: [])) false false none oneLineFs).fs).calls,
      call.dryRun = true) ∧
    ∀ path, entryAt (ApplyPatches.applyPatch (some ([.patch "f" [appendHunk]] ++
        .fileCreation "notes.txt" 0o644 none :: [])) false false none
        (ApplyPatches.applyPatch (some ([.patch "f" [appendHunk]] ++
          .fileCreation "notes.txt" 0o644 none :: [])) false false none oneLineFs).fs).fs path =
      entryAt (ApplyPatches.applyPatch (some ([.patch "f" [appendHunk]] ++
        .fileCreation "notes.txt" 0o644 none :: [])) false false none oneLineFs).fs path :=
  applyPatch_twice_fails_dry_run [.patch "f" [appendHunk]] [] (.fileCreation "notes.txt" 0o644 none)
    "notes.txt" none oneLineFs (by simp only [undoesPrecondition]; decide) (by simp)
    (by
      simp only [ApplyPatches.applyPatch, tryBlock, realRun, executeEffects, executeEffect,
        Apply.applyPatch, searchHunks, fuzzSearch_eq_scanProbes, List.cons_append,
        List.nil_append]
      decide)
    (by
      simp only [ApplyPatches.applyPatch, tryBlock, realRun, executeEffects, executeEffect,
        Apply.applyPatch, searchHunks, fuzzSearch_eq_scanProbes, List.cons_append,
        List.nil_append]
      decide)

/-- C11, the code at the failing input: the patch `appendPatch`, whose hunk
appends the line `x` after the context line `a`, applied twice to `oneLineFs`
by the strict protocol. The first call returns `true` and leaves `a`, `x`. On
this already-patched file the forward dry run of the second call raises
nothing, because `evaluateHunk` compares the context and deletion lines only;
the second call makes a real run, returns `true` and appends the line again. -/
theorem applyPatch_twice_appends_twice :
    (ApplyPatches.applyPatch (some appendPatch) false false none oneLineFs).completion =
      .returned true ∧
    readFileSync (ApplyPatches.applyPatch (some appendPatch) false false none oneLineFs).fs "f" =
      .ok "a\nx\n" ∧
    (executeEffects ⟨true, false, none⟩ appendPatch
      ⟨(ApplyPatches.applyPatch (some appendPatch) false false none oneLineFs).fs,
        none⟩).thrown = none ∧
    (ApplyPatches.applyPatch (some appendPatch) false false none
      (ApplyPatches.applyPatch (some appendPatch) false false none oneLineFs).fs).completion =
      .returned true ∧
    (ApplyPatches.applyPatch (some appendPatch) false false none
      (ApplyPatches.applyPatch (some appendPatch) false false none oneLineFs).fs).calls =
      [⟨appendPatch, true, false⟩, ⟨appendPatch, false, false⟩] ∧
    readFileSync (ApplyPatches.applyPatch (some appendPatch) false false none
      (ApplyPatches.applyPatch (some appendPatch) false false none oneLineFs).fs).fs "f" =
      .ok "a\nx\nx\n" := by
  simp only [ApplyPatches.applyPatch, tryBlock, realRun, appendPatch, executeEffects,
    executeEffect, Apply.applyPatch, searchHunks, fuzzSearch_eq_scanProbes]
  decide

/-! ## The patches of one package -/

theorem appliedOf_cons (a : Attempt) (rest : List Attempt) :
    appliedOf (a :: rest) =
      if a.outcome = .applied then a.patchDetails :: appliedOf rest else appliedOf rest := by
  unfold appliedOf
  by_cases h : a.outcome = .applied <;> simp [List.filter_cons, h]

theorem failedOf_cons (a : Attempt) (rest : List Attempt) :
    failedOf (a :: rest) =
      if a.outcome = .sequenceFailure then some a.patchDetails else failedOf rest := by
  unfold failedOf
  by_cases h : a.outcome = .sequenceFailure <;> simp [List.find?_cons, h]

theorem packageLoop_attempts (c : Collaborators) (multiple : Bool) (appPath patchDir : String)
    (reverse bestEffort : Bool) (cwd : String) :
    ∀ (input : List PatchDetails) (s : LoopState), s.failedPatch = none → s.exited = none →
      ∃ new : List Attempt,
        (packageLoop c multiple appPath patchDir reverse bestEffort cwd input s).attempts =
          s.attempts ++ new ∧
        (packageLoop c multiple appPath patchDir reverse bestEffort cwd input s).appliedPatches =
          s.appliedPatches ++ appliedOf new ∧
        (packageLoop c multiple appPath patchDir reverse bestEffort cwd input s).failedPatch =
          failedOf new ∧
        ((packageLoop c multiple appPath patchDir reverse bestEffort cwd input s).exited = none ↔
          ∀ a ∈ new, a.outcome ≠ .exited) ∧
        new.map (fun a => a.patchDetails) <+: input := by
  intro input
  induction input with
  | nil =>
    intro s hf he
    exact ⟨[], by simp [packageLoop, appliedOf, failedOf, hf, he]⟩
  | cons patchDetails rest ih =>
    intro s hf he
    unfold packageLoop
    split
    · exact ⟨[⟨patchDetails, .raised⟩], by
        simp [appliedOf, failedOf, hf, he, List.prefix_cons_inj, List.nil_prefix]⟩
    · exact ⟨[⟨patchDetails, .raised⟩], by
        simp [appliedOf, failedOf, hf, he, List.prefix_cons_inj, List.nil_prefix]⟩
    · split
      · obtain ⟨new, h1, h2, h3, h4, h5⟩ := ih
          { s with attempts := s.attempts ++ [⟨patchDetails, .skipped⟩] } hf he
        refine ⟨⟨patchDetails, .skipped⟩ :: new, ?_, ?_, ?_, ?_, ?_⟩
        · rw [h1]; simp
        · rw [h2, appliedOf_cons]; simp
        · rw [h3, failedOf_cons]; simp
        · rw [h4]; simp
        · simpa [List.prefix_cons_inj] using h5
      · dsimp only
        split
        · exact ⟨[⟨patchDetails, .exited⟩], by
            simp [appliedOf, failedOf, hf, List.prefix_cons_inj, List.nil_prefix]⟩
        · obtain ⟨new, h1, h2, h3, h4, h5⟩ := ih
            { s with
              fs := (ApplyPatches.applyPatch
                (c.readPatch (patchFilePath appPath patchDir patchDetails.patchFilename))
                reverse bestEffort (some cwd) s.fs).fs
              appliedPatches := s.appliedPatches ++ [patchDetails]
              warnings := _
              attempts := s.attempts ++ [⟨patchDetails, .applied⟩] } hf he
          refine ⟨⟨patchDetails, .applied⟩ :: new, ?_, ?_, ?_, ?_, ?_⟩
          · rw [h1]; simp
          · rw [h2, appliedOf_cons]; simp
          · rw [h3, failedOf_cons]; simp
          · rw [h4]; simp
          · simpa [List.prefix_cons_inj] using h5
        · split
          · exact ⟨[⟨patchDetails, .sequenceFailure⟩], by
              simp [appliedOf, failedOf, he, List.prefix_cons_inj, List.nil_prefix]⟩
          · split
            · exact ⟨[⟨patchDetails, .brokenPatchFile⟩], by
                simp [appliedOf, failedOf, hf, he, List.prefix_cons_inj, List.nil_prefix]⟩
            · exact ⟨[⟨patchDetails, .versionConflict⟩], by
                simp [appliedOf, failedOf, hf, he, List.prefix_cons_inj, List.nil_prefix]⟩

theorem checkState_matching (c : Collaborators) (appPath patchDir : String) :
    ∀ (records : List PatchRecord) (applied unapplied : List PatchDetails),
      (records.takeWhile (fun r => r.didApply)).length ≤ unapplied.length →
      (∀ pair ∈ (records.takeWhile (fun r => r.didApply)).zip unapplied,
        pair.1.patchContentHash =
          c.hashFile (patchFilePath appPath patchDir pair.2.patchFilename)) →
      checkState c appPath patchDir records applied unapplied =
        .checked (applied ++ unapplied.take (records.takeWhile (fun r => r.didApply)).length)
          (unapplied.drop (records.takeWhile (fun r => r.didApply)).length) := by
  intro records
  induction records with
  | nil => intro applied unapplied _ _; simp [checkState]
  | cons r rs ih =>
    intro applied unapplied hlen hall
    unfold checkState
    by_cases hr : r.didApply = true
    · simp only [hr, Bool.not_true, Bool.false_eq_true, if_false, List.takeWhile_cons_of_pos,
        List.length_cons] at hlen hall ⊢
      cases unapplied with
      | nil => simp at hlen
      | cons p ps =>
        simp only [List.zip_cons_cons, List.mem_cons, forall_eq_or_imp] at hall
        simp only [List.length_cons, Nat.add_le_add_iff_right] at hlen
        simp only [hall.1, if_true]
        rw [ih (applied ++ [p]) ps hlen hall.2]
        simp
    · simp [hr]

theorem checkState_mismatch (c : Collaborators) (appPath patchDir : String) :
    ∀ (records : List PatchRecord) (applied unapplied : List PatchDetails),
      (∃ pair ∈ (records.takeWhile (fun r => r.didApply)).zip unapplied,
        pair.1.patchContentHash ≠
          c.hashFile (patchFilePath appPath patchDir pair.2.patchFilename)) →
      checkState c appPath patchDir records applied unapplied = .exit := by
  intro records
  induction records with
  | nil => intro applied unapplied h; simp at h
  | cons r rs ih =>
    intro applied unapplied h
    unfold checkState
    by_cases hr : r.didApply = true
    · simp only [hr, Bool.not_true, Bool.false_eq_true, if_false, List.takeWhile_cons_of_pos] at h ⊢
      cases unapplied with
      | nil => simp at h
      | cons p ps =>
        simp only [List.zip_cons_cons, List.mem_cons, exists_eq_or_imp] at h
        by_cases hp : r.patchContentHash =
            c.hashFile (patchFilePath appPath patchDir p.patchFilename)
        · simp only [hp, if_true]
          rcases h with h | h
          · exact absurd hp h
          · exact ih (applied ++ [p]) ps h
        · simp [hp]
    · simp [hr] at h

theorem applyPatchesForPackage_checked (c : Collaborators) (patches : List PatchDetails)
    (appPath patchDir : String) (reverse bestEffort : Bool) (cwd : String) (w : PackageWorld)
    (st : PatchApplicationState) (applied unapplied : List PatchDetails)
    (hmany : 1 < patches.length) (hstored : w.stored = some st)
    (hcheck : checkState c appPath patchDir st.patches [] patches = .checked applied unapplied) :
    applyPatchesForPackage c patches appPath patchDir reverse bestEffort cwd w =
      if (if reverse then applied.reverse else unapplied).isEmpty then ⟨.returned, w, [], []⟩
      else
        match (packageLoop c true appPath patchDir reverse bestEffort cwd
            (if reverse then applied.reverse else unapplied)
            ⟨w.fs, w.errors, w.warnings, if reverse then [] else applied, none, none,
              []⟩).exited with
        | some code =>
          ⟨.exited code,
            { w with
              fs := (packageLoop c true appPath patchDir reverse bestEffort cwd
                (if reverse then applied.reverse else unapplied)
                ⟨w.fs, w.errors, w.warnings, if reverse then [] else applied, none, none,
                  []⟩).fs
              errors := (packageLoop c true appPath patchDir reverse bestEffort cwd
                (if reverse then applied.reverse else unapplied)
                ⟨w.fs, w.errors, w.warnings, if reverse then [] else applied, none, none,
                  []⟩).errors
              warnings := (packageLoop c true appPath patchDir reverse bestEffort cwd
                (if reverse then applied.reverse else unapplied)
                ⟨w.fs, w.errors, w.warnings, if reverse then [] else applied, none, none,
                  []⟩).warnings },
            (packageLoop c true appPath patchDir reverse bestEffort cwd
              (if reverse then applied.reverse else unapplied)
              ⟨w.fs, w.errors, w.warnings, if reverse then [] else applied, none, none,
                []⟩).attempts, []⟩
        | none =>
          finalise c patches appPath patchDir reverse true w
            (packageLoop c true appPath patchDir reverse bestEffort cwd
              (if reverse then applied.reverse else unapplied)
              ⟨w.fs, w.errors, w.warnings, if reverse then [] else applied, none, none, []⟩) := by
  cases patches with
  | nil => simp at hmany
  | cons p ps =>
    unfold applyPatchesForPackage
    simp only [gt_iff_lt, hmany, if_true, hstored, hcheck, Option.isSome_some, Bool.and_true,
      decide_True]

theorem finalise_attempts (c : Collaborators) (patches : List PatchDetails)
    (appPath patchDir : String) (reverse stateFound : Bool) (w : PackageWorld)
    (loop : LoopState) :
    (finalise c patches appPath patchDir reverse stateFound w loop).attempts = loop.attempts := by
  unfold finalise
  dsimp only
  repeat' split
  all_goals rfl

theorem applyPatchesForPackage_attempts (c : Collaborators) (patches : List PatchDetails)
    (appPath patchDir : String) (reverse bestEffort : Bool) (cwd : String) (w : PackageWorld)
    (st : PatchApplicationState) (applied unapplied : List PatchDetails)
    (hmany : 1 < patches.length) (hstored : w.stored = some st)
    (hcheck : checkState c appPath patchDir st.patches [] patches = .checked applied unapplied) :
    (applyPatchesForPackage c patches appPath patchDir reverse bestEffort cwd w).attempts =
      (packageLoop c true appPath patchDir reverse bestEffort cwd
        (if reverse then applied.reverse else unapplied)
        ⟨w.fs, w.errors, w.warnings, if reverse then [] else applied, none, none,
          []⟩).attempts := by
  rw [applyPatchesForPackage_checked c patches appPath patchDir reverse bestEffort cwd w st
    applied unapplied hmany hstored hcheck]
  generalize (if reverse = true then applied.reverse else unapplied) = input
  generalize (if reverse = true then [] else applied) = start
  cases input with
  | nil => simp [packageLoop]
  | cons p ps =>
    simp only [List.isEmpty_cons, Bool.false_eq_true, if_false]
    split
    · rfl
    · rw [finalise_attempts]

/-- C16: for a package with several patches and a persisted state, the leading
records with `didApply` true are compared, by position, with the digests of
the patch files. When the patches suffice and every digest is equal, the check
ends with these patches as applied and the others as unapplied, and a forward
run attempts only patches among the unapplied ones, in order; a record whose
digest differs ends the run with exit code 1, with no patch attempted, no state
written and nothing changed. -/
theorem applyPatchesForPackage_state_check (c : Collaborators) (patches : List PatchDetails)
    (appPath patchDir : String) (reverse bestEffort : Bool) (cwd : String) (w : PackageWorld)
    (st : PatchApplicationState) (hmany : 1 < patches.length) (hstored : w.stored = some st) :
    ((st.patches.takeWhile (fun r => r.didApply)).length ≤ patches.length →
      (∀ pair ∈ (st.patches.takeWhile (fun r => r.didApply)).zip patches,
        pair.1.patchContentHash =
          c.hashFile (patchFilePath appPath patchDir pair.2.patchFilename)) →
      checkState c appPath patchDir st.patches [] patches =
        .checked (patches.take (st.patches.takeWhile (fun r => r.didApply)).length)
          (patches.drop (st.patches.takeWhile (fun r => r.didApply)).length) ∧
      (reverse = false →
        (applyPatchesForPackage c patches appPath patchDir reverse bestEffort cwd
          w).attempts.map (fun a => a.patchDetails) <+:
          patches.drop (st.patches.takeWhile (fun r => r.didApply)).length)) ∧
    ((∃ pair ∈ (st.patches.takeWhile (fun r => r.didApply)).zip patches,
        pair.1.patchContentHash ≠
          c.hashFile (patchFilePath appPath patchDir pair.2.patchFilename)) →
      (applyPatchesForPackage c patches appPath patchDir reverse bestEffort cwd w).ended =
        .exited 1 ∧
      (applyPatchesForPackage c patches appPath patchDir reverse bestEffort cwd w).attempts =
        [] ∧
      (applyPatchesForPackage c patches appPath patchDir reverse bestEffort cwd w).stateWrites =
        [] ∧
      (applyPatchesForPackage c patches appPath patchDir reverse bestEffort cwd w).world = w) := by
  constructor
  · intro hlen hall
    have hcheck := checkState_matching c appPath patchDir st.patches [] patches hlen hall
    rw [List.nil_append] at hcheck
    refine ⟨hcheck, ?_⟩
    intro hforward
    subst hforward
    rw [applyPatchesForPackage_attempts c patches appPath patchDir false bestEffort cwd w st _ _
      hmany hstored hcheck]
    obtain ⟨new, h1, _, _, _, h5⟩ := packageLoop_attempts c true appPath patchDir false
      bestEffort cwd (patches.drop (st.patches.takeWhile (fun r => r.didApply)).length)
      ⟨w.fs, w.errors, w.warnings, patches.take
        (st.patches.takeWhile (fun r => r.didApply)).length, none, none, []⟩ rfl rfl
    simp only [Bool.false_eq_true, if_false]
    rw [h1]
    simpa using h5
  · intro hdiff
    have hcheck := checkState_mismatch c appPath patchDir st.patches [] patches hdiff
    cases patches with
    | nil => simp at hmany
    | cons p ps =>
      unfold applyPatchesForPackage
      simp only [gt_iff_lt, hmany, if_true, hstored, hcheck]
      simp

/-- The state check of the three patches of `pkg` against a state that records
all three as applied. -/
theorem applyPatchesForPackage_state_check_witness :
    checkState pkgCollaborators "app" "patches" pkgRecords []
        [pkgPatch "a.patch", pkgPatch "b.patch", pkgPatch "c.patch"] =
      .checked [pkgPatch "a.patch", pkgPatch "b.patch", pkgPatch "c.patch"] [] :=
  ((applyPatchesForPackage_state_check pkgCollaborators
    [pkgPatch "a.patch", pkgPatch "b.patch", pkgPatch "c.patch"] "app" "patches" false false
    "work" (pkgWorld [] (some ⟨pkgRecords, false⟩)) ⟨pkgRecords, false⟩ (by decide) rfl).1
    (by decide) (by decide)).1

theorem packageLoop_singleton_attempts (c : Collaborators) (multiple : Bool)
    (appPath patchDir : String) (reverse bestEffort : Bool) (cwd : String) (p : PatchDetails)
    (s : LoopState) :
    (packageLoop c multiple appPath patchDir reverse bestEffort cwd [p] s).attempts.map
        (fun a => a.patchDetails) =
      s.attempts.map (fun a => a.patchDetails) ++ [p] := by
  unfold packageLoop
  split
  · simp
  · simp
  · split
    · simp [packageLoop]
    · dsimp only
      split
      · simp
      · simp [packageLoop]
      · split
        · simp
        · split <;> simp

theorem checkState_two_applied (c : Collaborators) (appPath patchDir : String)
    (A B C : PatchDetails) (rA rB : PatchRecord) (tail : List PatchRecord)
    (hA : rA.didApply = true ∧
      rA.patchContentHash = c.hashFile (patchFilePath appPath patchDir A.patchFilename))
    (hB : rB.didApply = true ∧
      rB.patchContentHash = c.hashFile (patchFilePath appPath patchDir B.patchFilename))
    (htail : ∀ r, tail.head? = some r → r.didApply = false) :
    checkState c appPath patchDir (rA :: rB :: tail) [] [A, B, C] = .checked [A, B] [C] := by
  cases tail with
  | nil => simp [checkState, hA, hB]
  | cons r rest =>
    have hr := htail r rfl
    simp [checkState, hA, hB, hr]

/-- C17: for the patches `[A, B, C]` and a state whose records of `A` and `B`
have `didApply` true and the digests of the patch files, and whose next record,
if any, has `didApply` false: a forward run in which the installed version of
`C` is resolved and `applyPatch` returns `false` for `C` attempts only `C` and
saves the records of `A` and `B` with `didApply` true followed by the record
of `C` with `didApply` false, with `isRebasing` true; and a forward run
started from what this run left attempts only `C`. -/
theorem applyPatchesForPackage_resumes_at_failed_patch (c : Collaborators)
    (A B C : PatchDetails) (appPath patchDir : String) (bestEffort again : Bool)
    (cwd : String) (w : PackageWorld) (st : PatchApplicationState) (rA rB : PatchRecord)
    (tail : List PatchRecord) (installed : String)
    (hstored : w.stored = some st) (hrecords : st.patches = rA :: rB :: tail)
    (hA : rA.didApply = true ∧
      rA.patchContentHash = c.hashFile (patchFilePath appPath patchDir A.patchFilename))
    (hB : rB.didApply = true ∧
      rB.patchContentHash = c.hashFile (patchFilePath appPath patchDir B.patchFilename))
    (htail : ∀ r, tail.head? = some r → r.didApply = false)
    (hversion : getInstalledPackageVersion c w.fs appPath C.path C.pathSpecifier
      (C.isDevOnly || (c.production && c.packageIsDevDependency appPath C)) C.patchFilename =
      .ok (some installed))
    (hinstalled : installed ≠ "")
    (hfails : (ApplyPatches.applyPatch (c.readPatch (patchFilePath appPath patchDir
      C.patchFilename)) false bestEffort (some cwd) w.fs).completion = .returned false) :
    (applyPatchesForPackage c [A, B, C] appPath patchDir false bestEffort cwd w).attempts =
      [⟨C, .sequenceFailure⟩] ∧
    (applyPatchesForPackage c [A, B, C] appPath patchDir false bestEffort cwd w).stateWrites =
      [.save ⟨[recordOf c appPath patchDir true A, recordOf c appPath patchDir true B,
        recordOf c appPath patchDir false C], true⟩] ∧
    (applyPatchesForPackage c [A, B, C] appPath patchDir false bestEffort cwd w).world.stored =
      some ⟨[recordOf c appPath patchDir true A, recordOf c appPath patchDir true B,
        recordOf c appPath patchDir false C], true⟩ ∧
    (applyPatchesForPackage c [A, B, C] appPath patchDir false again cwd
      (applyPatchesForPackage c [A, B, C] appPath patchDir false bestEffort cwd
        w).world).attempts.map (fun a => a.patchDetails) = [C] := by
  have hcheck : checkState c appPath patchDir st.patches [] [A, B, C] = .checked [A, B] [C] := by
    rw [hrecords]
    exact checkState_two_applied c appPath patchDir A B C rA rB tail hA hB htail
  have hloop : packageLoop c true appPath patchDir false bestEffort cwd [C]
      ⟨w.fs, w.errors, w.warnings, [A, B], none, none, []⟩ =
      ⟨(ApplyPatches.applyPatch (c.readPatch (patchFilePath appPath patchDir
        C.patchFilename)) false bestEffort (some cwd) w.fs).fs, w.errors, w.warnings, [A, B],
        some C, none, [⟨C, .sequenceFailure⟩]⟩ := by
    unfold packageLoop
    simp only [hversion, isFalsy, hinstalled, decide_False, Bool.false_eq_true, if_false,
      hfails, if_true, List.nil_append]
  have hrun := applyPatchesForPackage_checked c [A, B, C] appPath patchDir false bestEffort cwd
    w st [A, B] [C] (by simp) hstored hcheck
  simp only [Bool.false_eq_true, if_false, List.isEmpty_cons, hloop] at hrun
  have hstored2 : (applyPatchesForPackage c [A, B, C] appPath patchDir false bestEffort cwd
      w).world.stored = some ⟨[recordOf c appPath patchDir true A,
        recordOf c appPath patchDir true B, recordOf c appPath patchDir false C], true⟩ := by
    rw [hrun]; simp [finalise, StateWrite.perform]
  refine ⟨?_, ?_, hstored2, ?_⟩
  · rw [hrun]; simp [finalise]
  · rw [hrun]; simp [finalise]
  · have hcheck2 : checkState c appPath patchDir
        (⟨[recordOf c appPath patchDir true A, recordOf c appPath patchDir true B,
          recordOf c appPath patchDir false C], true⟩ : PatchApplicationState).patches []
        [A, B, C] = .checked [A, B] [C] :=
      checkState_two_applied c appPath patchDir A B C _ _ _ ⟨rfl, rfl⟩ ⟨rfl, rfl⟩
        (by intro r hr; simp at hr; rw [← hr]; rfl)
    rw [applyPatchesForPackage_attempts c [A, B, C] appPath patchDir false again cwd _ _
      [A, B] [C] (by simp) hstored2 hcheck2]
    simp only [Bool.false_eq_true, if_false]
    rw [packageLoop_singleton_attempts]
    rfl

/-- The three patches of `pkg` on a tree where `a.patch` and `b.patch` are
applied and recorded, and `c.patch` cannot be applied because `c.txt` exists
and `c2.txt` does not. -/
theorem applyPatchesForPackage_resumes_at_failed_patch_witness :
    (applyPatchesForPackage pkgCollaborators
      [pkgPatch "a.patch", pkgPatch "b.patch", pkgPatch "c.patch"] "app" "patches" false false
      "work" (pkgWorld ["a.txt", "a2.txt", "b.txt", "b2.txt", "c.txt"]
        (some ⟨pkgRecords.take 2, false⟩))).attempts =
      [⟨pkgPatch "c.patch", .sequenceFailure⟩] ∧
    (applyPatchesForPackage pkgCollaborators
      [pkgPatch "a.patch", pkgPatch "b.patch", pkgPatch "c.patch"] "app" "patches" false false
      "work" (pkgWorld ["a.txt", "a2.txt", "b.txt", "b2.txt", "c.txt"]
        (some ⟨pkgRecords.take 2, false⟩))).stateWrites =
      [.save ⟨[recordOf pkgCollaborators "app" "patches" true (pkgPatch "a.patch"),
        recordOf pkgCollaborators "app" "patches" true (pkgPatch "b.patch"),
        recordOf pkgCollaborators "app" "patches" false (pkgPatch "c.patch")], true⟩] ∧
    (applyPatchesForPackage pkgCollaborators
      [pkgPatch "a.patch", pkgPatch "b.patch", pkgPatch "c.patch"] "app" "patches" false false
      "work" (pkgWorld ["a.txt", "a2.txt", "b.txt", "b2.txt", "c.txt"]
        (some ⟨pkgRecords.take 2, false⟩))).world.stored =
      some ⟨[recordOf pkgCollaborators "app" "patches" true (pkgPatch "a.patch"),
        recordOf pkgCollaborators "app" "patches" true (pkgPatch "b.patch"),
        recordOf pkgCollaborators "app" "patches" false (pkgPatch "c.patch")], true⟩ ∧
    (applyPatchesForPackage pkgCollaborators
      [pkgPatch "a.patch", pkgPatch "b.patch", pkgPatch "c.patch"] "app" "patches" false false
      "work"
      (applyPatchesForPackage pkgCollaborators
        [pkgPatch "a.patch", pkgPatch "b.patch", pkgPatch "c.patch"] "app" "patches" false
        false "work" (pkgWorld ["a.txt", "a2.txt", "b.txt", "b2.txt", "c.txt"]
          (some ⟨pkgRecords.take 2, false⟩))).world).attempts.map (fun a => a.patchDetails) =
      [pkgPatch "c.patch"] :=
  applyPatchesForPackage_resumes_at_failed_patch pkgCollaborators (pkgPatch "a.patch")
    (pkgPatch "b.patch") (pkgPatch "c.patch") "app" "patches" false false "work"
    (pkgWorld ["a.txt", "a2.txt", "b.txt", "b2.txt", "c.txt"] (some ⟨pkgRecords.take 2, false⟩))
    ⟨pkgRecords.take 2, false⟩
    (recordOf pkgCollaborators "app" "patches" true (pkgPatch "a.patch"))
    (recordOf pkgCollaborators "app" "patches" true (pkgPatch "b.patch")) [] "1.0.0"
    rfl rfl ⟨rfl, rfl⟩ ⟨rfl, rfl⟩ (by simp) (by decide) (by decide) (by decide)

theorem applyPatchesForPackage_forward (c : Collaborators) (patches : List PatchDetails)
    (appPath patchDir : String) (bestEffort : Bool) (cwd : String) (w : PackageWorld)
    (already unapplied : List PatchDetails) (hmany : 1 < patches.length)
    (hcheck : (match w.stored with
      | some st => checkState c appPath patchDir st.patches [] patches
      | none => StateCheck.checked [] patches) = .checked already unapplied) :
    applyPatchesForPackage c patches appPath patchDir false bestEffort cwd w =
      if unapplied.isEmpty then ⟨.returned, w, [], []⟩
      else
        match (packageLoop c true appPath patchDir false bestEffort cwd unapplied
            ⟨w.fs, w.errors, w.warnings, already, none, none, []⟩).exited with
        | some code =>
          ⟨.exited code,
            { w with
              fs := (packageLoop c true appPath patchDir false bestEffort cwd unapplied
                ⟨w.fs, w.errors, w.warnings, already, none, none, []⟩).fs
              errors := (packageLoop c true appPath patchDir false bestEffort cwd unapplied
                ⟨w.fs, w.errors, w.warnings, already, none, none, []⟩).errors
              warnings := (packageLoop c true appPath patchDir false bestEffort cwd unapplied
                ⟨w.fs, w.errors, w.warnings, already, none, none, []⟩).warnings },
            (packageLoop c true appPath patchDir false bestEffort cwd unapplied
              ⟨w.fs, w.errors, w.warnings, already, none, none, []⟩).attempts, []⟩
        | none =>
          finalise c patches appPath patchDir false w.stored.isSome w
            (packageLoop c true appPath patchDir false bestEffort cwd unapplied
              ⟨w.fs, w.errors, w.warnings, already, none, none, []⟩) := by
  cases patches with
  | nil => simp at hmany
  | cons p ps =>
    unfold applyPatchesForPackage
    simp only [gt_iff_lt, hmany, if_true, hcheck, Bool.false_and, Bool.false_eq_true, if_false,
      decide_True]

/-- C18, as amended: a forward run on a package with several patches that has
patches left after the state check, and in which `applyPatch` does not end the
process, saves one state: the records with `didApply` true of the patches
recognised as applied and of the patches applied in this run, in order, and,
exactly when `applyPatch` returned `false` for a patch, the record of that
patch with `didApply` false together with `isRebasing` true. An error raised
while a patch is processed adds no record and leaves `isRebasing` false. -/
theorem applyPatchesForPackage_forward_state (c : Collaborators) (patches : List PatchDetails)
    (appPath patchDir : String) (bestEffort : Bool) (cwd : String) (w : PackageWorld)
    (already unapplied : List PatchDetails) (hmany : 1 < patches.length)
    (hcheck : (match w.stored with
      | some st => checkState c appPath patchDir st.patches [] patches
      | none => StateCheck.checked [] patches) = .checked already unapplied)
    (hleft : unapplied ≠ [])
    (hrunning : ∀ a ∈ (applyPatchesForPackage c patches appPath patchDir false bestEffort cwd
      w).attempts, a.outcome ≠ .exited) :
    (applyPatchesForPackage c patches appPath patchDir false bestEffort cwd w).stateWrites =
      [.save (forwardState c appPath patchDir already
        (applyPatchesForPackage c patches appPath patchDir false bestEffort cwd w).attempts)] ∧
    (applyPatchesForPackage c patches appPath patchDir false bestEffort cwd w).world.stored =
      some (forwardState c appPath patchDir already
        (applyPatchesForPackage c patches appPath patchDir false bestEffort cwd w).attempts) ∧
    ((forwardState c appPath patchDir already
        (applyPatchesForPackage c patches appPath patchDir false bestEffort cwd
          w).attempts).isRebasing = true ↔
      ∃ a ∈ (applyPatchesForPackage c patches appPath patchDir false bestEffort cwd w).attempts,
        a.outcome = .sequenceFailure) := by
  have hrun := applyPatchesForPackage_forward c patches appPath patchDir bestEffort cwd w
    already unapplied hmany hcheck
  obtain ⟨new, h1, h2, h3, h4, _⟩ := packageLoop_attempts c true appPath patchDir false
    bestEffort cwd unapplied ⟨w.fs, w.errors, w.warnings, already, none, none, []⟩ rfl rfl
  simp only [List.nil_append] at h1 h2
  have hempty : unapplied.isEmpty = false := by
    cases unapplied with
    | nil => exact absurd rfl hleft
    | cons p ps => rfl
  rw [hempty] at hrun
  simp only [Bool.false_eq_true, if_false] at hrun
  rw [hrun] at hrunning ⊢
  cases hexit : (packageLoop c true appPath patchDir false bestEffort cwd unapplied
      ⟨w.fs, w.errors, w.warnings, already, none, none, []⟩).exited with
  | some code =>
    rw [hexit] at hrunning
    simp only [h1] at hrunning
    have := h4.mpr hrunning
    rw [hexit] at this
    cases this
  | none =>
    simp only
    refine ⟨?_, ?_, ?_⟩
    · simp only [finalise, gt_iff_lt, hmany, if_true, Bool.false_eq_true, if_false,
        finalise_attempts, h1, h2, h3, forwardState]
      cases failedOf new <;> simp
    · simp only [finalise, gt_iff_lt, hmany, if_true, Bool.false_eq_true, if_false,
        finalise_attempts, h1, h2, h3, forwardState, StateWrite.perform]
      cases failedOf new <;> simp
    · rw [finalise_attempts, h1]
      simp [forwardState, failedOf]

/-- The three patches of `pkg` applied to a fresh tree without a state: the
state saved has the three records with `didApply` true. -/
theorem applyPatchesForPackage_forward_state_witness :
    (applyPatchesForPackage pkgCollaborators
      [pkgPatch "a.patch", pkgPatch "b.patch", pkgPatch "c.patch"] "app" "patches" false false
      "work" (pkgWorld [] none)).stateWrites =
      [.save (forwardState pkgCollaborators "app" "patches" []
        (applyPatchesForPackage pkgCollaborators
          [pkgPatch "a.patch", pkgPatch "b.patch", pkgPatch "c.patch"] "app" "patches" false
          false "work" (pkgWorld [] none)).attempts)] :=
  (applyPatchesForPackage_forward_state pkgCollaborators
    [pkgPatch "a.patch", pkgPatch "b.patch", pkgPatch "c.patch"] "app" "patches" false "work"
    (pkgWorld [] none) []
    [pkgPatch "a.patch", pkgPatch "b.patch", pkgPatch "c.patch"] (by decide) rfl (by simp)
    (by decide)).1

/-- C18, counterexample: a forward run of the patches `a.patch` and `b.patch`
on a tree without the directory of the package. Processing `a.patch` raises a
`PatchApplicationError`, which is caught and reported; the state saved has no
record and `isRebasing` false, and the run returns. -/
theorem applyPatchesForPackage_raised_no_trailing_record :
    (applyPatchesForPackage pkgCollaborators [pkgPatch "a.patch", pkgPatch "b.patch"] "app"
      "patches" false false "work" missingPackageWorld).attempts =
      [⟨pkgPatch "a.patch", .raised⟩] ∧
    (applyPatchesForPackage pkgCollaborators [pkgPatch "a.patch", pkgPatch "b.patch"] "app"
      "patches" false false "work" missingPackageWorld).world.errors =
      [.patchApplicationError (.notPresent "pkg" "app/node_modules/pkg" "a.patch" false)] ∧
    (applyPatchesForPackage pkgCollaborators [pkgPatch "a.patch", pkgPatch "b.patch"] "app"
      "patches" false false "work" missingPackageWorld).stateWrites = [.save ⟨[], false⟩] ∧
    (applyPatchesForPackage pkgCollaborators [pkgPatch "a.patch", pkgPatch "b.patch"] "app"
      "patches" false false "work" missingPackageWorld).world.stored = some ⟨[], false⟩ ∧
    (applyPatchesForPackage pkgCollaborators [pkgPatch "a.patch", pkgPatch "b.patch"] "app"
      "patches" false false "work" missingPackageWorld).ended = .returned := by
  decide

theorem appliedOf_length_le (attempts : List Attempt) :
    (appliedOf attempts).length ≤ attempts.length := by
  unfold appliedOf
  rw [List.length_map]
  exact List.length_filter_le _ _

theorem appliedOf_length_eq_iff :
    ∀ (new : List Attempt) (l : List PatchDetails), new.map (fun a => a.patchDetails) <+: l →
      ((appliedOf new).length = l.length ↔ new = l.map (fun p => ⟨p, .applied⟩)) := by
  intro new
  induction new with
  | nil =>
    intro l _
    cases l <;> simp [appliedOf]
  | cons a rest ih =>
    intro l hpre
    cases l with
    | nil => simp at hpre
    | cons p ps =>
      simp only [List.map_cons, List.cons_prefix_cons] at hpre
      obtain ⟨hp, hrest⟩ := hpre
      have hle := appliedOf_length_le rest
      have hlen := hrest.length_le
      rw [List.length_map] at hlen
      rw [appliedOf_cons]
      by_cases ha : a.outcome = .applied
      · simp only [ha, if_true, List.length_cons, Nat.add_right_cancel_iff, List.map_cons,
          List.cons.injEq]
        rw [ih ps hrest]
        constructor
        · intro h
          refine ⟨?_, h⟩
          cases a
          simp only at hp ha
          rw [hp, ha]
        · intro h; exact h.2
      · simp only [ha, if_false, List.length_cons, List.map_cons, List.cons.injEq]
        constructor
        · intro h; omega
        · rintro ⟨h, _⟩
          rw [h] at ha
          exact absurd rfl ha

theorem packageLoop_cons_attempts (c : Collaborators) (multiple : Bool)
    (appPath patchDir : String) (reverse bestEffort : Bool) (cwd : String) (p : PatchDetails)
    (rest : List PatchDetails) (s : LoopState) (hf : s.failedPatch = none)
    (he : s.exited = none) :
    ∃ outcome more,
      (packageLoop c multiple appPath patchDir reverse bestEffort cwd (p :: rest) s).attempts =
        s.attempts ++ ⟨p, outcome⟩ :: more := by
  unfold packageLoop
  split
  · exact ⟨.raised, [], rfl⟩
  · exact ⟨.raised, [], rfl⟩
  · split
    · obtain ⟨new, h1, _⟩ := packageLoop_attempts c multiple appPath patchDir reverse bestEffort
        cwd rest { s with attempts := s.attempts ++ [⟨p, .skipped⟩] } hf he
      exact ⟨.skipped, new, by rw [h1]; simp⟩
    · dsimp only
      split
      · exact ⟨.exited, [], rfl⟩
      · obtain ⟨new, h1, _⟩ := packageLoop_attempts c multiple appPath patchDir reverse
          bestEffort cwd rest
          { s with
            fs := (ApplyPatches.applyPatch
              (c.readPatch (patchFilePath appPath patchDir p.patchFilename))
              reverse bestEffort (some cwd) s.fs).fs
            appliedPatches := s.appliedPatches ++ [p]
            warnings := _
            attempts := s.attempts ++ [⟨p, .applied⟩] } hf he
        exact ⟨.applied, new, by rw [h1]; simp⟩
      · split
        · exact ⟨.sequenceFailure, [], rfl⟩
        · split
          · exact ⟨.brokenPatchFile, [], rfl⟩
          · exact ⟨.versionConflict, [], rfl⟩

theorem checkState_three_applied (c : Collaborators) (appPath patchDir : String)
    (A B C : PatchDetails) (rA rB rC : PatchRecord) (tail : List PatchRecord)
    (hA : rA.didApply = true ∧
      rA.patchContentHash = c.hashFile (patchFilePath appPath patchDir A.patchFilename))
    (hB : rB.didApply = true ∧
      rB.patchContentHash = c.hashFile (patchFilePath appPath patchDir B.patchFilename))
    (hC : rC.didApply = true ∧
      rC.patchContentHash = c.hashFile (patchFilePath appPath patchDir C.patchFilename))
    (htail : ∀ r, tail.head? = some r → r.didApply = false) :
    checkState c appPath patchDir (rA :: rB :: rC :: tail) [] [A, B, C] =
      .checked [A, B, C] [] := by
  cases tail with
  | nil => simp [checkState, hA, hB, hC]
  | cons r rest =>
    have hr := htail r rfl
    simp [checkState, hA, hB, hC, hr]

theorem finalise_reverse_cleared (c : Collaborators) (patches : List PatchDetails)
    (appPath patchDir : String) (w : PackageWorld) (loop : LoopState) (st : PatchApplicationState)
    (hmany : 1 < patches.length) (hstored : w.stored = some st) :
    ((finalise c patches appPath patchDir true true w loop).stateWrites = [.clear] ↔
      loop.appliedPatches.length = patches.length) ∧
    ((finalise c patches appPath patchDir true true w loop).world.stored = none ↔
      loop.appliedPatches.length = patches.length) := by
  unfold finalise
  simp only [gt_iff_lt, hmany, if_true, Bool.not_true, Bool.false_eq_true, if_false]
  by_cases hall : loop.appliedPatches.length = patches.length
  · simp [hall, StateWrite.perform]
  · simp only [hall, if_false, iff_false]
    split
    · simp [hstored]
    · split
      · simp [hstored]
      · simp [StateWrite.perform]

/-- C19: in reverse mode, for the patches `[A, B, C]` and a state whose first
three records have `didApply` true and the digests of the patch files (the next
record, if any, has `didApply` false), the iterations of the package loop
process a prefix of `C, B, A` that starts with `C`; the state is cleared, by
one call of `clearPatchApplicationState`, if and only if the three iterations
end with `applyPatch` returning `true`. -/
theorem applyPatchesForPackage_reverse_order (c : Collaborators) (A B C : PatchDetails)
    (appPath patchDir : String) (bestEffort : Bool) (cwd : String) (w : PackageWorld)
    (st : PatchApplicationState) (rA rB rC : PatchRecord) (tail : List PatchRecord)
    (hstored : w.stored = some st) (hrecords : st.patches = rA :: rB :: rC :: tail)
    (hA : rA.didApply = true ∧
      rA.patchContentHash = c.hashFile (patchFilePath appPath patchDir A.patchFilename))
    (hB : rB.didApply = true ∧
      rB.patchContentHash = c.hashFile (patchFilePath appPath patchDir B.patchFilename))
    (hC : rC.didApply = true ∧
      rC.patchContentHash = c.hashFile (patchFilePath appPath patchDir C.patchFilename))
    (htail : ∀ r, tail.head? = some r → r.didApply = false) :
    (applyPatchesForPackage c [A, B, C] appPath patchDir true bestEffort cwd w).attempts.map
      (fun a => a.patchDetails) <+: [C, B, A] ∧
    (applyPatchesForPackage c [A, B, C] appPath patchDir true bestEffort cwd
      w).attempts.head?.map (fun a => a.patchDetails) = some C ∧
    ((applyPatchesForPackage c [A, B, C] appPath patchDir true bestEffort cwd w).stateWrites =
        [.clear] ↔
      (applyPatchesForPackage c [A, B, C] appPath patchDir true bestEffort cwd w).attempts =
        [⟨C, .applied⟩, ⟨B, .applied⟩, ⟨A, .applied⟩]) ∧
    ((applyPatchesForPackage c [A, B, C] appPath patchDir true bestEffort cwd w).world.stored =
        none ↔
      (applyPatchesForPackage c [A, B, C] appPath patchDir true bestEffort cwd w).attempts =
        [⟨C, .applied⟩, ⟨B, .applied⟩, ⟨A, .applied⟩]) := by
  have hcheck : checkState c appPath patchDir st.patches [] [A, B, C] =
      .checked [A, B, C] [] := by
    rw [hrecords]
    exact checkState_three_applied c appPath patchDir A B C rA rB rC tail hA hB hC htail
  have hrun := applyPatchesForPackage_checked c [A, B, C] appPath patchDir true bestEffort cwd
    w st [A, B, C] [] (by simp) hstored hcheck
  simp only [if_true, List.reverse_cons, List.reverse_nil, List.nil_append, List.cons_append,
    List.isEmpty_cons, Bool.false_eq_true, if_false] at hrun
  obtain ⟨new, h1, h2, _, h4, h5⟩ := packageLoop_attempts c true appPath patchDir true
    bestEffort cwd [C, B, A] ⟨w.fs, w.errors, w.warnings, [], none, none, []⟩ rfl rfl
  obtain ⟨outcome, more, hcons⟩ := packageLoop_cons_attempts c true appPath patchDir true
    bestEffort cwd C [B, A] ⟨w.fs, w.errors, w.warnings, [], none, none, []⟩ rfl rfl
  simp only [List.nil_append] at h1 h2 hcons
  have hiff := appliedOf_length_eq_iff new [C, B, A] h5
  rw [← h2, ← h1] at hiff
  simp only [List.map_cons, List.map_nil] at hiff
  rw [hrun]
  cases hexit : (packageLoop c true appPath patchDir true bestEffort cwd [C, B, A]
      ⟨w.fs, w.errors, w.warnings, [], none, none, []⟩).exited with
  | some code =>
    simp only
    have hnot : (packageLoop c true appPath patchDir true bestEffort cwd [C, B, A]
        ⟨w.fs, w.errors, w.warnings, [], none, none, []⟩).attempts ≠
        [⟨C, .applied⟩, ⟨B, .applied⟩, ⟨A, .applied⟩] := by
      intro hall
      rw [h1] at hall
      have hne : ∀ a ∈ new, a.outcome ≠ .exited := by
        rw [hall]
        intro a ha
        simp only [List.mem_cons, List.mem_singleton, List.not_mem_nil, or_false] at ha
        rcases ha with rfl | rfl | rfl <;> simp
      have hnone := h4.mpr hne
      rw [hexit] at hnone
      cases hnone
    refine ⟨?_, ?_, ?_, ?_⟩
    · rw [h1]; exact h5
    · rw [hcons]; rfl
    · simp [hnot]
    · simp [hnot, hstored]
  | none =>
    simp only
    rw [finalise_attempts]
    obtain ⟨hw, hs⟩ := finalise_reverse_cleared c [A, B, C] appPath patchDir w
      (packageLoop c true appPath patchDir true bestEffort cwd [C, B, A]
        ⟨w.fs, w.errors, w.warnings, [], none, none, []⟩) st (by simp) hstored
    refine ⟨?_, ?_, ?_, ?_⟩
    · rw [h1]; exact h5
    · rw [hcons]; rfl
    · rw [hw]; exact hiff
    · rw [hs]; exact hiff

/-- The three patches of `pkg` reversed on a tree where all three are applied
and recorded. -/
theorem applyPatchesForPackage_reverse_order_witness :
    (applyPatchesForPackage pkgCollaborators
      [pkgPatch "a.patch", pkgPatch "b.patch", pkgPatch "c.patch"] "app" "patches" true false
      "work" (pkgWorld ["a.txt", "a2.txt", "b.txt", "b2.txt", "c.txt", "c2.txt"]
        (some ⟨pkgRecords, false⟩))).attempts.map (fun a => a.patchDetails) <+:
      [pkgPatch "c.patch", pkgPatch "b.patch", pkgPatch "a.patch"] :=
  (applyPatchesForPackage_reverse_order pkgCollaborators (pkgPatch "a.patch")
    (pkgPatch "b.patch") (pkgPatch "c.patch") "app" "patches" false "work"
    (pkgWorld ["a.txt", "a2.txt", "b.txt", "b2.txt", "c.txt", "c2.txt"]
      (some ⟨pkgRecords, false⟩))
    ⟨pkgRecords, false⟩
    (recordOf pkgCollaborators "app" "patches" true (pkgPatch "a.patch"))
    (recordOf pkgCollaborators "app" "patches" true (pkgPatch "b.patch"))
    (recordOf pkgCollaborators "app" "patches" true (pkgPatch "c.patch")) []
    rfl rfl ⟨rfl, rfl⟩ ⟨rfl, rfl⟩ ⟨rfl, rfl⟩ (by simp)).1

/-- C20, as amended: in reverse mode, for distinct patches `[A, B, C]` all
recorded as applied, when the reversal of `C` succeeds and the reversal of `B`
fails (`applyPatch` returns `false`, or an error is raised), the state saved
has exactly two records, for `A` and for `B`, both with `didApply` true, and
`isRebasing` false: the patches before the last reversed one. -/
theorem applyPatchesForPackage_reverse_failure_state (c : Collaborators) (A B C : PatchDetails)
    (appPath patchDir : String) (bestEffort : Bool) (cwd : String) (w : PackageWorld)
    (st : PatchApplicationState) (rA rB rC : PatchRecord) (tail : List PatchRecord)
    (outcome : Outcome)
    (hstored : w.stored = some st) (hrecords : st.patches = rA :: rB :: rC :: tail)
    (hA : rA.didApply = true ∧
      rA.patchContentHash = c.hashFile (patchFilePath appPath patchDir A.patchFilename))
    (hB : rB.didApply = true ∧
      rB.patchContentHash = c.hashFile (patchFilePath appPath patchDir B.patchFilename))
    (hC : rC.didApply = true ∧
      rC.patchContentHash = c.hashFile (patchFilePath appPath patchDir C.patchFilename))
    (htail : ∀ r, tail.head? = some r → r.didApply = false)
    (hAC : A ≠ C) (hBC : B ≠ C)
    (hattempts : (applyPatchesForPackage c [A, B, C] appPath patchDir true bestEffort cwd
      w).attempts = [⟨C, .applied⟩, ⟨B, outcome⟩])
    (hfailed : outcome = .sequenceFailure ∨ outcome = .raised) :
    (applyPatchesForPackage c [A, B, C] appPath patchDir true bestEffort cwd w).stateWrites =
      [.save ⟨[recordOf c appPath patchDir true A, recordOf c appPath patchDir true B],
        false⟩] ∧
    (applyPatchesForPackage c [A, B, C] appPath patchDir true bestEffort cwd w).world.stored =
      some ⟨[recordOf c appPath patchDir true A, recordOf c appPath patchDir true B],
        false⟩ := by
  have hcheck : checkState c appPath patchDir st.patches [] [A, B, C] =
      .checked [A, B, C] [] := by
    rw [hrecords]
    exact checkState_three_applied c appPath patchDir A B C rA rB rC tail hA hB hC htail
  have hrun := applyPatchesForPackage_checked c [A, B, C] appPath patchDir true bestEffort cwd
    w st [A, B, C] [] (by simp) hstored hcheck
  have hatt := applyPatchesForPackage_attempts c [A, B, C] appPath patchDir true bestEffort cwd
    w st [A, B, C] [] (by simp) hstored hcheck
  simp only [if_true, List.reverse_cons, List.reverse_nil, List.nil_append, List.cons_append,
    List.isEmpty_cons, Bool.false_eq_true, if_false] at hrun hatt
  obtain ⟨new, h1, h2, _, h4, _⟩ := packageLoop_attempts c true appPath patchDir true
    bestEffort cwd [C, B, A] ⟨w.fs, w.errors, w.warnings, [], none, none, []⟩ rfl rfl
  simp only [List.nil_append] at h1 h2
  rw [hatt, h1] at hattempts
  subst hattempts
  have happlied : appliedOf [⟨C, .applied⟩, ⟨B, outcome⟩] = [C] := by
    rcases hfailed with rfl | rfl <;> simp [appliedOf]
  have hexit : (packageLoop c true appPath patchDir true bestEffort cwd [C, B, A]
      ⟨w.fs, w.errors, w.warnings, [], none, none, []⟩).exited = none := by
    rw [h4]
    intro a ha
    simp only [List.mem_cons, List.mem_singleton, List.not_mem_nil, or_false] at ha
    rcases ha with rfl | rfl
    · simp
    · rcases hfailed with rfl | rfl <;> simp
  rw [happlied] at h2
  have hindex : List.indexOf C [A, B, C] = 2 := by
    simp [List.indexOf_cons, hAC, hBC]
  rw [hrun, hexit]
  simp only [finalise, h2, hindex]
  simp [StateWrite.perform, hindex]

/-- The three patches of `pkg` reversed on a tree where `b2.txt` is missing:
the reversal of `c.patch` succeeds and that of `b.patch` fails. -/
theorem applyPatchesForPackage_reverse_failure_state_witness :
    (applyPatchesForPackage pkgCollaborators
      [pkgPatch "a.patch", pkgPatch "b.patch", pkgPatch "c.patch"] "app" "patches" true false
      "work" (pkgWorld ["a.txt", "a2.txt", "b.txt", "c.txt", "c2.txt"]
        (some ⟨pkgRecords, false⟩))).stateWrites =
      [.save ⟨[recordOf pkgCollaborators "app" "patches" true (pkgPatch "a.patch"),
        recordOf pkgCollaborators "app" "patches" true (pkgPatch "b.patch")], false⟩] :=
  (applyPatchesForPackage_reverse_failure_state pkgCollaborators (pkgPatch "a.patch")
    (pkgPatch "b.patch") (pkgPatch "c.patch") "app" "patches" false "work"
    (pkgWorld ["a.txt", "a2.txt", "b.txt", "c.txt", "c2.txt"] (some ⟨pkgRecords, false⟩))
    ⟨pkgRecords, false⟩
    (recordOf pkgCollaborators "app" "patches" true (pkgPatch "a.patch"))
    (recordOf pkgCollaborators "app" "patches" true (pkgPatch "b.patch"))
    (recordOf pkgCollaborators "app" "patches" true (pkgPatch "c.patch")) [] .sequenceFailure
    rfl rfl ⟨rfl, rfl⟩ ⟨rfl, rfl⟩ ⟨rfl, rfl⟩ (by simp) (by decide) (by decide) (by decide)
    (Or.inl rfl)).1

/-- C20, counterexample: the patches `a.patch`, `b.patch` and `c.patch`, all
recorded as applied, reversed on a tree where `b2.txt` is missing. The reversal
of `c.patch` succeeds, the reversal of `b.patch` fails, and the state left has
two records with `didApply` true, for `a.patch` and for `b.patch`. -/
theorem applyPatchesForPackage_reverse_keeps_failed_patch :
    (applyPatchesForPackage pkgCollaborators
      [pkgPatch "a.patch", pkgPatch "b.patch", pkgPatch "c.patch"] "app" "patches" true false
      "work" (pkgWorld ["a.txt", "a2.txt", "b.txt", "c.txt", "c2.txt"]
        (some ⟨pkgRecords, false⟩))).attempts =
      [⟨pkgPatch "c.patch", .applied⟩, ⟨pkgPatch "b.patch", .sequenceFailure⟩] ∧
    ((applyPatchesForPackage pkgCollaborators
      [pkgPatch "a.patch", pkgPatch "b.patch", pkgPatch "c.patch"] "app" "patches" true false
      "work" (pkgWorld ["a.txt", "a2.txt", "b.txt", "c.txt", "c2.txt"]
        (some ⟨pkgRecords, false⟩))).world.stored.map (fun state => state.patches)) =
      some [⟨"a.patch", "sha256 of app/patches/a.patch", true⟩,
        ⟨"b.patch", "sha256 of app/patches/b.patch", true⟩] := by
  decide

/-! ## The package loop and the resolver -/

theorem packageLoop_attempts_stop (c : Collaborators) (multiple : Bool)
    (appPath patchDir : String) (reverse bestEffort : Bool) (cwd : String) :
    ∀ (input : List PatchDetails) (s : LoopState),
      ∃ new : List Attempt,
        (packageLoop c multiple appPath patchDir reverse bestEffort cwd input s).attempts =
          s.attempts ++ new ∧
        new.map (fun a => a.patchDetails) <+: input ∧
        (∀ a ∈ new.dropLast, a.outcome = .applied ∨ a.outcome = .skipped) ∧
        ((∀ a ∈ new, a.outcome = .applied ∨ a.outcome = .skipped) →
          new.length = input.length) := by
  intro input
  induction input with
  | nil =>
    intro s
    exact ⟨[], by simp [packageLoop]⟩
  | cons patchDetails rest ih =>
    intro s
    unfold packageLoop
    split
    · exact ⟨[⟨patchDetails, .raised⟩], by simp [List.cons_prefix_cons]⟩
    · exact ⟨[⟨patchDetails, .raised⟩], by simp [List.cons_prefix_cons]⟩
    · split
      · obtain ⟨new, h1, h2, h3, h4⟩ := ih
          { s with attempts := s.attempts ++ [⟨patchDetails, .skipped⟩] }
        refine ⟨⟨patchDetails, .skipped⟩ :: new, ?_, ?_, ?_, ?_⟩
        · rw [h1]; simp
        · simpa [List.cons_prefix_cons] using h2
        · intro a ha
          cases new with
          | nil => simp at ha
          | cons b more =>
            rw [List.dropLast_cons₂, List.mem_cons] at ha
            rcases ha with rfl | ha
            · exact Or.inr rfl
            · exact h3 a ha
        · intro hall
          simp only [List.length_cons, Nat.add_right_cancel_iff]
          exact h4 (fun a ha => hall a (List.mem_cons_of_mem _ ha))
      · dsimp only
        split
        · exact ⟨[⟨patchDetails, .exited⟩], by simp [List.cons_prefix_cons]⟩
        · obtain ⟨new, h1, h2, h3, h4⟩ := ih
            { s with
              fs := (ApplyPatches.applyPatch
                (c.readPatch (patchFilePath appPath patchDir patchDetails.patchFilename))
                reverse bestEffort (some cwd) s.fs).fs
              appliedPatches := s.appliedPatches ++ [patchDetails]
              warnings := _
              attempts := s.attempts ++ [⟨patchDetails, .applied⟩] }
          refine ⟨⟨patchDetails, .applied⟩ :: new, ?_, ?_, ?_, ?_⟩
          · rw [h1]; simp
          · simpa [List.cons_prefix_cons] using h2
          · intro a ha
            cases new with
            | nil => simp at ha
            | cons b more =>
              rw [List.dropLast_cons₂, List.mem_cons] at ha
              rcases ha with rfl | ha
              · exact Or.inl rfl
              · exact h3 a ha
          · intro hall
            simp only [List.length_cons, Nat.add_right_cancel_iff]
            exact h4 (fun a ha => hall a (List.mem_cons_of_mem _ ha))
        · split
          · exact ⟨[⟨patchDetails, .sequenceFailure⟩], by simp [List.cons_prefix_cons]⟩
          · split
            · exact ⟨[⟨patchDetails, .brokenPatchFile⟩], by simp [List.cons_prefix_cons]⟩
            · exact ⟨[⟨patchDetails, .versionConflict⟩], by simp [List.cons_prefix_cons]⟩

theorem applyPatchesForPackage_attempts_loop (c : Collaborators) (patches : List PatchDetails)
    (appPath patchDir : String) (reverse bestEffort : Bool) (cwd : String) (w : PackageWorld) :
    (applyPatchesForPackage c patches appPath patchDir reverse bestEffort cwd w).attempts = [] ∨
    ∃ (input : List PatchDetails) (start : LoopState), start.attempts = [] ∧
      (applyPatchesForPackage c patches appPath patchDir reverse bestEffort cwd w).attempts =
        (packageLoop c (decide (patches.length > 1)) appPath patchDir reverse bestEffort cwd
          input start).attempts := by
  cases patches with
  | nil => exact Or.inl rfl
  | cons p ps =>
    unfold applyPatchesForPackage
    dsimp only
    generalize (if (p :: ps).length > 1 then w.stored else none) = state
    generalize (match state with
      | some state => checkState c appPath patchDir state.patches [] (p :: ps)
      | none => StateCheck.checked [] (p :: ps)) = check
    cases check with
    | typeError => exact Or.inl rfl
    | exit => exact Or.inl rfl
    | checked applied unapplied =>
      dsimp only
      generalize (if (reverse && state.isSome) = true then applied.reverse else unapplied) =
        input
      generalize (if (reverse && state.isSome) = true then [] else applied) = start
      cases input with
      | nil => exact Or.inl rfl
      | cons q qs =>
        simp only [List.isEmpty_cons, Bool.false_eq_true, if_false]
        split
        · exact Or.inr ⟨_, _, rfl, rfl⟩
        · exact Or.inr ⟨_, _, rfl, by rw [finalise_attempts]⟩

/-- C21: in the package loop, an error raised while the installed version of a
patch is resolved (a `PatchApplicationError` or any other error) and a call of
`applyPatch` that returns `false` each end the loop with the iteration of that
patch as the last one; a patch for which the resolver answers a falsy version
(dev-only in production) is skipped and the loop goes on with the patches
that follow. In every run of `applyPatchesForPackage`, each iteration but the
last one ended with the patch applied or skipped, so no patch is attempted
after a failed one. -/
theorem packageLoop_stops_at_failure (c : Collaborators) (multiple : Bool)
    (appPath patchDir : String) (reverse bestEffort : Bool) (cwd : String) (p : PatchDetails)
    (rest : List PatchDetails) (s : LoopState) :
    (∀ thrown, getInstalledPackageVersion c s.fs appPath p.path p.pathSpecifier
        (p.isDevOnly || (c.production && c.packageIsDevDependency appPath p))
        p.patchFilename = .error thrown →
      (packageLoop c multiple appPath patchDir reverse bestEffort cwd (p :: rest) s).attempts =
        s.attempts ++ [⟨p, .raised⟩]) ∧
    (∀ installed, getInstalledPackageVersion c s.fs appPath p.path p.pathSpecifier
        (p.isDevOnly || (c.production && c.packageIsDevDependency appPath p))
        p.patchFilename = .ok installed →
      isFalsy installed = false →
      (ApplyPatches.applyPatch (c.readPatch (patchFilePath appPath patchDir p.patchFilename))
        reverse bestEffort (some cwd) s.fs).completion = .returned false →
      ∃ outcome,
        (packageLoop c multiple appPath patchDir reverse bestEffort cwd (p :: rest)
          s).attempts = s.attempts ++ [⟨p, outcome⟩] ∧
        (outcome = .sequenceFailure ∨ outcome = .brokenPatchFile ∨
          outcome = .versionConflict)) ∧
    (∀ installed, getInstalledPackageVersion c s.fs appPath p.path p.pathSpecifier
        (p.isDevOnly || (c.production && c.packageIsDevDependency appPath p))
        p.patchFilename = .ok installed →
      isFalsy installed = true →
      packageLoop c multiple appPath patchDir reverse bestEffort cwd (p :: rest) s =
        packageLoop c multiple appPath patchDir reverse bestEffort cwd rest
          { s with attempts := s.attempts ++ [⟨p, .skipped⟩] }) ∧
    (∀ (patches : List PatchDetails) (w : PackageWorld),
      ∀ a ∈ (applyPatchesForPackage c patches appPath patchDir reverse bestEffort cwd
        w).attempts.dropLast, a.outcome = .applied ∨ a.outcome = .skipped) := by
  refine ⟨?_, ?_, ?_, ?_⟩
  · intro thrown hthrown
    unfold packageLoop
    rw [hthrown]
    cases thrown <;> rfl
  · intro installed hversion htruthy hfalse
    unfold packageLoop
    simp only [hversion, htruthy, Bool.false_eq_true, if_false, hfalse]
    by_cases hm : multiple = true
    · exact ⟨.sequenceFailure, by simp [hm], Or.inl rfl⟩
    · by_cases hv : installed = some p.version
      · exact ⟨.brokenPatchFile, by simp [hm, hv], Or.inr (Or.inl rfl)⟩
      · exact ⟨.versionConflict, by simp [hm, hv], Or.inr (Or.inr rfl)⟩
  · intro installed hversion hfalsy
    conv => lhs; unfold packageLoop
    simp only [hversion, hfalsy, if_true]
  · intro patches w a ha
    rcases applyPatchesForPackage_attempts_loop c patches appPath patchDir reverse bestEffort
      cwd w with hnil | ⟨input, start, hstart, hloop⟩
    · rw [hnil] at ha; simp at ha
    · obtain ⟨new, h1, _, h3, _⟩ := packageLoop_attempts_stop c (decide (patches.length > 1))
        appPath patchDir reverse bestEffort cwd input start
      rw [hloop, h1, hstart, List.nil_append] at ha
      exact h3 a ha

/-- The first of two patches of `pkg` on a tree without the directory of the
package: the resolver raises, and the loop ends with this iteration. -/
theorem packageLoop_stops_at_failure_witness :
    (packageLoop pkgCollaborators true "app" "patches" false false "work"
      (pkgPatch "a.patch" :: [pkgPatch "b.patch"])
      ⟨emptyFs, [], [], [], none, none, []⟩).attempts =
      [] ++ [⟨pkgPatch "a.patch", .raised⟩] :=
  (packageLoop_stops_at_failure pkgCollaborators true "app" "patches" false false "work"
    (pkgPatch "a.patch") [pkgPatch "b.patch"] ⟨emptyFs, [], [], [], none, none, []⟩).1
    (.patchApplicationError (.notPresent "pkg" "app/node_modules/pkg" "a.patch" false))
    (by decide)

/-- C22: an iteration of the package loop in which the installed version is
resolved and `applyPatch` returns ends in exactly one of four ways. Returned
`true`: the patch is appended to `appliedPatches`, a version-mismatch warning
is appended iff the installed version differs from the version of the patch,
`errors` is unchanged and the loop goes on. Returned `false` with several
patches: `failedPatch` is the patch, `errors` is unchanged. Returned `false`
with one patch of the installed version: one broken-patch error is appended.
Returned `false` with one patch of another version: one version-conflict error
is appended. -/
theorem packageLoop_four_outcomes (c : Collaborators) (multiple : Bool)
    (appPath patchDir : String) (reverse bestEffort : Bool) (cwd : String) (p : PatchDetails)
    (rest : List PatchDetails) (s : LoopState) (installed : String) (value : Bool)
    (hversion : getInstalledPackageVersion c s.fs appPath p.path p.pathSpecifier
      (p.isDevOnly || (c.production && c.packageIsDevDependency appPath p)) p.patchFilename =
      .ok (some installed))
    (hinstalled : installed ≠ "")
    (hreturned : (ApplyPatches.applyPatch
      (c.readPatch (patchFilePath appPath patchDir p.patchFilename)) reverse bestEffort
      (some cwd) s.fs).completion = .returned value) :
    (value = true →
      packageLoop c multiple appPath patchDir reverse bestEffort cwd (p :: rest) s =
        packageLoop c multiple appPath patchDir reverse bestEffort cwd rest
          { s with
            fs := (ApplyPatches.applyPatch
              (c.readPatch (patchFilePath appPath patchDir p.patchFilename)) reverse bestEffort
              (some cwd) s.fs).fs
            appliedPatches := s.appliedPatches ++ [p]
            warnings :=
              if installed ≠ p.version then
                s.warnings ++ [⟨p.name, installed, p.version, p.pathSpecifier, p.path⟩]
              else s.warnings
            attempts := s.attempts ++ [⟨p, .applied⟩] }) ∧
    (value = false → multiple = true →
      packageLoop c multiple appPath patchDir reverse bestEffort cwd (p :: rest) s =
        { s with
          fs := (ApplyPatches.applyPatch
            (c.readPatch (patchFilePath appPath patchDir p.patchFilename)) reverse bestEffort
            (some cwd) s.fs).fs
          failedPatch := some p
          attempts := s.attempts ++ [⟨p, .sequenceFailure⟩] }) ∧
    (value = false → multiple = false → installed = p.version →
      packageLoop c multiple appPath patchDir reverse bestEffort cwd (p :: rest) s =
        { s with
          fs := (ApplyPatches.applyPatch
            (c.readPatch (patchFilePath appPath patchDir p.patchFilename)) reverse bestEffort
            (some cwd) s.fs).fs
          errors := s.errors ++ [.brokenPatchFile p.name p.patchFilename p.pathSpecifier p.path]
          attempts := s.attempts ++ [⟨p, .brokenPatchFile⟩] }) ∧
    (value = false → multiple = false → installed ≠ p.version →
      packageLoop c multiple appPath patchDir reverse bestEffort cwd (p :: rest) s =
        { s with
          fs := (ApplyPatches.applyPatch
            (c.readPatch (patchFilePath appPath patchDir p.patchFilename)) reverse bestEffort
            (some cwd) s.fs).fs
          errors := s.errors ++ [.patchApplicationFailure p.name installed p.version
            p.patchFilename p.path p.pathSpecifier]
          attempts := s.attempts ++ [⟨p, .versionConflict⟩] }) := by
  have hfalsy : isFalsy (some installed) = false := by simp [isFalsy, hinstalled]
  refine ⟨?_, ?_, ?_, ?_⟩
  · intro hv
    subst hv
    conv => lhs; unfold packageLoop
    simp only [hversion, hfalsy, Bool.false_eq_true, if_false, hreturned, ne_eq,
      Option.some.injEq, Option.getD_some]
  · intro hv hm
    subst hv
    unfold packageLoop
    simp only [hversion, hfalsy, Bool.false_eq_true, if_false, hreturned, hm, if_true]
  · intro hv hm hsame
    subst hv
    subst hsame
    unfold packageLoop
    simp only [hversion, hfalsy, Bool.false_eq_true, if_false, hreturned, hm, if_true]
  · intro hv hm hdiff
    subst hv
    unfold packageLoop
    simp only [hversion, hfalsy, Bool.false_eq_true, if_false, hreturned, hm,
      Option.some.injEq, hdiff, Option.getD_some]

/-- The patch `a.patch` of `pkg` on a fresh tree: `applyPatch` returns `true`,
the patch is appended to `appliedPatches`, and no warning is appended because
the installed version is the version of the patch. -/
theorem packageLoop_four_outcomes_witness :
    packageLoop pkgCollaborators false "app" "patches" false false "work"
        (pkgPatch "a.patch" :: []) ⟨(pkgWorld [] none).fs, [], [], [], none, none, []⟩ =
      packageLoop pkgCollaborators false "app" "patches" false false "work" []
        { (⟨(pkgWorld [] none).fs, [], [], [], none, none, []⟩ : LoopState) with
          fs := (ApplyPatches.applyPatch
            (pkgCollaborators.readPatch (patchFilePath "app" "patches"
              (pkgPatch "a.patch").patchFilename)) false false (some "work")
            (pkgWorld [] none).fs).fs
          appliedPatches := [] ++ [pkgPatch "a.patch"]
          warnings :=
            if "1.0.0" ≠ (pkgPatch "a.patch").version then
              [] ++ [⟨(pkgPatch "a.patch").name, "1.0.0", (pkgPatch "a.patch").version,
                (pkgPatch "a.patch").pathSpecifier, (pkgPatch "a.patch").path⟩]
            else []
          attempts := [] ++ [⟨pkgPatch "a.patch", .applied⟩] } :=
  (packageLoop_four_outcomes pkgCollaborators false "app" "patches" false false "work"
    (pkgPatch "a.patch") [] ⟨(pkgWorld [] none).fs, [], [], [], none, none, []⟩ "1.0.0" true
    (by decide) (by decide) (by decide)).1 rfl

/-- C23: `getInstalledPackageVersion` returns `null` if and only if the
package directory does not exist, the install is a production install and the
package is dev-only; when the directory is missing otherwise it raises a
`PatchApplicationError`; when the directory exists and `package.json` is read,
it returns the version normalised by `semver.valid`, or raises a
`PatchApplicationError` when `semver.valid` rejects the version. When the
resolver returns `null` for the first patch, the package loop goes on with the
next patches with the file tree, `errors`, `warnings`, `appliedPatches` and
`failedPatch` as they were. -/
theorem getInstalledPackageVersion_absent_iff (c : Collaborators) (fs : FileSystem)
    (appPath path pathSpecifier : String) (isDevOnly : Bool) (patchFilename : String) :
    (getInstalledPackageVersion c fs appPath path pathSpecifier isDevOnly patchFilename =
        .ok none ↔
      existsSync fs (pathJoin appPath path) = false ∧ c.production = true ∧
        isDevOnly = true) ∧
    (existsSync fs (pathJoin appPath path) = false →
      ¬ (c.production = true ∧ isDevOnly = true) →
      ∃ error, getInstalledPackageVersion c fs appPath path pathSpecifier isDevOnly
        patchFilename = .error (.patchApplicationError error)) ∧
    (existsSync fs (pathJoin appPath path) = true →
      ∀ version, c.packageJsonVersion (pathJoin (pathJoin appPath path) "package.json") =
        .ok version →
      (∀ result, c.semverValid version = some result →
        getInstalledPackageVersion c fs appPath path pathSpecifier isDevOnly patchFilename =
          .ok (some result)) ∧
      (c.semverValid version = none →
        ∃ error, getInstalledPackageVersion c fs appPath path pathSpecifier isDevOnly
          patchFilename = .error (.patchApplicationError error))) ∧
    (∀ (multiple reverse bestEffort : Bool) (patchDir cwd : String) (p : PatchDetails)
      (rest : List PatchDetails) (s : LoopState),
      getInstalledPackageVersion c s.fs appPath p.path p.pathSpecifier
        (p.isDevOnly || (c.production && c.packageIsDevDependency appPath p))
        p.patchFilename = .ok none →
      ∃ next : LoopState,
        packageLoop c multiple appPath patchDir reverse bestEffort cwd (p :: rest) s =
          packageLoop c multiple appPath patchDir reverse bestEffort cwd rest next ∧
        next.fs = s.fs ∧ next.errors = s.errors ∧ next.warnings = s.warnings ∧
        next.appliedPatches = s.appliedPatches ∧ next.failedPatch = s.failedPatch ∧
        next.attempts = s.attempts ++ [⟨p, .skipped⟩]) := by
  refine ⟨?_, ?_, ?_, ?_⟩
  · cases hexists : existsSync fs (pathJoin appPath path)
    · cases hprod : c.production <;> cases isDevOnly <;>
        simp [getInstalledPackageVersion, hexists, hprod]
    · cases hread : c.packageJsonVersion (pathJoin (pathJoin appPath path) "package.json") with
      | error e => simp [getInstalledPackageVersion, hexists, hread]
      | ok version =>
        cases hvalid : c.semverValid version <;>
          simp [getInstalledPackageVersion, hexists, hread, hvalid]
  · intro hmissing hnot
    cases hprod : c.production <;> cases hdev : isDevOnly
    · exact ⟨_, by simp [getInstalledPackageVersion, hmissing, hprod]; rfl⟩
    · exact ⟨_, by simp [getInstalledPackageVersion, hmissing, hprod]; rfl⟩
    · exact ⟨_, by simp [getInstalledPackageVersion, hmissing, hprod]; rfl⟩
    · exact absurd ⟨hprod, hdev⟩ hnot
  · intro hexists version hread
    constructor
    · intro result hvalid
      simp [getInstalledPackageVersion, hexists, hread, hvalid]
    · intro hinvalid
      exact ⟨_, by simp [getInstalledPackageVersion, hexists, hread, hinvalid]; rfl⟩
  · intro multiple reverse bestEffort patchDir cwd p rest s habsent
    refine ⟨{ s with attempts := s.attempts ++ [⟨p, .skipped⟩] }, ?_, rfl, rfl, rfl, rfl, rfl,
      rfl⟩
    conv => lhs; unfold packageLoop
    simp only [habsent, isFalsy, if_true]

/-- A dev-only patch in a production install on a tree without the package:
the resolver returns `null`. -/
theorem getInstalledPackageVersion_absent_iff_witness :
    getInstalledPackageVersion productionCollaborators emptyFs "app" devOnlyPatch.path
      devOnlyPatch.pathSpecifier true devOnlyPatch.patchFilename = .ok none :=
  (getInstalledPackageVersion_absent_iff productionCollaborators emptyFs "app"
    devOnlyPatch.path devOnlyPatch.pathSpecifier true devOnlyPatch.patchFilename).1.2
    ⟨by decide, by decide, rfl⟩

/-- C28: in reverse mode, for a package with several patches whose state check
ends with the patches `applied` as applied, when the package loop makes one
iteration, for the patch `p`, and it fails (`applyPatch` returns `false`, or an
error is raised), `p` is the last applied patch, `applyPatchesForPackage`
raises `unexpected state: failed to find last reversed patch in original
patches array`, and the state is neither cleared nor saved. -/
theorem applyPatchesForPackage_reverse_first_failure (c : Collaborators)
    (patches : List PatchDetails) (appPath patchDir : String) (bestEffort : Bool)
    (cwd : String) (w : PackageWorld) (st : PatchApplicationState)
    (applied unapplied : List PatchDetails) (p : PatchDetails) (outcome : Outcome)
    (hmany : 1 < patches.length) (hstored : w.stored = some st)
    (hcheck : checkState c appPath patchDir st.patches [] patches = .checked applied unapplied)
    (hattempts : (applyPatchesForPackage c patches appPath patchDir true bestEffort cwd
      w).attempts = [⟨p, outcome⟩])
    (hfailed : outcome = .sequenceFailure ∨ outcome = .raised) :
    applied.getLast? = some p ∧
    (applyPatchesForPackage c patches appPath patchDir true bestEffort cwd w).ended =
      .threw "unexpected state: failed to find last reversed patch in original patches array" ∧
    (applyPatchesForPackage c patches appPath patchDir true bestEffort cwd w).stateWrites =
      [] ∧
    (applyPatchesForPackage c patches appPath patchDir true bestEffort cwd w).world.stored =
      w.stored := by
  have hrun := applyPatchesForPackage_checked c patches appPath patchDir true bestEffort cwd
    w st applied unapplied hmany hstored hcheck
  have hatt := applyPatchesForPackage_attempts c patches appPath patchDir true bestEffort cwd
    w st applied unapplied hmany hstored hcheck
  simp only [if_true] at hrun hatt
  obtain ⟨new, h1, h2, _, h4, h5⟩ := packageLoop_attempts c true appPath patchDir true
    bestEffort cwd applied.reverse ⟨w.fs, w.errors, w.warnings, [], none, none, []⟩ rfl rfl
  simp only [List.nil_append] at h1 h2
  rw [hatt, h1] at hattempts
  subst hattempts
  have happlied : appliedOf [⟨p, outcome⟩] = [] := by
    rcases hfailed with rfl | rfl <;> simp [appliedOf]
  have hexit : (packageLoop c true appPath patchDir true bestEffort cwd applied.reverse
      ⟨w.fs, w.errors, w.warnings, [], none, none, []⟩).exited = none := by
    rw [h4]
    intro a ha
    simp only [List.mem_singleton] at ha
    subst ha
    rcases hfailed with rfl | rfl <;> simp
  rw [happlied] at h2
  simp only [List.map_cons, List.map_nil] at h5
  obtain ⟨t, ht⟩ := h5
  have hlast : applied.getLast? = some p := by
    have hrev : applied = t.reverse ++ [p] := by
      have := congrArg List.reverse ht
      simpa using this.symm
    rw [hrev]
    simp
  have hne : applied.reverse.isEmpty = false := by
    rw [← ht]; rfl
  have hlen : ¬ (0 = patches.length) := by omega
  rw [hrun, hne]
  simp only [Bool.false_eq_true, if_false, hexit]
  refine ⟨hlast, ?_, ?_, ?_⟩ <;>
    simp [finalise, hmany, h2, hlen]

/-- The three patches of `pkg`, all recorded as applied, reversed on a tree
where `c2.txt` is missing: the reversal of `c.patch`, the first one attempted,
fails. -/
theorem applyPatchesForPackage_reverse_first_failure_witness :
    (applyPatchesForPackage pkgCollaborators
      [pkgPatch "a.patch", pkgPatch "b.patch", pkgPatch "c.patch"] "app" "patches" true false
      "work" (pkgWorld ["a.txt", "a2.txt", "b.txt", "b2.txt", "c.txt"]
        (some ⟨pkgRecords, false⟩))).ended =
      .threw "unexpected state: failed to find last reversed patch in original patches array" :=
  (applyPatchesForPackage_reverse_first_failure pkgCollaborators
    [pkgPatch "a.patch", pkgPatch "b.patch", pkgPatch "c.patch"] "app" "patches" false "work"
    (pkgWorld ["a.txt", "a2.txt", "b.txt", "b2.txt", "c.txt"] (some ⟨pkgRecords, false⟩))
    ⟨pkgRecords, false⟩ [pkgPatch "a.patch", pkgPatch "b.patch", pkgPatch "c.patch"] []
    (pkgPatch "c.patch") .sequenceFailure (by decide) rfl (by decide) (by decide)
    (Or.inl rfl)).2.1

theorem checkState_filename_irrelevant (c : Collaborators) (appPath patchDir : String)
    (rename : PatchRecord → String) :
    ∀ (records : List PatchRecord) (applied unapplied : List PatchDetails),
      checkState c appPath patchDir
          (records.map (fun r => { r with patchFilename := rename r })) applied unapplied =
        checkState c appPath patchDir records applied unapplied := by
  intro records
  induction records with
  | nil => intro applied unapplied; rfl
  | cons r rs ih =>
    intro applied unapplied
    simp only [List.map_cons, checkState]
    split
    · rfl
    · cases unapplied with
      | nil => rfl
      | cons p ps =>
        simp only
        split
        · exact ih _ _
        · rfl

theorem checkState_typeError_iff (c : Collaborators) (appPath patchDir : String) :
    ∀ (records : List PatchRecord) (applied unapplied : List PatchDetails),
      checkState c appPath patchDir records applied unapplied = .typeError ↔
        unapplied.length < (records.takeWhile (fun r => r.didApply)).length ∧
        ∀ pair ∈ (records.takeWhile (fun r => r.didApply)).zip unapplied,
          pair.1.patchContentHash =
            c.hashFile (patchFilePath appPath patchDir pair.2.patchFilename) := by
  intro records
  induction records with
  | nil => intro applied unapplied; simp [checkState]
  | cons r rs ih =>
    intro applied unapplied
    unfold checkState
    by_cases hr : r.didApply = true
    · simp only [hr, Bool.not_true, Bool.false_eq_true, if_false, List.takeWhile_cons_of_pos,
        List.length_cons]
      cases unapplied with
      | nil => simp
      | cons p ps =>
        simp only [List.zip_cons_cons, List.mem_cons, forall_eq_or_imp, List.length_cons,
          Nat.add_lt_add_iff_right]
        by_cases hp : r.patchContentHash =
            c.hashFile (patchFilePath appPath patchDir p.patchFilename)
        · simp only [hp, if_true, true_and]
          exact ih _ _
        · simp [hp]
    · simp [hr]

/-- C30: the state check uses the records by position only: replacing the
`patchFilename` of the records changes nothing. It ends with an access to a
missing patch (a `TypeError`) exactly when the state has more leading records
with `didApply` true than the package has patch files and the digest of each
patch file equals that of the record at its position; `applyPatchesForPackage`
then raises the `TypeError`, with no patch attempted and no state written,
where a differing digest would have ended the process with code 1. -/
theorem checkState_missing_patch (c : Collaborators) (appPath patchDir : String)
    (records : List PatchRecord) (patches : List PatchDetails) :
    (∀ rename : PatchRecord → String,
      checkState c appPath patchDir
          (records.map (fun r => { r with patchFilename := rename r })) [] patches =
        checkState c appPath patchDir records [] patches) ∧
    (checkState c appPath patchDir records [] patches = .typeError ↔
      patches.length < (records.takeWhile (fun r => r.didApply)).length ∧
      ∀ pair ∈ (records.takeWhile (fun r => r.didApply)).zip patches,
        pair.1.patchContentHash =
          c.hashFile (patchFilePath appPath patchDir pair.2.patchFilename)) ∧
    (checkState c appPath patchDir records [] patches = .typeError → 1 < patches.length →
      ∀ (reverse bestEffort isRebasing : Bool) (cwd : String) (w : PackageWorld),
        w.stored = some ⟨records, isRebasing⟩ →
        (applyPatchesForPackage c patches appPath patchDir reverse bestEffort cwd w).ended =
          .threw "TypeError: Cannot read properties of undefined" ∧
        (applyPatchesForPackage c patches appPath patchDir reverse bestEffort cwd w).attempts =
          [] ∧
        (applyPatchesForPackage c patches appPath patchDir reverse bestEffort cwd
          w).stateWrites = []) := by
  refine ⟨fun rename => checkState_filename_irrelevant c appPath patchDir rename records []
    patches, checkState_typeError_iff c appPath patchDir records [] patches, ?_⟩
  intro herror hmany reverse bestEffort isRebasing cwd w hstored
  cases patches with
  | nil => simp at hmany
  | cons p ps =>
    unfold applyPatchesForPackage
    simp only [gt_iff_lt, hmany, if_true, hstored, herror]
    simp

/-- The state records `a.patch`, `b.patch` and `c.patch` as applied, and the
package has only `a.patch` and `b.patch`: the state check ends with the access
to the missing third patch. -/
theorem checkState_missing_patch_witness :
    checkState pkgCollaborators "app" "patches" pkgRecords []
      [pkgPatch "a.patch", pkgPatch "b.patch"] = .typeError :=
  (checkState_missing_patch pkgCollaborators "app" "patches" pkgRecords
    [pkgPatch "a.patch", pkgPatch "b.patch"]).2.1.2 ⟨by decide, by decide⟩

/-! ## All the packages -/

/-- C24, as amended: a run of `applyPatchesForApp` that finds at least one
patch file and in which every call of `applyPatchesForPackage` returns ends the
process; the code is 1 when there are errors and `shouldExitWithError` is set,
or when there are warnings and `shouldExitWithWarning` is set, and 0
otherwise. So a run without errors and warnings ends with code 0, a run with
warnings and no errors ends with code 0 unless `shouldExitWithWarning` is set,
and a run with an error and `shouldExitWithError` set ends with code 1. -/
theorem applyPatchesForApp_exit_code (c : Collaborators) (grouped : GroupedPatches)
    (appPath patchDir : String)
    (reverse shouldExitWithError shouldExitWithWarning bestEffort : Bool) (cwd : String)
    (w : AppWorld) (hfound : grouped.numPatchFiles ≠ 0)
    (hreturned : (packagesLoop c appPath patchDir reverse bestEffort cwd
      grouped.pathSpecifierToPatchFiles ⟨w, [], [], none⟩).ended = none) :
    (applyPatchesForApp c grouped appPath patchDir reverse shouldExitWithError
        shouldExitWithWarning bestEffort cwd w).ended =
      .exited
        (if ((applyPatchesForApp c grouped appPath patchDir reverse shouldExitWithError
              shouldExitWithWarning bestEffort cwd w).errors ≠ [] ∧
            shouldExitWithError = true) ∨
          (((applyPatchesForApp c grouped appPath patchDir reverse shouldExitWithError
              shouldExitWithWarning bestEffort cwd w).groupedWarnings ≠ [] ∨
            (applyPatchesForApp c grouped appPath patchDir reverse shouldExitWithError
              shouldExitWithWarning bestEffort cwd w).pushedWarnings ≠ []) ∧
            shouldExitWithWarning = true)
        then 1 else 0) := by
  unfold applyPatchesForApp
  simp only [hfound, if_false, hreturned]
  generalize (packagesLoop c appPath patchDir reverse bestEffort cwd
    grouped.pathSpecifierToPatchFiles ⟨w, [], [], none⟩).errors = errors
  generalize (packagesLoop c appPath patchDir reverse bestEffort cwd
    grouped.pathSpecifierToPatchFiles ⟨w, [], [], none⟩).pushedWarnings = pushed
  cases errors <;> cases pushed <;> cases hg : grouped.warnings <;>
    cases shouldExitWithError <;> cases shouldExitWithWarning <;> simp

/-- One package whose patch applies: no error, no warning, code 0. -/
theorem applyPatchesForApp_exit_code_witness :
    (applyPatchesForApp pkgCollaborators onePackage "app" "patches" false true true false
      "work" ⟨(pkgWorld [] none).fs, fun _ => none⟩).ended = .exited 0 :=
  applyPatchesForApp_exit_code pkgCollaborators onePackage "app" "patches" false true true
    false "work" ⟨(pkgWorld [] none).fs, fun _ => none⟩ (by decide) (by decide)

/-- C24, counterexample: one package whose directory is missing. The run
accumulates one error, and with `shouldExitWithError` not set it ends the
process with code 0. -/
theorem applyPatchesForApp_error_exit_zero :
    (applyPatchesForApp pkgCollaborators onePackage "app" "patches" false false false false
      "work" ⟨emptyFs, fun _ => none⟩).errors =
      [.patchApplicationError (.notPresent "pkg" "app/node_modules/pkg" "a.patch" false)] ∧
    (applyPatchesForApp pkgCollaborators onePackage "app" "patches" false false false false
      "work" ⟨emptyFs, fun _ => none⟩).ended = .exited 0 := by
  decide

/-! ## The reads of evaluateHunk -/

theorem matchLines_append_full (fileLines : List String) (first second : List String) :
    ∀ (contextIndex : Int) (reads : List Int),
      matchLines fileLines contextIndex (first ++ second) reads =
        match matchLines fileLines contextIndex first reads with
        | (reads, .ok (some cursor)) => matchLines fileLines cursor second reads
        | other => other := by
  induction first with
  | nil => intro ci r; simp [matchLines]
  | cons line rest ih =>
    intro ci r
    simp only [List.cons_append, matchLines]
    cases hj : jsIndex fileLines ci with
    | none => simp
    | some o =>
      simp only
      by_cases hl : linesAreEqual o line = true
      · simp only [hl, Bool.not_true, Bool.false_eq_true, if_false]
        exact ih _ _
      · simp [hl]

theorem matchLines_reads_range (fileLines : List String) (lines : List String) :
    ∀ (contextIndex : Int) (reads : List Int) (i : Int),
      i ∈ (matchLines fileLines contextIndex lines reads).1 →
      i ∈ reads ∨ (contextIndex ≤ i ∧ i < contextIndex + lines.length) := by
  induction lines with
  | nil => intro ci r i h; simp [matchLines] at h; exact Or.inl h
  | cons line rest ih =>
    intro ci r i h
    simp only [matchLines] at h
    simp only [List.length_cons, Nat.cast_add, Nat.cast_one]
    cases hj : jsIndex fileLines ci with
    | none =>
      simp only [hj, List.mem_append, List.mem_singleton] at h
      rcases h with h | h
      · exact Or.inl h
      · exact Or.inr (by omega)
    | some o =>
      simp only [hj] at h
      by_cases hl : linesAreEqual o line = true
      · simp only [hl, Bool.not_true, Bool.false_eq_true, if_false] at h
        rcases ih _ _ _ h with h | h
        · simp only [List.mem_append, List.mem_singleton] at h
          rcases h with h | h
          · exact Or.inl h
          · exact Or.inr (by omega)
        · exact Or.inr (by omega)
      · simp only [hl, Bool.not_false, if_true, List.mem_append, List.mem_singleton] at h
        rcases h with h | h
        · exact Or.inl h
        · exact Or.inr (by omega)

theorem evaluateParts_reads (fileLines : List String) (parts : List HunkPart) :
    ∀ (contextIndex : Int) (result : List Modification) (reads : List Int),
      (evaluateParts fileLines contextIndex parts result reads).reads =
        (matchLines fileLines contextIndex (originalLines parts) reads).1 := by
  induction parts with
  | nil => intro ci acc r; simp [evaluateParts, originalLines, matchLines]
  | cons part parts ih =>
    intro ci acc r
    cases hty : part.type with
    | insertion =>
      simp only [evaluateParts, hty, originalLines, if_true]
      rw [ih]
    | context =>
      simp only [evaluateParts, hty, originalLines, reduceCtorEq, if_false]
      rw [matchLines_append_full]
      rcases hm : matchLines fileLines ci part.lines r with ⟨rd, res⟩
      cases res with
      | error e => rfl
      | ok v =>
        cases v with
        | none => rfl
        | some c => simp only; rw [ih]
    | deletion =>
      simp only [evaluateParts, hty, originalLines, reduceCtorEq, if_false, if_true]
      rw [matchLines_append_full]
      rcases hm : matchLines fileLines ci part.lines r with ⟨rd, res⟩
      cases res with
      | error e => rfl
      | ok v =>
        cases v with
        | none => rfl
        | some c => simp only; rw [ih]

theorem matchLines_past_end (first : List String) (line : String) (rest : List String) :
    ∀ (done : List String) (reads : List Int),
      (matchLines (done ++ first) (done.length : Int) (first ++ line :: rest) reads).2 =
        .error undefinedLineError ∧
      (((done ++ first).length : Nat) : Int) ∈
        (matchLines (done ++ first) (done.length : Int) (first ++ line :: rest) reads).1 := by
  induction first with
  | nil =>
    intro done reads
    have hj : jsIndex done (done.length : Int) = none := by
      unfold jsIndex
      rw [if_neg (by omega)]
      simp
    simp [matchLines, hj]
  | cons l first ih =>
    intro done reads
    have hj : jsIndex (done ++ l :: first) (done.length : Int) = some l := by
      unfold jsIndex
      rw [if_neg (by omega), Int.toNat_ofNat,
        List.getElem?_append_right (Nat.le_refl _)]
      simp
    have h := ih (done ++ [l]) (reads ++ [(done.length : Int)])
    simp only [List.append_assoc, List.singleton_append, List.length_append,
      List.length_singleton, Nat.cast_add, Nat.cast_one, List.length_cons] at h
    simp only [List.cons_append, matchLines, hj, linesAreEqual_refl, Bool.not_true,
      Bool.false_eq_true, if_false, List.length_append, List.length_cons, Nat.cast_add,
      Nat.cast_one]
    exact h

/-- C25: for a hunk whose context and deletion lines are at most
`header.original.length` in number, whenever the two bounds checks of
`evaluateHunk` pass, every index at which the file is read lies in the file
and no error is raised; for a hunk with more context and deletion lines than
`header.original.length`, there are a file and a fuzz offset, 0 or 1, that
pass the bounds checks on which `evaluateHunk` reads the index just past the
end of the file and raises the error of `trimRight(undefined)` instead of
answering no-match. -/
theorem evaluateHunk_reads_within_file (hunk : Hunk) :
    ((originalLines hunk.parts).length ≤ hunk.header.original.length →
      ∀ (fileLines : List String) (fuzzingOffset : Int),
        0 ≤ (hunk.header.original.start : Int) - 1 + fuzzingOffset →
        ¬ ((fileLines.length : Int) - ((hunk.header.original.start : Int) - 1 + fuzzingOffset) <
          (hunk.header.original.length : Int)) →
        (∀ i ∈ (evaluateHunk hunk fileLines fuzzingOffset).reads,
          0 ≤ i ∧ i < (fileLines.length : Int)) ∧
        ∀ e, (evaluateHunk hunk fileLines fuzzingOffset).result ≠ .error e) ∧
    (hunk.header.original.length < (originalLines hunk.parts).length →
      ∃ (fileLines : List String) (fuzzingOffset : Int),
        (fuzzingOffset = 0 ∨ fuzzingOffset = 1) ∧
        0 ≤ (hunk.header.original.start : Int) - 1 + fuzzingOffset ∧
        ¬ ((fileLines.length : Int) - ((hunk.header.original.start : Int) - 1 + fuzzingOffset) <
          (hunk.header.original.length : Int)) ∧
        (evaluateHunk hunk fileLines fuzzingOffset).result = .error undefinedLineError ∧
        (fileLines.length : Int) ∈ (evaluateHunk hunk fileLines fuzzingOffset).reads) := by
  constructor
  · intro htotal fileLines fuzzingOffset h0 h1
    have hlen : (hunk.header.original.start : Int) - 1 + fuzzingOffset +
        ((originalLines hunk.parts).length : Int) ≤ (fileLines.length : Int) := by omega
    unfold evaluateHunk
    simp only [if_neg (not_lt.mpr h0), if_neg h1]
    constructor
    · intro i hi
      rw [evaluateParts_reads] at hi
      rcases matchLines_reads_range _ _ _ _ _ hi with h | h
      · simp at h
      · omega
    · intro e
      rw [evaluateParts_result, matchLines_in_range _ _ _ _ h0 hlen]
      split_ifs <;> simp
  · intro hover
    have hsplit : originalLines hunk.parts =
        (originalLines hunk.parts).take hunk.header.original.length ++
          (originalLines hunk.parts).drop hunk.header.original.length :=
      (List.take_append_drop _ _).symm
    cases hdrop : (originalLines hunk.parts).drop hunk.header.original.length with
    | nil =>
      have := congrArg List.length hdrop
      simp only [List.length_drop, List.length_nil] at this
      omega
    | cons line rest =>
      rw [hdrop] at hsplit
      have h := matchLines_past_end
        ((originalLines hunk.parts).take hunk.header.original.length) line rest
        (List.replicate (hunk.header.original.start - 1) "") []
      rw [← hsplit] at h
      simp only [List.length_replicate] at h
      have hci : (hunk.header.original.start : Int) - 1 +
          (if hunk.header.original.start = 0 then (1 : Int) else 0) =
          ((hunk.header.original.start - 1 : Nat) : Int) := by
        split_ifs <;> omega
      have hnot : ¬ (((List.replicate (hunk.header.original.start - 1) "" ++
          (originalLines hunk.parts).take hunk.header.original.length).length : Int) -
          ((hunk.header.original.start - 1 : Nat) : Int) <
          (hunk.header.original.length : Int)) := by
        rw [List.length_append, List.length_replicate, List.length_take,
          Nat.min_eq_left (by omega)]
        push_cast
        omega
      have hneg : ¬ (((hunk.header.original.start - 1 : Nat) : Int) < 0) := by omega
      refine ⟨List.replicate (hunk.header.original.start - 1) "" ++
          (originalLines hunk.parts).take hunk.header.original.length,
        if hunk.header.original.start = 0 then 1 else 0, ?_, ?_, ?_, ?_, ?_⟩
      · split_ifs
        · exact Or.inr rfl
        · exact Or.inl rfl
      · rw [hci]; omega
      · rw [hci]; exact hnot
      · unfold evaluateHunk
        simp only [hci, hneg, if_false, hnot]
        rw [evaluateParts_result, h.1]
      · unfold evaluateHunk
        simp only [hci, hneg, if_false, hnot]
        rw [evaluateParts_reads]
        exact h.2

/-- The reads of the hunk that replaces `x`, probed one line below its declared
start in a file of three lines. -/
theorem evaluateHunk_reads_within_file_witness :
    (∀ i ∈ (evaluateHunk replaceHunk shiftedByOne 1).reads,
      0 ≤ i ∧ i < (shiftedByOne.length : Int)) ∧
    ∀ e, (evaluateHunk replaceHunk shiftedByOne 1).result ≠ .error e :=
  (evaluateHunk_reads_within_file replaceHunk).1 (by decide) shiftedByOne 1 (by decide)
    (by decide)

/-! ## One hunk applied, and several hunks applied in one pass -/

theorem modifiedLines_length_add (parts : List HunkPart) :
    (modifiedLines parts).length + deletedCount parts =
      (originalLines parts).length + insertedCount parts := by
  induction parts with
  | nil => rfl
  | cons part parts ih =>
    cases hty : part.type <;>
      simp [modifiedLines, originalLines, insertedCount, deletedCount, hty] <;> omega

theorem evaluateHunk_match_at (hunk : Hunk) (fileLines : List String) (fuzzingOffset : Int)
    (modifications : List Modification)
    (h : (evaluateHunk hunk fileLines fuzzingOffset).result = .ok (some modifications)) :
    0 ≤ contextStart hunk fuzzingOffset ∧
    (contextStart hunk fuzzingOffset).toNat + hunk.header.original.length ≤ fileLines.length ∧
    modifications =
      expectedModifications (((contextStart hunk fuzzingOffset).toNat : Nat) : Int)
        hunk.parts ∧
    segmentMatches (fileLines.drop (contextStart hunk fuzzingOffset).toNat)
      (originalLines hunk.parts) = true := by
  unfold evaluateHunk at h
  rw [← contextStart.eq_1] at h
  by_cases h0 : contextStart hunk fuzzingOffset < 0
  · rw [if_pos h0] at h; simp at h
  · by_cases h1 : (fileLines.length : Int) - contextStart hunk fuzzingOffset <
        (hunk.header.original.length : Int)
    · rw [if_neg h0, if_pos h1] at h; simp at h
    · have hp : contextStart hunk fuzzingOffset =
          (((contextStart hunk fuzzingOffset).toNat : Nat) : Int) := by omega
      simp only [h0, h1, if_false, evaluateParts_result] at h
      rw [hp] at h
      refine ⟨by omega, by omega, ?_⟩
      cases hm : (matchLines fileLines (((contextStart hunk fuzzingOffset).toNat : Nat) : Int)
          (originalLines hunk.parts) []).2 with
      | error e => rw [hm] at h; simp at h
      | ok v =>
        cases v with
        | none => rw [hm] at h; simp at h
        | some c =>
          rw [hm] at h
          refine ⟨by simpa using h.symm, ?_⟩
          rw [← linesOccurAt_eq_segmentMatches]
          exact (matchLines_some _ _ _ _ _ hm).1

/-- C26: when `evaluateHunk` matches a hunk without `noNewlineAtEndOfFile`
flags at the 0-based position `p`, applying the edits it returns gives the
lines before `p`, then the lines `patchedSegment` (for a context part the lines
of the file, for an insertion part the lines of the patch, nothing for a
deletion part), then the lines from `p + k` on, where `k` is the number of
context and deletion lines. The lines before `p` and from `p + k` on are
unchanged, and the new length is the old one plus the inserted lines minus the
deleted lines. -/
theorem applyModifications_matched_hunk (hunk : Hunk) (fileLines : List String)
    (fuzzingOffset : Int) (modifications : List Modification)
    (hflags : noFlags hunk.parts)
    (h : (evaluateHunk hunk fileLines fuzzingOffset).result = .ok (some modifications)) :
    (contextStart hunk fuzzingOffset).toNat + (originalLines hunk.parts).length ≤
      fileLines.length ∧
    applyModifications fileLines [modifications] =
      fileLines.take (contextStart hunk fuzzingOffset).toNat ++
        patchedSegment (fileLines.drop (contextStart hunk fuzzingOffset).toNat) hunk.parts ++
        fileLines.drop
          ((contextStart hunk fuzzingOffset).toNat + (originalLines hunk.parts).length) ∧
    (applyModifications fileLines [modifications]).take (contextStart hunk fuzzingOffset).toNat =
      fileLines.take (contextStart hunk fuzzingOffset).toNat ∧
    (applyModifications fileLines [modifications]).drop
        ((contextStart hunk fuzzingOffset).toNat +
          (patchedSegment (fileLines.drop (contextStart hunk fuzzingOffset).toNat)
            hunk.parts).length) =
      fileLines.drop
        ((contextStart hunk fuzzingOffset).toNat + (originalLines hunk.parts).length) ∧
    (applyModifications fileLines [modifications]).length + deletedCount hunk.parts =
      fileLines.length + insertedCount hunk.parts := by
  obtain ⟨_, hbound, hmods, hseg⟩ := evaluateHunk_match_at hunk fileLines fuzzingOffset
    modifications h
  have hk := segmentMatches_length _ _ hseg
  have hp : (contextStart hunk fuzzingOffset).toNat ≤ fileLines.length := by omega
  have hform := applyModifications_expected fileLines (contextStart hunk fuzzingOffset).toNat
    hunk.parts hflags hp hk
  rw [← hmods] at hform
  have hseglen := patchedSegment_length hunk.parts
    (fileLines.drop (contextStart hunk fuzzingOffset).toNat) hk
  have hadd := modifiedLines_length_add hunk.parts
  simp only [List.length_drop] at hk
  refine ⟨by omega, hform, ?_, ?_, ?_⟩
  · rw [hform, List.append_assoc, List.take_left']
    simp [Nat.min_eq_left hp]
  · rw [hform, List.drop_left']
    simp [Nat.min_eq_left hp]
  · rw [hform]
    simp only [List.length_append, List.length_take, List.length_drop, hseglen,
      Nat.min_eq_left hp]
    omega

/-- The hunk that replaces `x`, matched one line below its declared start in a
file of three lines. -/
theorem applyModifications_matched_hunk_witness :
    applyModifications shiftedByOne [[.splice 1 1 [], .splice 2 0 ["y"]]] =
      shiftedByOne.take (contextStart replaceHunk 1).toNat ++
        patchedSegment (shiftedByOne.drop (contextStart replaceHunk 1).toNat)
          replaceHunk.parts ++
        shiftedByOne.drop
          ((contextStart replaceHunk 1).toNat + (originalLines replaceHunk.parts).length) :=
  (applyModifications_matched_hunk replaceHunk shiftedByOne 1
    [.splice 1 1 [], .splice 2 0 ["y"]] (by decide) (by decide)).2.1

theorem foldl_applyModification_diffOffset (modifications : List Modification) :
    ∀ (st : ApplyState),
      (modifications.foldl applyModification st).diffOffset =
        st.diffOffset + (modifications.map lengthDelta).sum := by
  induction modifications with
  | nil => intro st; simp
  | cons m rest ih =>
    intro st
    rw [List.foldl_cons, ih, applyModification_eq_performAt]
    simp only [List.map_cons, List.sum_cons]
    omega

theorem expectedModifications_lengthDelta (parts : List HunkPart) :
    ∀ (cursor : Int),
      ((expectedModifications cursor parts).map lengthDelta).sum =
        (insertedCount parts : Int) - (deletedCount parts : Int) := by
  induction parts with
  | nil => intro c; simp [expectedModifications, insertedCount, deletedCount]
  | cons part parts ih =>
    intro c
    cases hty : part.type <;> cases hflag : part.noNewlineAtEndOfFile <;>
      simp [expectedModifications, insertedCount, deletedCount, hty, hflag, lengthDelta, ih] <;>
      omega

theorem foldl_expectedModifications_state (parts : List HunkPart) (cursor drift : Int)
    (before segment : List String) (hflags : noFlags parts)
    (hcursor : cursor + drift = before.length)
    (hlen : (originalLines parts).length ≤ segment.length) :
    (expectedModifications cursor parts).foldl applyModification ⟨before ++ segment, drift⟩ =
      ⟨before ++ patchedSegment segment parts ++ segment.drop (originalLines parts).length,
        drift + ((insertedCount parts : Int) - (deletedCount parts : Int))⟩ := by
  have h1 := foldl_expectedModifications parts cursor drift before segment hflags hcursor hlen
  have h2 := foldl_applyModification_diffOffset (expectedModifications cursor parts)
    ⟨before ++ segment, drift⟩
  rw [expectedModifications_lengthDelta] at h2
  cases hst : (expectedModifications cursor parts).foldl applyModification
    ⟨before ++ segment, drift⟩ with
  | mk lines offset =>
    rw [hst] at h1 h2
    simp only at h1 h2
    rw [h1, h2]

theorem evaluateHunk_at_segment (hunk : Hunk) (before segment : List String)
    (fuzzingOffset : Int)
    (hstart : contextStart hunk fuzzingOffset = before.length)
    (hbound : hunk.header.original.length ≤ segment.length)
    (hseg : segmentMatches segment (originalLines hunk.parts) = true) :
    (evaluateHunk hunk (before ++ segment) fuzzingOffset).result =
      .ok (some (expectedModifications (before.length : Int) hunk.parts)) := by
  unfold evaluateHunk
  rw [← contextStart.eq_1, hstart]
  have h0 : ¬ ((before.length : Int) < 0) := by omega
  have h1 : ¬ (((before ++ segment).length : Int) - (before.length : Int) <
      (hunk.header.original.length : Int)) := by
    simp only [List.length_append, Nat.cast_add]
    omega
  simp only [h0, h1, if_false, evaluateParts_result, List.nil_append]
  have hocc : linesOccurAt (before ++ segment) (before.length : Int)
      (originalLines hunk.parts) = true := by
    rw [linesOccurAt_eq_segmentMatches, List.drop_left']
    · exact hseg
    · rfl
  rw [matchLines_of_occur _ _ _ _ hocc]

theorem applySequentially_eq_foldl (fileLines : List String) :
    ∀ (hunks : List (Hunk × Int)) (before : List String) (q : Nat) (drift : Int),
      q ≤ fileLines.length →
      (before.length : Int) = (q : Int) + drift →
      matchInOrder fileLines q hunks →
      applySequentially (before ++ fileLines.drop q) drift hunks =
        some (((hunks.map (fun ho => expectedModifications
            (((contextStart ho.1 ho.2).toNat : Nat) : Int) ho.1.parts)).flatten.foldl
          applyModification ⟨before ++ fileLines.drop q, drift⟩).fileLines) := by
  intro hunks
  induction hunks with
  | nil => intro before q drift _ _ _; simp [applySequentially]
  | cons ho rest ih =>
    intro before q drift hq hlen hord
    obtain ⟨hunk, offset⟩ := ho
    obtain ⟨hflags, ⟨mods, hm⟩, hqp, hrest⟩ := hord
    obtain ⟨h0, hbound, _, hseg⟩ := evaluateHunk_match_at hunk fileLines offset mods hm
    have hk := segmentMatches_length _ _ hseg
    simp only [List.length_drop] at hk
    generalize hp : (contextStart hunk offset).toNat = p at hbound hseg hk hrest
    have hpq : q ≤ p := by omega
    have hcs : contextStart hunk offset = (p : Int) := by omega
    have hsplit : fileLines.drop q = (fileLines.drop q).take (p - q) ++ fileLines.drop p := by
      have h := (List.take_append_drop (p - q) (fileLines.drop q)).symm
      rw [List.drop_drop] at h
      rw [show q + (p - q) = p by omega] at h
      exact h
    have hbefore : ((before ++ (fileLines.drop q).take (p - q)).length : Int) =
        (p : Int) + drift := by
      simp only [List.length_append, List.length_take, List.length_drop, Nat.cast_add]
      rw [Nat.min_eq_left (by omega)]
      omega
    have hcur : before ++ fileLines.drop q =
        (before ++ (fileLines.drop q).take (p - q)) ++ fileLines.drop p := by
      rw [List.append_assoc, ← hsplit]
    have hstart : contextStart hunk (offset + drift) =
        ((before ++ (fileLines.drop q).take (p - q)).length : Int) := by
      rw [hbefore, ← hcs]
      unfold contextStart
      omega
    have heval := evaluateHunk_at_segment hunk (before ++ (fileLines.drop q).take (p - q))
      (fileLines.drop p) (offset + drift) hstart (by simp only [List.length_drop]; omega) hseg
    have hseglen : (originalLines hunk.parts).length ≤ (fileLines.drop p).length := by
      simp only [List.length_drop]; omega
    have hone := foldl_expectedModifications_state hunk.parts (p : Int) drift
      (before ++ (fileLines.drop q).take (p - q)) (fileLines.drop p) hflags
      (by rw [hbefore]) hseglen
    have hseq := foldl_expectedModifications_state hunk.parts
      ((before ++ (fileLines.drop q).take (p - q)).length : Int) 0
      (before ++ (fileLines.drop q).take (p - q)) (fileLines.drop p) hflags
      (by omega) hseglen
    have happly : applyModifications
        ((before ++ (fileLines.drop q).take (p - q)) ++ fileLines.drop p)
        [expectedModifications ((before ++ (fileLines.drop q).take (p - q)).length : Int)
          hunk.parts] =
        (before ++ (fileLines.drop q).take (p - q)) ++
          patchedSegment (fileLines.drop p) hunk.parts ++
          fileLines.drop (p + (originalLines hunk.parts).length) := by
      rw [applyModifications_eq_foldl]
      simp only [List.flatten_cons, List.flatten_nil, List.append_nil]
      rw [hseq, List.drop_drop, Nat.add_comm]
    have hpatched := patchedSegment_length hunk.parts (fileLines.drop p) hseglen
    have hadd := modifiedLines_length_add hunk.parts
    have hshift : (((before ++ (fileLines.drop q).take (p - q)) ++
          patchedSegment (fileLines.drop p) hunk.parts ++
          fileLines.drop (p + (originalLines hunk.parts).length)).length : Int) -
        ((((before ++ (fileLines.drop q).take (p - q)) ++ fileLines.drop p).length : Nat) : Int) =
        (insertedCount hunk.parts : Int) - (deletedCount hunk.parts : Int) := by
      simp only [List.length_append, List.length_drop, Nat.cast_add, hpatched]
      omega
    have hnext := ih
      ((before ++ (fileLines.drop q).take (p - q)) ++ patchedSegment (fileLines.drop p) hunk.parts)
      (p + (originalLines hunk.parts).length)
      (drift + ((insertedCount hunk.parts : Int) - (deletedCount hunk.parts : Int)))
      (by omega)
      (by
        rw [List.length_append, Nat.cast_add, hbefore, hpatched]
        push_cast
        omega)
      hrest
    rw [hcur]
    simp only [List.map_cons, List.flatten_cons, List.foldl_append, applySequentially, heval,
      happly, hshift, hp, hone, List.drop_drop]
    exact hnext

theorem fuzzSearch_matched_offset (hunk : Hunk) (fileLines : List String)
    (modifications : List Modification)
    (h : (fuzzSearch hunk fileLines).outcome = .matched modifications) :
    (evaluateHunk hunk fileLines (matchedOffset hunk fileLines)).result =
      .ok (some modifications) := by
  obtain ⟨taken, h1, _, h3⟩ := scanProbes_spec hunk fileLines probeOrder []
  rw [← fuzzSearch_eq_scanProbes] at h1 h3
  rw [h] at h3
  obtain ⟨pre, offset, e1, _, e3⟩ := h3
  have hlast : matchedOffset hunk fileLines = offset := by
    unfold matchedOffset
    rw [h1, e1]
    simp
  rw [hlast]
  exact e3

theorem searchHunks_ok_matched (fileLines : List String) (path : String) :
    ∀ (hunks : List Hunk) (index : Nat) (acc result : List (List Modification))
      (errors errors2 : Option (List String)),
      searchHunks fileLines false path hunks index acc errors = (.ok result, errors2) →
      result = acc ++ hunks.map (fun h => expectedModifications
        (((contextStart h (matchedOffset h fileLines)).toNat : Nat) : Int) h.parts) ∧
      ∀ h ∈ hunks, ∃ m, (evaluateHunk h fileLines (matchedOffset h fileLines)).result =
        .ok (some m) := by
  intro hunks
  induction hunks with
  | nil =>
    intro index acc result errors errors2 h
    simp only [searchHunks, Prod.mk.injEq, Except.ok.injEq] at h
    simp [h.1]
  | cons hunk hunks ih =>
    intro index acc result errors errors2 h
    simp only [searchHunks] at h
    cases hout : (fuzzSearch hunk fileLines).outcome with
    | threw e => rw [hout] at h; simp at h
    | unresolvable => rw [hout] at h; simp at h
    | matched m =>
      rw [hout] at h
      simp only at h
      have heval := fuzzSearch_matched_offset hunk fileLines m hout
      obtain ⟨_, _, hm, _⟩ := evaluateHunk_match_at hunk fileLines _ m heval
      obtain ⟨hres, hall⟩ := ih _ _ _ _ _ h
      refine ⟨?_, ?_⟩
      · rw [hres, hm]; simp
      · intro h' hh
        rcases List.mem_cons.1 hh with rfl | hh
        · exact ⟨m, heval⟩
        · exact hall h' hh

/-- C27: when the hunk loop of `applyPatch` matches every hunk of a list
against the unmodified lines, the hunks have no `noNewlineAtEndOfFile` flags
and the matched regions follow one another in increasing order, the lines
that the loops over the modifications produce are the lines obtained by
applying the hunks one after another, each evaluated against the lines already
updated, at its matched offset shifted by the cumulative length change. For
the hunks `insertAfterCHunk` and `deleteAHunk`, matched in decreasing order in
a file of four lines, the one pass deletes the line `b`, and the sequential
application finds no match. -/
theorem applyPatch_one_pass_sequential :
    (∀ (fileLines : List String) (hunks : List Hunk) (path : String)
      (result : List (List Modification)) (errors errors2 : Option (List String)),
      searchHunks fileLines false path hunks 0 [] errors = (.ok result, errors2) →
      matchInOrder fileLines 0 (hunks.map (fun h => (h, matchedOffset h fileLines))) →
      applySequentially fileLines 0 (hunks.map (fun h => (h, matchedOffset h fileLines))) =
        some (applyModifications fileLines result)) ∧
    (searchHunks fourLines false "f" [insertAfterCHunk, deleteAHunk] 0 [] none =
        (.ok [[.splice 3 0 ["x"]], [.splice 0 1 []]], none) ∧
      applyModifications fourLines [[.splice 3 0 ["x"]], [.splice 0 1 []]] =
        ["a", "c", "x", "d"] ∧
      applySequentially fourLines 0
        ([insertAfterCHunk, deleteAHunk].map (fun h => (h, matchedOffset h fourLines))) =
        none) := by
  constructor
  · intro fileLines hunks path result errors errors2 hsearch hordered
    obtain ⟨hres, _⟩ := searchHunks_ok_matched fileLines path hunks 0 [] result errors errors2
      hsearch
    have h := applySequentially_eq_foldl fileLines
      (hunks.map (fun h => (h, matchedOffset h fileLines))) [] 0 0 (Nat.zero_le _) (by simp)
      hordered
    simp only [List.nil_append, List.drop_zero, List.map_map] at h hres
    rw [h, applyModifications_eq_foldl, hres]
    rfl
  · simp only [searchHunks, List.map, matchedOffset, fuzzSearch_eq_scanProbes]
    decide

/-- The hunks `insertAfterCHunk` and `deleteDHunk`, matched in increasing order
in the file of four lines. -/
theorem applyPatch_one_pass_sequential_witness :
    applySequentially fourLines 0
        ([insertAfterCHunk, deleteDHunk].map (fun h => (h, matchedOffset h fourLines))) =
      some (applyModifications fourLines [[.splice 3 0 ["x"]], [.splice 3 1 []]]) :=
  applyPatch_one_pass_sequential.1 fourLines [insertAfterCHunk, deleteDHunk] "f"
    [[.splice 3 0 ["x"]], [.splice 3 1 []]] none none
    (by simp only [searchHunks, fuzzSearch_eq_scanProbes]; decide)
    (by
      simp only [List.map, matchInOrder, matchedOffset, fuzzSearch_eq_scanProbes]
      refine ⟨by decide, ⟨[.splice 3 0 ["x"]], by decide⟩, by decide, by decide,
        ⟨[.splice 3 1 []], by decide⟩, by decide, trivial⟩)

/-! ## A rename followed by a patch -/

/-- C29: for the document `[rename(a -> b), patch(b, hunks)]` on a file system
where `a` is a file and nothing exists at `b`, the dry run passes the rename,
changes nothing, and raises on the patch effect, because `b` cannot be read;
the real run on the same file system moves `a` to `b` and then runs the patch
effect on the moved file, and when the hunk loop succeeds on the content of
`a` it writes the patched content to `b` and raises nothing. -/
theorem executeEffects_rename_then_patch (bestEffort : Bool) (cwd : Option String)
    (a b : String) (hunks : List Hunk) (w : World) (content : String) (mode : Nat)
    (ha : w.fs (inCwd cwd a) = some (.file content mode))
    (hb : w.fs (inCwd cwd b) = none) :
    executeEffects ⟨true, bestEffort, cwd⟩ [.rename a b, .patch b hunks] w =
      ⟨w, some ("ENOENT: no such file or directory, open " ++ inCwd cwd b)⟩ ∧
    executeEffects ⟨false, bestEffort, cwd⟩ [.rename a b, .patch b hunks] w =
      Apply.applyPatch hunks b ⟨false, bestEffort, cwd⟩
        ⟨(w.fs.set (inCwd cwd a) none).set (inCwd cwd b) (some (.file content mode)),
          w.errors⟩ ∧
    (∀ result errors,
      searchHunks (splitLines content) bestEffort (inCwd cwd b) hunks 0 [] w.errors =
        (.ok result, errors) →
      executeEffects ⟨false, bestEffort, cwd⟩ [.rename a b, .patch b hunks] w =
        ⟨⟨((w.fs.set (inCwd cwd a) none).set (inCwd cwd b) (some (.file content mode))).set
            (inCwd cwd b)
            (some (.file (joinLines (applyModifications (splitLines content) result)) mode)),
          errors⟩, none⟩) := by
  have hne : inCwd cwd a ≠ inCwd cwd b := by
    intro h
    rw [h, hb] at ha
    cases ha
  have hreal : executeEffects ⟨false, bestEffort, cwd⟩ [.rename a b, .patch b hunks] w =
      Apply.applyPatch hunks b ⟨false, bestEffort, cwd⟩
        ⟨(w.fs.set (inCwd cwd a) none).set (inCwd cwd b) (some (.file content mode)),
          w.errors⟩ := by
    simp [executeEffects, executeEffect, moveSync, ha, hne, existsSync, hb, bestEffortCatch]
    generalize Apply.applyPatch hunks b ⟨false, bestEffort, cwd⟩
      ⟨(w.fs.set (inCwd cwd a) none).set (inCwd cwd b) (some (.file content mode)),
        w.errors⟩ = run
    rcases run with ⟨w2, _ | e⟩ <;> rfl
  refine ⟨?_, hreal, ?_⟩
  · simp [executeEffects, executeEffect, existsSync, ha, Apply.applyPatch, readFileSync, hb]
  · intro result errors hsearch
    rw [hreal]
    simp [Apply.applyPatch, readFileSync, statSyncMode, FileSystem.set, hsearch, writeFileSync,
      bestEffortCatch]

/-- The file `f` of `oneLineFs` renamed to `g` and patched there: the dry run
raises on the patch effect. -/
theorem executeEffects_rename_then_patch_witness :
    executeEffects ⟨true, false, none⟩ [.rename "f" "g", .patch "g" [appendHunk]]
        ⟨oneLineFs, none⟩ =
      ⟨⟨oneLineFs, none⟩, some ("ENOENT: no such file or directory, open " ++ inCwd none "g")⟩ :=
  (executeEffects_rename_then_patch false none "f" "g" [appendHunk] ⟨oneLineFs, none⟩ "a\n"
    0o644 (by decide) (by decide)).1

end PatchPackage
